import Mathlib

/-!
Verification development for the ActionHypergraphs repository
(`src/main/hypergraph.py`).  The Python classes `Relationship`, `Node`,
`Edge`, `Hypergraph` and `Pathfinder` are embedded shallowly: Python
objects live in an arena (`Hypergraph.arena`) indexed by allocation
order, so object identity and label identity stay distinct exactly as
in Python; mutation becomes explicit state passing; `float` weights and
values are modelled as exact rationals (all values exercised here are
small integers, on which float arithmetic is exact) with `float('inf')`
modelled as the top element of `WithTop ℚ`; Python exceptions become an
`Except PyErr` result.
-/

namespace AH

/-- Kinds of Python exception the embedded code can raise.  `fuelOut` is an
embedding artifact for the `while` loop and recursions and corresponds to no
Python behaviour: theorems about loop results are stated on runs that return
without exhausting fuel. -/
inductive PyErr where
  | typeError
  | attributeError
  | keyError
  | indexError
  | valueError
  | exceptionRaised
  | fuelOut
  deriving Repr, DecidableEq

/-- Python values handled by relationship mappings; the repository's demos use
numbers, modelled as exact rationals. -/
abbrev Val := ℚ

/-- Mapping functions (`lambda l: ...` in Python) take the list of source
values and may raise (e.g. `l[0]` on an empty list is an IndexError). -/
abbrev Mapping := List Val → Except PyErr Val

/-- Embeds class `Relationship`: a label together with the optional mapping
exactly as stored by `Relationship.__init__` (see `mkRelationship`). -/
structure Relationship where
  label : String
  mapping : Option Mapping

/-- Embeds `Relationship.__init__`.  The Python body sets
`self.label = label`; when `mapping is None` it overwrites the label with
"equivalent#rel" and sets `self.mapping` to the first-element lambda, but the
final unconditional `self.mapping = mapping` then stores the *argument* back,
so a relationship built without a mapping ends with `mapping = None`. -/
def mkRelationship (label : String) (mapping : Option Mapping) : Relationship :=
  { label := if mapping.isNone then "equivalent#rel" else label
    mapping := mapping }

/-- Embeds `Relationship.__call__` applied to a list argument (the
`isinstance(source_set, list)` test passes, so no wrapping happens).  Calling
a relationship whose stored `mapping` is `None` is Python
`None(source_set)`, a TypeError. -/
def Relationship.callList (r : Relationship) (source_set : List Val) :
    Except PyErr Val :=
  match r.mapping with
  | none => .error .typeError
  | some f => f source_set

/-- Embeds `Relationship.__call__` applied to a non-list argument, which the
body wraps into a one-element list before applying the mapping. -/
def Relationship.callScalar (r : Relationship) (v : Val) : Except PyErr Val :=
  r.callList [v]

/-- Mapping of the `equivalent`/`to` relationships built inside
`Hypergraph.__init__`: `lambda l: l[0]` (IndexError on an empty list). -/
def firstMapping : Mapping := fun l =>
  match l with
  | [] => .error .indexError
  | x :: _ => .ok x

/-- Mapping of `plus_rel` from the demos: `lambda source: sum(source)`
(Python `sum` of an empty list is `0`). -/
def plusMapping : Mapping := fun l => .ok l.sum

/-- Mapping of `negate_rel` from the demos: `lambda source: -source[0]`. -/
def negateMapping : Mapping := fun l =>
  match l with
  | [] => .error .indexError
  | x :: _ => .ok (-x)

/-- Arena index of a Python `Node` object; distinct indices are distinct
objects even when their labels coincide. -/
abbrev NodeId := Nat

/-- Embeds class `Edge`.  `source` and `target` are object references.
`eid` is the embedding's stand-in for Python object identity of the edge
(each `Edge(...)` construction yields a fresh `eid`); it is used exactly
where Python compares edges by identity (tuple equality in
`list.remove`/`list.index` on the priority queue). -/
structure Edge where
  eid : Nat
  source : NodeId
  target : NodeId
  weight : ℚ
  rel : Relationship

/-- Embeds the data fields of class `Node`.  `dependencies = none` means the
node is simple (`Node.isSimple`). -/
structure NodeObj where
  label : String
  full_edges : List Edge
  dotted_edges : List Edge
  dependencies : Option (List NodeId)
  value : Option Val

instance : Inhabited NodeObj :=
  ⟨{ label := "", full_edges := [], dotted_edges := [], dependencies := none,
     value := none }⟩

/-- Embeds class `Hypergraph` plus the arena of every `Node` object created
so far (`arena`) and the edge-identity counter (`nextEid`).
`simple_nodes` and `compnd_nodes` hold object references as in Python. -/
structure Hypergraph where
  arena : List NodeObj
  nextEid : Nat
  equiv_rel : Relationship
  dotted_rel : Relationship
  lastID : Nat
  simple_nodes : List NodeId
  compnd_nodes : List NodeId

/-- Embeds `Hypergraph.__init__` with the default empty node list:
`equiv_rel` and `dotted_rel` both carry the first-element lambda. -/
def emptyHypergraph : Hypergraph :=
  { arena := []
    nextEid := 0
    equiv_rel := mkRelationship "equivalent#rel" (some firstMapping)
    dotted_rel := mkRelationship "to#rel" (some firstMapping)
    lastID := 0
    simple_nodes := []
    compnd_nodes := [] }

/-- Dereferences an object reference (out-of-range references never occur in
the embedded runs; the default object keeps the function total). -/
def getObj (hg : Hypergraph) (i : NodeId) : NodeObj :=
  hg.arena.getD i default

/-- Writes back a mutated node object. -/
def setObj (hg : Hypergraph) (i : NodeId) (o : NodeObj) : Hypergraph :=
  { hg with arena := hg.arena.set i o }

/-- Allocates a fresh `Node` object (a Python `Node(...)` construction). -/
def allocNode (hg : Hypergraph) (o : NodeObj) : Hypergraph × NodeId :=
  ({ hg with arena := hg.arena ++ [o] }, hg.arena.length)

/-- Embeds `Node.isSimple`: `self.dependencies is None`. -/
def isSimple (hg : Hypergraph) (i : NodeId) : Bool :=
  (getObj hg i).dependencies.isNone

/-- Embeds `Node.__eq__` restricted to node arguments (every node has a
`label` attribute, so `hasattr` succeeds and the result is label equality). -/
def nodeEqPy (a b : NodeObj) : Bool :=
  b.label == a.label

/-- Embeds `Node.__eq__` on two object references. -/
def nodeRefEq (hg : Hypergraph) (i j : NodeId) : Bool :=
  nodeEqPy (getObj hg i) (getObj hg j)

/-- Embeds the string fed to the hash in `Node.__hash__`
(`s = self.label`); the hash is a pure function of this string. -/
def nodeHashKey (n : NodeObj) : String :=
  n.label

/-- Embeds the relationship default of `Edge.__init__`:
`Relationship("equivalent#rel") if rel is None else rel` (the former has a
`None` mapping, see `mkRelationship`). -/
def defaultEdgeRel (rel : Option Relationship) : Relationship :=
  match rel with
  | none => mkRelationship "equivalent#rel" none
  | some r => r

/-- Embeds `Node.addEdge`: builds `Edge(self, node, weight, rel)` and
appends it to `full_edges` when the target is simple, else to
`dotted_edges`. -/
def nodeAddEdge (hg : Hypergraph) (i : NodeId) (node : NodeId)
    (weight : ℚ) (rel : Option Relationship) : Hypergraph :=
  let e : Edge := { eid := hg.nextEid, source := i, target := node,
                    weight := weight, rel := defaultEdgeRel rel }
  let hg2 := { hg with nextEid := hg.nextEid + 1 }
  let o := getObj hg i
  if isSimple hg node then
    setObj hg2 i { o with full_edges := o.full_edges ++ [e] }
  else
    setObj hg2 i { o with dotted_edges := o.dotted_edges ++ [e] }

/-- Embeds `Hypergraph.getNodes`: simple nodes then compound nodes. -/
def getNodes (hg : Hypergraph) : List NodeId :=
  hg.simple_nodes ++ hg.compnd_nodes

/-- Embeds the search loop of `Hypergraph.getNode` (the `toMake=False`
behaviour): first node whose label matches, else `None`. -/
def getNodeNoMake (hg : Hypergraph) (label : String) : Option NodeId :=
  (getNodes hg).find? (fun i => (getObj hg i).label == label)

/-- Embeds `Hypergraph.assignID` followed by the append in
`Hypergraph.addNode`: the collision test against all current node labels, the
silent relabelling to `"N" + str(lastID)`, the `lastID` bump, and the append
to `simple_nodes` or `compnd_nodes`. -/
def addNodeCommon (hg : Hypergraph) (i : NodeId) : Hypergraph :=
  let o0 := getObj hg i
  let o := if (getNodes hg).any (fun j => (getObj hg j).label == o0.label) then
      { o0 with label := "N" ++ toString hg.lastID }
    else o0
  let hg2 := if o.dependencies.isNone then
      { hg with lastID := hg.lastID + 1,
                simple_nodes := hg.simple_nodes ++ [i] }
    else
      { hg with lastID := hg.lastID + 1,
                compnd_nodes := hg.compnd_nodes ++ [i] }
  setObj hg2 i o

/-- Embeds `Hypergraph.addNode` called with a string: constructs
`Node(node, dependencies)` and runs the common path. -/
def addNodeStr (hg : Hypergraph) (label : String)
    (dependencies : Option (List NodeId) := none) : Hypergraph :=
  let pr := allocNode hg
    { label := label, full_edges := [], dotted_edges := [],
      dependencies := dependencies, value := none }
  addNodeCommon pr.1 pr.2

/-- Embeds `Hypergraph.getNode` with `toMake=True`: on a miss, add a fresh
simple node with that label and search again. -/
def getNodeMake (hg : Hypergraph) (label : String) :
    Hypergraph × Option NodeId :=
  match getNodeNoMake hg label with
  | some i => (hg, some i)
  | none =>
    let hg := addNodeStr hg label
    (hg, getNodeNoMake hg label)

/-- Argument that Python call sites pass either as a node label (string) or
as a `Node` object reference. -/
inductive NodeArg where
  | str (s : String)
  | node (i : NodeId)

/-- Resolution step of `Hypergraph.addEdge` on one source/target argument:
strings go through `getNode(·, toMake=True)`, node objects pass through. -/
def resolveMake (hg : Hypergraph) (a : NodeArg) : Hypergraph × Option NodeId :=
  match a with
  | .str s => getNodeMake hg s
  | .node i => (hg, some i)

/-- Resolves a source list left to right, threading the graph.  A `none`
result cannot actually occur (`toMake=True` always finds the node it just
added); Python would let the `None` flow on and raise AttributeError at the
first attribute access, modelled here as an immediate AttributeError. -/
def resolveArgsMake (hg : Hypergraph) :
    List NodeArg → Except PyErr (Hypergraph × List NodeId)
  | [] => .ok (hg, [])
  | a :: as =>
    match resolveMake hg a with
    | (_, none) => .error .attributeError
    | (hg1, some i) =>
      match resolveArgsMake hg1 as with
      | .error err => .error err
      | .ok (hg2, l) => .ok (hg2, i :: l)

/-- Embeds `Hypergraph.makeNewCompoundNode`: the label is the concatenation
of the first character of each dependency label (`p.label[0]`; on an empty
dependency label Python would raise IndexError, a case no run here reaches
since every label built is nonempty), the new node carries `dependencies`,
gets one edge to `target` with the *given* weight and relationship, and is
then registered through `addNode`. -/
def makeNewCompoundNode (hg : Hypergraph) (dependencies : List NodeId)
    (target : NodeId) (weight : ℚ) (rel : Relationship) :
    Hypergraph × NodeId :=
  let label := String.join (dependencies.map (fun p => (getObj hg p).label.take 1))
  let pr := allocNode hg
    { label := label, full_edges := [], dotted_edges := [],
      dependencies := some dependencies, value := none }
  let hg1 := nodeAddEdge pr.1 pr.2 target weight (some rel)
  (addNodeCommon hg1 pr.2, pr.2)

/-- Embeds `Hypergraph.addEdge` (sources already in list form; Python wraps a
non-list argument into a one-element list first): resolve sources and target
with `toMake=True`, default the relationship to `equiv_rel`, promote to a new
compound node when more than one source feeds a simple target, force the
relationship to `dotted_rel` and the weight to `0` when the (possibly
promoted) target is compound, then add one edge from every source. -/
def addEdge (hg0 : Hypergraph) (source : List NodeArg) (target : NodeArg)
    (rel : Option Relationship := none) (weight : ℚ := 1) :
    Except PyErr Hypergraph :=
  match resolveArgsMake hg0 source with
  | .error err => .error err
  | .ok (hg1, src) =>
    match resolveMake hg1 target with
    | (_, none) => .error .attributeError
    | (hg2, some tgt0) =>
      let rel1 := match rel with
        | none => hg2.equiv_rel
        | some r => r
      let pr :=
        if src.length > 1 && isSimple hg2 tgt0 then
          makeNewCompoundNode hg2 src tgt0 weight rel1
        else (hg2, tgt0)
      let relw :=
        if ! isSimple pr.1 pr.2 then (pr.1.dotted_rel, (0 : ℚ))
        else (rel1, weight)
      .ok (src.foldl (fun h s => nodeAddEdge h s pr.2 relw.2 (some relw.1))
        pr.1)

/-- Embeds the `isinstance(values, dict)` branch of
`Hypergraph.setNodeValues` (the only branch the claims exercise): for each
key/value pair in order, the first node whose label matches the key gets the
value; a key matching no node is passed over silently. -/
def setNodeValues (hg : Hypergraph) (values : List (String × Val)) :
    Hypergraph :=
  values.foldl (fun hg kv =>
    match (getNodes hg).find? (fun i => (getObj hg i).label == kv.1) with
    | some i => setObj hg i { getObj hg i with value := some kv.2 }
    | none => hg) hg

/-! ### Pathfinder -/

/-- Python float addition `w + d` where `d` may be `float('inf')` (the top
element); adding anything finite to infinity stays infinity. -/
def edAdd (w : ℚ) (d : WithTop ℚ) : WithTop ℚ :=
  match d with
  | none => ⊤
  | some q => ((w + q : ℚ) : WithTop ℚ)

/-- Python float comparison `a < b` in the presence of `float('inf')`:
infinity is below nothing and everything finite is below infinity. -/
def edLtB (a b : WithTop ℚ) : Bool :=
  match a, b with
  | none, _ => false
  | some _, none => true
  | some p, some q => p < q

/-- Python `max` on two float values that may be `float('inf')`. -/
def edMax (a b : WithTop ℚ) : WithTop ℚ :=
  match a, b with
  | none, _ => ⊤
  | _, none => ⊤
  | some p, some q => ((max p q : ℚ) : WithTop ℚ)

/-- Python dictionary lookup (`m[k]` yields KeyError when absent, hence the
`Option`). -/
def dget {α : Type} (m : List (String × α)) (k : String) : Option α :=
  (m.find? (fun p => p.1 == k)).map (fun p => p.2)

/-- Python dictionary assignment: overwrite in place when present, append
otherwise. -/
def dset {α : Type} (m : List (String × α)) (k : String) (v : α) :
    List (String × α) :=
  if m.any (fun p => p.1 == k) then
    m.map (fun p => if p.1 == k then (k, v) else p)
  else m ++ [(k, v)]

/-- Value stored in the `LAST` dictionary.  `initializeData` calls
`last(node, "None")`, whose body first writes Python `None` and then falls
through to `self.LAST[node.label] = set_edge`, so the string `"None"` is
what ends up stored; settling overwrites it with the settling edge. -/
inductive LastVal where
  | strNone
  | edge (e : Edge)

/-- Mutable state of a `Pathfinder` object.  `sim_edges` stands in for
`sim_str`, recording the edges whose rendered strings Python appends. -/
structure PF where
  source_set : List NodeId
  source : NodeId
  REACH : List (String × Int)
  DIST : List (String × WithTop ℚ)
  LAST : List (String × LastVal)
  p_queue : List (WithTop ℚ × Edge)
  sim_edges : List Edge

/-- State of a fresh `Pathfinder` object before `findPaths` runs (in Python
the attributes do not exist yet; every field is written before first read). -/
def blankPF : PF :=
  { source_set := [], source := 0, REACH := [], DIST := [], LAST := [],
    p_queue := [], sim_edges := [] }

/-- Embeds the read path of `Pathfinder.reach`. -/
def reachGet (pf : PF) (label : String) : Except PyErr Int :=
  match dget pf.REACH label with
  | some v => .ok v
  | none => .error .keyError

/-- Embeds the plain-write path of `Pathfinder.reach`. -/
def reachSet (pf : PF) (label : String) (v : Int) : PF :=
  { pf with REACH := dset pf.REACH label v }

/-- Embeds the `increment=True` path of `Pathfinder.reach`
(`self.REACH[node.label] += set_value`). -/
def reachInc (pf : PF) (label : String) (v : Int) : Except PyErr PF := do
  let r ← reachGet pf label
  .ok (reachSet pf label (r + v))

/-- Embeds the read path of `Pathfinder.dist`. -/
def distGet (pf : PF) (label : String) : Except PyErr (WithTop ℚ) :=
  match dget pf.DIST label with
  | some v => .ok v
  | none => .error .keyError

/-- Embeds the write path of `Pathfinder.dist`. -/
def distSet (pf : PF) (label : String) (v : WithTop ℚ) : PF :=
  { pf with DIST := dset pf.DIST label v }

/-- Embeds `Pathfinder.last` called with `get_edge=True`: returns whatever
the dictionary stores (an edge, or the `"None"` string placeholder). -/
def lastGetRaw (pf : PF) (label : String) : Except PyErr LastVal :=
  match dget pf.LAST label with
  | some v => .ok v
  | none => .error .keyError

/-- Embeds `Pathfinder.last` called as a plain getter: returns
`edge.source`; if the placeholder string `"None"` is stored, `edge.source`
is an AttributeError. -/
def lastGetSource (pf : PF) (label : String) : Except PyErr NodeId :=
  match dget pf.LAST label with
  | some (.edge e) => .ok e.source
  | some .strNone => .error .attributeError
  | none => .error .keyError

/-- Embeds `Pathfinder.last` called with an edge to store. -/
def lastSetEdge (pf : PF) (label : String) (e : Edge) : PF :=
  { pf with LAST := dset pf.LAST label (.edge e) }

/-- Embeds `Pathfinder.last` called with the string `"None"` (the
initialisation path; see `LastVal`). -/
def lastSetNoneStr (pf : PF) (label : String) : PF :=
  { pf with LAST := dset pf.LAST label .strNone }

/-- Embeds `Pathfinder.makeSourceSet`: a fresh simple `Node("source")` with
a zero-weight edge (relationship argument `None`) to every member of the
source set, appended directly to `hg.simple_nodes` (bypassing `addNode` and
its relabelling). -/
def makeSourceSet (hg : Hypergraph) (source_set : List NodeId) :
    Hypergraph × NodeId :=
  let pr := allocNode hg
    { label := "source", full_edges := [], dotted_edges := [],
      dependencies := none, value := none }
  let hg1 := source_set.foldl (fun h n => nodeAddEdge h pr.2 n 0 none) pr.1
  ({ hg1 with simple_nodes := hg1.simple_nodes ++ [pr.2] }, pr.2)

/-- Resolution used by `Pathfinder.configureSource`: strings go through
`getNode` with `toMake=False`, so an unknown label yields `None`. -/
def resolveNoMake (hg : Hypergraph) (a : NodeArg) : Option NodeId :=
  match a with
  | .str s => getNodeNoMake hg s
  | .node i => some i

/-- Embeds `Pathfinder.configureSource`.  The final line is
`self.source = source[0] if len(source)==0 else self.makeSourceSet(source)`:
on an empty source list Python evaluates `source[0]` and raises IndexError;
on every non-empty list (a singleton included) it builds the ephemeral
"source" node.  A `None` produced by a failed lookup would reach
`makeSourceSet` and raise AttributeError at `node.isSimple()`; it is raised
here directly. -/
def configureSource (hg : Hypergraph) (pf : PF) (source : List NodeArg) :
    Except PyErr (Hypergraph × PF) := do
  let src ← (source.map (resolveNoMake hg)).mapM (fun r =>
    match r with
    | some i => Except.ok i
    | none => Except.error PyErr.attributeError)
  match src with
  | [] => .error .indexError
  | _ =>
    let pr := makeSourceSet hg src
    .ok (pr.1, { pf with source_set := src, source := pr.2 })

/-- Embeds `Pathfinder.initializeData`: REACH 1 / DIST ∞ / LAST "None" for
every simple node, then REACH `len(dependencies)` / DIST ∞ for every
compound node (a compound entry with `dependencies = None` would make
`len(None)` a TypeError). -/
def initData (hg : Hypergraph) (pf : PF) : Except PyErr PF :=
  hg.compnd_nodes.foldlM (fun pf i =>
    match (getObj hg i).dependencies with
    | none => .error .typeError
    | some deps => .ok (distSet (reachSet pf (getObj hg i).label
        (deps.length : Int)) (getObj hg i).label ⊤))
    (hg.simple_nodes.foldl (fun pf i =>
      lastSetNoneStr (distSet (reachSet pf (getObj hg i).label 1)
        (getObj hg i).label ⊤) (getObj hg i).label)
      { pf with REACH := [], DIST := [], LAST := [] })

/-- Linear minimum scan of `Pathfinder.getMinQueueEl`: starting from
`(inf, None)`, keep the first strictly smaller element. -/
def queueMinFold (q : List (WithTop ℚ × Edge)) : WithTop ℚ × Option Edge :=
  q.foldl (fun acc el => if edLtB el.1 acc.1 then (el.1, some el.2) else acc)
    (⊤, none)

/-- Removal step of `Pathfinder.getMinQueueEl`
(`self.p_queue.remove((min_val, min_edge))`): Python tuple equality compares
the cost by value and the edge by object identity (`eid`); the first match
is removed. -/
def removeFirstQ (q : List (WithTop ℚ × Edge)) (d : WithTop ℚ) (e : Edge) :
    List (WithTop ℚ × Edge) :=
  match q with
  | [] => []
  | el :: rest =>
    if el.1 = d ∧ el.2.eid = e.eid then rest
    else el :: removeFirstQ rest d e

/-- Embeds `Pathfinder.getMinQueueEl`.  When no element is strictly below
infinity `min_edge` stays `None` and `list.remove((inf, None))` raises
ValueError. -/
def getMinQueueEl (pf : PF) : Except PyErr ((WithTop ℚ × Edge) × PF) :=
  match queueMinFold pf.p_queue with
  | (_, none) => .error .valueError
  | (d, some e) =>
    .ok ((d, e), { pf with p_queue := removeFirstQ pf.p_queue d e })

/-- Embeds `Pathfinder.findInQueue`: first queue element whose edge's target
compares equal (`Node.__eq__`, so by label) to the given node. -/
def findInQueue (hg : Hypergraph) (pf : PF) (node : NodeId) :
    Option (WithTop ℚ × Edge) :=
  pf.p_queue.find? (fun el => nodeRefEq hg el.2.target node)

/-- In-place update of `Pathfinder.checkQueueToUpdate`
(`self.p_queue[self.p_queue.index(el)] = (D, edge)`): the first element
equal to `el` (cost by value, edge by identity) is overwritten. -/
def replaceFirstQ (q : List (WithTop ℚ × Edge)) (old new : WithTop ℚ × Edge) :
    List (WithTop ℚ × Edge) :=
  match q with
  | [] => []
  | el :: rest =>
    if el.1 = old.1 ∧ el.2.eid = old.2.eid then new :: rest
    else el :: replaceFirstQ rest old new

/-- Embeds `Pathfinder.checkQueueToUpdate`. -/
def checkQueueToUpdate (hg : Hypergraph) (pf : PF) (D : WithTop ℚ)
    (edge : Edge) : PF :=
  match findInQueue hg pf edge.target with
  | none => pf
  | some el =>
    if edLtB D el.1 then { pf with p_queue := replaceFirstQ pf.p_queue el (D, edge) }
    else pf

/-- Embeds `Pathfinder.scan`: candidate cost `D = edge.weight + DIST[t]`;
an unvisited target (`REACH == 1`) is marked and enqueued, otherwise the
queue entry targeting it (if any) is updated when `D` is strictly smaller. -/
def scan (hg : Hypergraph) (pf : PF) (edge : Edge) : Except PyErr PF :=
  match distGet pf (getObj hg edge.source).label with
  | .error err => .error err
  | .ok dt =>
    let D : WithTop ℚ := edAdd edge.weight dt
    match reachGet pf (getObj hg edge.target).label with
    | .error err => .error err
    | .ok rx =>
      if rx = 1 then
        .ok { reachSet pf (getObj hg edge.target).label (rx + (-1)) with
              p_queue := pf.p_queue ++ [(D, edge)] }
      else
        .ok (checkQueueToUpdate hg pf D edge)

/-- The list comprehension and `max` in
`self.dist(z, max([self.dist(d) for d in z.dependencies]))`, evaluated left
to right (the head of the list seeds the fold; `max([])` is handled at the
call site). -/
def distListMax (hg : Hypergraph) (pf : PF) :
    List NodeId → WithTop ℚ → Except PyErr (WithTop ℚ)
  | [], acc => .ok acc
  | d :: ds, acc =>
    match distGet pf (getObj hg d).label with
    | .error err => .error err
    | .ok x => distListMax hg pf ds (edMax acc x)

/-- Embeds the dotted-edge block in the body of `Pathfinder.findPaths`:
decrement the compound target's counter; when it reaches `0` set its
distance to the maximum of its dependencies' distances (`max([])` would be a
ValueError, iterating `None` a TypeError) and scan its full edges. -/
def dottedStep (hg : Hypergraph) (pf : PF) (e : Edge) : Except PyErr PF :=
  match reachGet pf (getObj hg e.target).label with
  | .error err => .error err
  | .ok rz0 =>
    match reachGet (reachSet pf (getObj hg e.target).label (rz0 + (-1)))
        (getObj hg e.target).label with
    | .error err => .error err
    | .ok rz =>
      if rz = 0 then
        match (getObj hg e.target).dependencies with
        | none => .error .typeError
        | some [] => .error .valueError
        | some (d :: ds) =>
          match distGet (reachSet pf (getObj hg e.target).label (rz0 + (-1)))
              (getObj hg d).label with
          | .error err => .error err
          | .ok d0 =>
            match distListMax hg
                (reachSet pf (getObj hg e.target).label (rz0 + (-1))) ds d0 with
            | .error err => .error err
            | .ok m =>
              (getObj hg e.target).full_edges.foldlM
                (fun p e2 => scan hg p e2)
                (distSet (reachSet pf (getObj hg e.target).label (rz0 + (-1)))
                  (getObj hg e.target).label m)
      else .ok (reachSet pf (getObj hg e.target).label (rz0 + (-1)))

/-- One iteration of the `while` loop in `Pathfinder.findPaths`: pop the
minimum queue element, settle its target (record DIST and LAST), scan the
target's full edges, then process its dotted edges. -/
def pfStep (hg : Hypergraph) (pf : PF) : Except PyErr PF :=
  match getMinQueueEl pf with
  | .error err => .error err
  | .ok (el, pf1) =>
    match (getObj hg el.2.target).full_edges.foldlM
        (fun p e => scan hg p e)
        (lastSetEdge (distSet pf1 (getObj hg el.2.target).label el.1)
          (getObj hg el.2.target).label el.2) with
    | .error err => .error err
    | .ok pf3 =>
      (getObj hg el.2.target).dotted_edges.foldlM
        (fun p e => dottedStep hg p e) pf3

/-- The `while len(self.p_queue) != 0` loop of `Pathfinder.findPaths`,
driven by fuel (the Python loop runs until the queue empties; runs here are
stated on fuel large enough to reach that point). -/
def pfLoop (hg : Hypergraph) : Nat → PF → Except PyErr PF
  | 0, _ => .error .fuelOut
  | fuel + 1, pf =>
    if pf.p_queue.isEmpty then .ok pf
    else
      match pfStep hg pf with
      | .error err => .error err
      | .ok pf => pfLoop hg fuel pf

/-- Embeds `Pathfinder.findPaths`: configure the source, initialise the
dictionaries, seed the queue with a zero-weight self-loop edge on the
unified source (rel argument `None`), set the source's REACH to `0`, and
run the loop. -/
def findPaths (hg : Hypergraph) (pf : PF) (source : List NodeArg)
    (fuel : Nat) : Except PyErr (Hypergraph × PF) :=
  match configureSource hg pf source with
  | .error err => .error err
  | .ok (hg1, pf1) =>
    match initData hg1 pf1 with
    | .error err => .error err
    | .ok pf2 =>
      match pfLoop { hg1 with nextEid := hg1.nextEid + 1 } fuel
          (reachSet
            { pf2 with p_queue := [(((0 : ℚ) : WithTop ℚ),
              { eid := hg1.nextEid, source := pf2.source,
                target := pf2.source, weight := 0,
                rel := mkRelationship "equivalent#rel" none })] }
            (getObj { hg1 with nextEid := hg1.nextEid + 1 }
              pf2.source).label 0) with
      | .error err => .error err
      | .ok pf4 => .ok ({ hg1 with nextEid := hg1.nextEid + 1 }, pf4)

/-- Embeds `Pathfinder.__init__`: a fresh object whose constructor runs
`findPaths(source)`. -/
def mkPathfinder (hg : Hypergraph) (source : List NodeArg) (fuel : Nat) :
    Except PyErr (Hypergraph × PF) :=
  findPaths hg blankPF source fuel

/-! ### Path reconstruction and simulation -/

/-- Backward walk of `Pathfinder.getPath`.  The work list mirrors the Python
list: `pop()` takes the most recently pushed element (the head here),
`extend(curr.dependencies)` pushes the dependencies so that the last one is
popped first.  The Python `if curr == 'None'` test compares a node with a
plain string via `Node.__eq__`, which is always `False` (no `label`
attribute), so it is dead code and has no counterpart here.  The source test
`curr == self.source` is `Node.__eq__`, hence a label comparison. -/
def getPathGo (hg : Hypergraph) (pf : PF) :
    Nat → List NodeId → List NodeId → Except PyErr (List NodeId)
  | 0, _, _ => .error .fuelOut
  | _ + 1, [], path => .ok path.reverse
  | fuel + 1, curr :: rest, path₀ =>
    let path := path₀ ++ [curr]
    if nodeRefEq hg curr pf.source then
      getPathGo hg pf fuel rest path
    else if isSimple hg curr then
      match lastGetSource pf (getObj hg curr).label with
      | .error err => .error err
      | .ok s => getPathGo hg pf fuel (s :: rest) path
    else
      match (getObj hg curr).dependencies with
      | none => .error .typeError
      | some deps => getPathGo hg pf fuel (deps.reverse ++ rest) path

/-- Embeds `Pathfinder.getPath`: `None` (here `none`) when the node's REACH
is not `0`, otherwise the accumulated backward walk reversed. -/
def getPath (hg : Hypergraph) (pf : PF) (node : NodeId) (fuel : Nat) :
    Except PyErr (Option (List NodeId)) := do
  let r ← reachGet pf (getObj hg node).label
  if r ≠ 0 then .ok none
  else do
    let p ← getPathGo hg pf fuel [node] []
    .ok (some p)

/-- Embeds the `node in inputs` membership test of
`Pathfinder.simulationHelper`: Python list membership via `Node.__eq__`,
hence a label comparison. -/
def nodeInInputs (hg : Hypergraph) (node : NodeId) (inputs : List NodeId) :
    Bool :=
  inputs.any (fun i => nodeRefEq hg i node)

mutual

/-- Embeds `Pathfinder.simulationHelper`: an input node returns its stored
value (a still-unset value is Python `None`, which would raise a TypeError
once it reaches an arithmetic mapping; no run here reaches that case);
otherwise the LAST edge is fetched with `get_edge=True` — on the `"None"`
placeholder the subsequent `edge.rel` access raises AttributeError — and the
edge's relationship is applied to the recursively simulated source value
(wrapped in a singleton list) or dependency values.  The computed value is
cached on the node and the edge recorded. -/
def simulationHelper (hg : Hypergraph) (pf : PF) (node : NodeId)
    (inputs : List NodeId) : Nat → Except PyErr (Hypergraph × PF × Val)
  | 0 => .error .fuelOut
  | fuel + 1 =>
    if nodeInInputs hg node inputs then
      match (getObj hg node).value with
      | some v => .ok (hg, pf, v)
      | none => .error .typeError
    else
      match lastGetRaw pf (getObj hg node).label with
      | .error err => .error err
      | .ok .strNone => .error .attributeError
      | .ok (.edge e) =>
        let res : Except PyErr (Hypergraph × PF × Val) :=
          if isSimple hg e.source then
            match simulationHelper hg pf e.source inputs fuel with
            | .error err => .error err
            | .ok (hg, pf, v) =>
              match e.rel.callScalar v with
              | .error err => .error err
              | .ok v2 => .ok (hg, pf, v2)
          else
            match (getObj hg e.source).dependencies with
            | none => .error .typeError
            | some deps =>
              match simList hg pf deps inputs fuel with
              | .error err => .error err
              | .ok (hg, pf, vs) =>
                match e.rel.callList vs with
                | .error err => .error err
                | .ok v2 => .ok (hg, pf, v2)
        match res with
        | .error err => .error err
        | .ok (hg, pf, val) =>
          let hg := setObj hg node { getObj hg node with value := some val }
          .ok (hg, { pf with sim_edges := pf.sim_edges ++ [e] }, val)

/-- The list comprehension
`[self.simulationHelper(parent, inputs) for parent in source.dependencies]`,
evaluated left to right with the state threaded through (the extra fuel
pattern is the embedding's termination device). -/
def simList (hg : Hypergraph) (pf : PF) (ds : List NodeId)
    (inputs : List NodeId) : Nat → Except PyErr (Hypergraph × PF × List Val)
  | 0 => .error .fuelOut
  | fuel + 1 =>
    match ds with
    | [] => .ok (hg, pf, [])
    | d :: ds =>
      match simulationHelper hg pf d inputs fuel with
      | .error err => .error err
      | .ok (hg, pf, v) =>
        match simList hg pf ds inputs fuel with
        | .error err => .error err
        | .ok (hg, pf, vs) => .ok (hg, pf, v :: vs)

end

/-- Embeds `Pathfinder.simulate`: reset the step trace, resolve the input
labels (`getNode` without `toMake`, so an unknown label yields `None` whose
`dist` lookup raises AttributeError), recompute the closure from the inputs
when any input has a nonzero (or infinite) distance — note this runs
`configureSource` once directly and once more inside `findPaths` — then
store the input values on the nodes and recursively evaluate the target (an
unresolved string target is Python `None`, whose first attribute access in
`simulationHelper` raises AttributeError). -/
def pfSimulate (hg : Hypergraph) (pf : PF) (target : NodeArg)
    (input_values : List (String × Val)) (fuel : Nat) :
    Except PyErr (Hypergraph × PF × Val) := do
  let pf := { pf with sim_edges := [] }
  let inputsR := input_values.map (fun kv => getNodeNoMake hg kv.1)
  let dists ← inputsR.mapM (fun r => do
    match r with
    | none => Except.error PyErr.attributeError
    | some i => distGet pf (getObj hg i).label)
  let input_nodes := inputsR.filterMap id
  let (hg, pf) ←
    if dists.any (fun d => decide (d ≠ 0)) then do
      let (hg, pf) ← configureSource hg pf (input_nodes.map NodeArg.node)
      findPaths hg pf (input_nodes.map NodeArg.node) fuel
    else pure (hg, pf)
  let tgtR := resolveNoMake hg target
  let hg := setNodeValues hg input_values
  match tgtR with
  | none => .error .attributeError
  | some tgt => simulationHelper hg pf tgt input_nodes fuel

/-- A `Hypergraph` object together with its `pathfinders` list (the
`Pathfinder` objects share the graph, so the pair is threaded as one
state). -/
structure Sys where
  hg : Hypergraph
  pathfinders : List PF

/-- Embeds the elementwise list comparison
`input_nodes == pf.source_set` (`Node.__eq__` per element, so labels). -/
def nodeListEq (hg : Hypergraph) (a b : List NodeId) : Bool :=
  a.length == b.length && (a.zip b).all (fun p => nodeRefEq hg p.1 p.2)

/-- Embeds `Hypergraph.findPathfinder`: first cached `Pathfinder` whose
source set compares equal to the input nodes, else a newly constructed one
appended to the list.  Returns the index of the chosen pathfinder. -/
def findPathfinder (s : Sys) (input_nodes : List NodeId) (fuel : Nat) :
    Except PyErr (Sys × Nat) :=
  match (List.range s.pathfinders.length).find? (fun k =>
      nodeListEq s.hg input_nodes (s.pathfinders.getD k blankPF).source_set) with
  | some k => .ok (s, k)
  | none => do
    let (hg, pf) ← mkPathfinder s.hg (input_nodes.map NodeArg.node) fuel
    .ok (⟨hg, s.pathfinders ++ [pf]⟩, s.pathfinders.length)

/-- Embeds `Hypergraph.simulate`: resolve the input labels, raise
`Exception("Input node not found in Hypergraph.")` when any is unknown,
fetch or build the matching pathfinder, and run its `simulate`; the mutated
pathfinder is written back to the shared list. -/
def hgSimulate (s : Sys) (target : NodeArg)
    (input_values : List (String × Val)) (fuel : Nat) :
    Except PyErr (Sys × Val) := do
  let inputsR := input_values.map (fun kv => getNodeNoMake s.hg kv.1)
  if inputsR.any (fun r => r.isNone) then
    .error .exceptionRaised
  else do
    let input_nodes := inputsR.filterMap id
    let (s, k) ← findPathfinder s input_nodes fuel
    let (hg, pf, v) ← pfSimulate s.hg (s.pathfinders.getD k blankPF) target
      input_values fuel
    .ok (⟨hg, s.pathfinders.set k pf⟩, v)

/-! ### Concrete instances used by the claims -/

/-- The demos' `negate_rel`: `Relationship('negate#rel', lambda source: -source[0])`. -/
def relNegate : Relationship := mkRelationship "negate#rel" (some negateMapping)

/-- The demos' `plus_rel`: `Relationship('plus#rel', lambda source: sum(source))`. -/
def relPlus : Relationship := mkRelationship "plus#rel" (some plusMapping)

/-- The five `addEdge` calls of `demos/basic.py`:
`addEdge(['A','B'],'C',plus)`, `addEdge('A','D',negate)`,
`addEdge('B','E',negate)`, `addEdge(['D','E'],'F',plus)`,
`addEdge('F','C',negate)` on a fresh hypergraph. -/
def basicGraph : Except PyErr Hypergraph := do
  let hg ← addEdge emptyHypergraph [.str "A", .str "B"] (.str "C") (some relPlus)
  let hg ← addEdge hg [.str "A"] (.str "D") (some relNegate)
  let hg ← addEdge hg [.str "B"] (.str "E") (some relNegate)
  let hg ← addEdge hg [.str "D", .str "E"] (.str "F") (some relPlus)
  addEdge hg [.str "F"] (.str "C") (some relNegate)

/-- First simulation of the basic demo: `simulate('C', dict(A=3, B=7))`. -/
def basicSim1 : Except PyErr (Sys × Val) := do
  let hg ← basicGraph
  hgSimulate ⟨hg, []⟩ (.str "C") [("A", 3), ("B", 7)] 50

/-- Second simulation, on the state left by the first:
`simulate('C', dict(A=3, E=-7))`. -/
def basicSim2 : Except PyErr (Sys × Val) := do
  let s ← basicSim1
  hgSimulate s.1 (.str "C") [("A", 3), ("E", -7)] 50

/-- Claim C2's construction: `addEdge(['A','B'], 'C', rel)` on a fresh
graph.  The arena then holds A at 0, B at 1, C at 2 and the promoted
compound node at 3. -/
def c2Graph : Except PyErr Hypergraph :=
  addEdge emptyHypergraph [.str "A", .str "B"] (.str "C") (some relPlus)

/-- Claim C4's failing sequence: `addNode("N2"); addNode("B"); addNode("B")`. -/
def c4Graph : Hypergraph :=
  addNodeStr (addNodeStr (addNodeStr emptyHypergraph "N2") "B") "B"

/-- Labels of a hypergraph's nodes in the order `getNodes` yields them. -/
def nodeLabels (hg : Hypergraph) : List String :=
  (getNodes hg).map (fun i => (getObj hg i).label)

/-- Claim C7's graph: a single node "A". -/
def c7Start : Hypergraph := addNodeStr emptyHypergraph "A"

/-- Claim C7's run: `configureSource` with the singleton source `['A']`. -/
def c7Run : Except PyErr (Hypergraph × PF) :=
  configureSource c7Start blankPF [.str "A"]

/-- Claim C6's graph: edge A→B plus an isolated node C. -/
def c6Graph : Except PyErr Hypergraph := do
  let hg ← addEdge emptyHypergraph [.str "A"] (.str "B")
  .ok (addNodeStr hg "C")

/-- Claim C6's closure from source `['A']`. -/
def c6Run : Except PyErr (Hypergraph × PF) := do
  let hg ← c6Graph
  mkPathfinder hg [.str "A"] 20

/-- Claim C6's simulation call targeting the unreachable node C. -/
def c6Sim : Except PyErr (Sys × Val) := do
  let hg ← c6Graph
  hgSimulate ⟨hg, []⟩ (.str "C") [("A", 1)] 20

/-- Claim C6's graph, extracted from the `Except` wrapper. -/
def c6HgA : Hypergraph := c6Graph.toOption.getD emptyHypergraph

/-- The graph returned by claim C6's closure run (the input graph plus
the ephemeral "source" node). -/
def c6HgS : Hypergraph :=
  (c6Run.toOption.getD (emptyHypergraph, blankPF)).1

/-- The pathfinder state returned by claim C6's closure run. -/
def c6PF : PF := (c6Run.toOption.getD (emptyHypergraph, blankPF)).2

/-- Claim C8's graph: simple nodes X, Y and a compound node Z depending on
them (arena indices 0, 1, 2). -/
def c8Hg : Hypergraph :=
  addNodeStr (addNodeStr (addNodeStr emptyHypergraph "X") "Y") "Z"
    (some [0, 1])

/-- Claim C8's direct call `X.addEdge(Z, weight=5, rel=plus)`: an edge onto
a compound target created without going through `Hypergraph.addEdge`. -/
def c8After : Hypergraph := nodeAddEdge c8Hg 0 2 5 (some relPlus)

/-- Claim C9's graph: a single node "A". -/
def c9Hg : Hypergraph := addNodeStr emptyHypergraph "A"

/-- Claim C1's counterexample graph: a user node already labelled "source",
plus an edge A→B (all weights the non-negative defaults). -/
def c1Graph : Except PyErr Hypergraph :=
  addEdge (addNodeStr emptyHypergraph "source") [.str "A"] (.str "B")

/-- Claim C1's counterexample closure: source set `['A']`. -/
def c1Run : Except PyErr (Hypergraph × PF) := do
  let hg ← c1Graph
  mkPathfinder hg [.str "A"] 20

/-- The graph returned by claim C1's counterexample run. -/
def c1HgS : Hypergraph :=
  (c1Run.toOption.getD (emptyHypergraph, blankPF)).1

/-- The pathfinder state returned by claim C1's counterexample run. -/
def c1PF : PF := (c1Run.toOption.getD (emptyHypergraph, blankPF)).2

/-- Claim C1's witness graph: S→A (weight 3), S→B (7), S→C (5), then
`addEdge(['A','B','C'], 'D')`, which promotes an AND-join Compound node
(arena index 5) depending on A, B, C with a full edge to D. -/
def c1wGraph : Except PyErr Hypergraph := do
  let h1 ← addEdge emptyHypergraph [.str "S"] (.str "A") none 3
  let h2 ← addEdge h1 [.str "S"] (.str "B") none 7
  let h3 ← addEdge h2 [.str "S"] (.str "C") none 5
  addEdge h3 [.str "A", .str "B", .str "C"] (.str "D")

/-- Claim C1's witness closure: source set `['S']`. -/
def c1wRun : Except PyErr (Hypergraph × PF) := do
  let hg ← c1wGraph
  mkPathfinder hg [.str "S"] 30

/-- Claim C1's witness input graph, out of the `Except` wrapper. -/
def c1wHgA : Hypergraph := c1wGraph.toOption.getD emptyHypergraph

/-- The graph returned by claim C1's witness run. -/
def c1wHgS : Hypergraph :=
  (c1wRun.toOption.getD (emptyHypergraph, blankPF)).1

/-- The pathfinder state returned by claim C1's witness run. -/
def c1wPF : PF := (c1wRun.toOption.getD (emptyHypergraph, blankPF)).2

/-- Every edge object stored in the graph (each edge lives in the adjacency
lists of its source node's arena entry). -/
def edgesOf (hg : Hypergraph) : List Edge :=
  hg.arena.flatMap (fun o => o.full_edges ++ o.dotted_edges)

/-- The invariant claimed by the spec for compound-targeting edges: weight
`0` and the pass-through relationship. -/
def compoundEdgeInv (hg : Hypergraph) : Prop :=
  ∀ e ∈ edgesOf hg, isSimple hg e.target = false →
    e.weight = 0 ∧ e.rel.label = "to#rel"

/-- The hypergraph produced by claim C2's `addEdge` call, extracted from the
`Except` wrapper. -/
def c2GraphA : Hypergraph := c2Graph.toOption.getD emptyHypergraph

/-- Well-formedness of the node registry: every reference held in
`simple_nodes`/`compnd_nodes` points at an allocated arena slot.  Every
graph built through the public API satisfies this. -/
def nodesValid (hg : Hypergraph) : Prop :=
  ∀ i ∈ getNodes hg, i < hg.arena.length

/-- Well-formedness of the stored edges: every edge target points at an
allocated arena slot.  Every graph built through the public API satisfies
this. -/
def edgeTargetsValid (hg : Hypergraph) : Prop :=
  ∀ e ∈ edgesOf hg, e.target < hg.arena.length

/-! ### Reachability and derivations (specification side)

These two relations formalise the spec's notion of a hyperpath from a
source set, "respecting AND-join completeness": a node is reached along
full edges, and a Compound node is reached once all of its dependencies
are. -/

/-- Maximum of a head value and a list (Python `max` over a nonempty
list, seeded with its head). -/
def qMaxList (a : ℚ) (l : List ℚ) : ℚ := l.foldl max a

/-- The claim's reachability: `S` is given; full edges propagate; a
Compound node is reachable once all its dependencies are (AND-join
completeness). -/
inductive ReachableFrom (hg : Hypergraph) (S : List NodeId) : NodeId → Prop
  | src {i : NodeId} : i ∈ S → ReachableFrom hg S i
  | full {s : NodeId} {e : Edge} : ReachableFrom hg S s →
      e ∈ (getObj hg s).full_edges → ReachableFrom hg S e.target
  | cmpnd {z : NodeId} {l : List NodeId} :
      (getObj hg z).dependencies = some l →
      (∀ d ∈ l, ReachableFrom hg S d) → ReachableFrom hg S z

/-- Costed derivations from the unified root node: the cost of a full step
adds the edge weight, the cost of a Compound node is the maximum of its
dependencies' costs (seeded at the head, as the code's `max` fold is). -/
inductive Deriv (hg : Hypergraph) (root : NodeId) : NodeId → ℚ → Prop
  | base : Deriv hg root root 0
  | full {s : NodeId} {e : Edge} {c : ℚ} : Deriv hg root s c →
      e ∈ (getObj hg s).full_edges → Deriv hg root e.target (c + e.weight)
  | cmpnd {z d : NodeId} {ds : List NodeId} {f : NodeId → ℚ} {c0 : ℚ} :
      (getObj hg z).dependencies = some (d :: ds) →
      Deriv hg root d c0 → (∀ x ∈ ds, Deriv hg root x (f x)) →
      Deriv hg root z (qMaxList c0 (ds.map f))

/-- Label of a node object reference. -/
def lbl (hg : Hypergraph) (i : NodeId) : String := (getObj hg i).label

/-- Whether the algorithm has settled (popped) the node: its `LAST` entry
holds an edge rather than the `"None"` placeholder. -/
def poppedB (hg : Hypergraph) (pf : PF) (i : NodeId) : Bool :=
  match dget pf.LAST (lbl hg i) with
  | some (.edge _) => true
  | _ => false

/-- Well-formedness of the graph state in which the closure loop runs:
the user graph extended with the ephemeral "source" node `eph` and seeded
with the self-loop edge `e0`.  All conditions are bounded quantifications
over the stored lists, hence decidable on concrete graphs. -/
def WFRun (G : Hypergraph) (src : List NodeId) (eph : NodeId)
    (e0 : Edge) : Prop :=
  (getNodes G).Pairwise (fun i j => lbl G i ≠ lbl G j) ∧
  (getNodes G).Nodup ∧
  nodesValid G ∧
  (∀ i ∈ G.simple_nodes, isSimple G i = true) ∧
  (∀ i ∈ G.compnd_nodes, isSimple G i = false) ∧
  eph ∈ G.simple_nodes ∧
  (∀ e ∈ (getObj G eph).full_edges, e.target ∈ src) ∧
  (getObj G eph).dotted_edges.length = 0 ∧
  (∀ s ∈ src, s ∈ G.simple_nodes ∧ s ≠ eph) ∧
  (∀ i ∈ getNodes G,
    (∀ e ∈ (getObj G i).full_edges,
      e.source = i ∧ e.target ∈ getNodes G ∧ isSimple G e.target = true) ∧
    (∀ e ∈ (getObj G i).dotted_edges,
      e.source = i ∧ e.target ∈ getNodes G ∧ isSimple G e.target = false)) ∧
  (∀ z ∈ getNodes G, ∀ l, (getObj G z).dependencies = some l →
    l ≠ [] ∧ l.Nodup ∧ eph ∉ l ∧
    (∀ d ∈ l, d ∈ getNodes G ∧ isSimple G d = true) ∧
    (∀ d ∈ l,
      ((getObj G d).dotted_edges.filter (fun e => e.target = z)).length
        = 1) ∧
    (∀ i ∈ getNodes G, i ∉ l →
      ((getObj G i).dotted_edges.filter (fun e => e.target = z)).length
        = 0)) ∧
  (edgesOf G ++ [e0]).Pairwise (fun a b => a.eid ≠ b.eid) ∧
  e0.target = eph

/-- The seed self-loop edge pushed by `findPaths`, reconstructed from the
resulting graph: the loop graph's `nextEid` was bumped exactly once past
the seed's identity. -/
def seedEdge (G : Hypergraph) (eph : NodeId) : Edge :=
  { eid := G.nextEid - 1, source := eph, target := eph, weight := 0,
    rel := mkRelationship "equivalent#rel" none }

/-- Additional well-formedness used by the optimality claim: every edge
weight is non-negative (the claim's hypothesis), and an arena object not
registered in the node lists carries no full edges (every graph built
through the public API satisfies this: `addNode`/`addEdge` register every
allocated object). -/
def WFW (G : Hypergraph) : Prop :=
  (∀ e ∈ edgesOf G, 0 ≤ e.weight) ∧
  (∀ s ∈ List.range G.arena.length, s ∉ getNodes G →
    (getObj G s).full_edges.length = 0)

/-- The minimality (Dijkstra-exchange) invariant carried through the
closure loop alongside `InvP`.  `dpend` mirrors `InvP`'s pending dotted
edges; `spend` lists the full edges of the node being settled by the
current iteration that its scan has not yet processed; at iteration
boundaries both are `[]`.  Finite distances are the settled ones; every
field quantifies them through the coercion `((c : ℚ) : WithTop ℚ)`. -/
structure MInv (G : Hypergraph) (src : List NodeId) (eph : NodeId)
    (e0 : Edge) (dpend spend : List Edge) (pf : PF) : Prop where
  m1 : ∀ i ∈ getNodes G, ∀ ci : ℚ,
    dget pf.DIST (lbl G i) = some ((ci : ℚ) : WithTop ℚ) →
    ∀ c, Deriv G eph i c → ci ≤ c
  dach : ∀ i ∈ getNodes G, ∀ ci : ℚ,
    dget pf.DIST (lbl G i) = some ((ci : ℚ) : WithTop ℚ) →
    Deriv G eph i ci
  ddom : ∀ i ∈ getNodes G, ∃ v, dget pf.DIST (lbl G i) = some v
  dfin : ∀ i ∈ getNodes G, isSimple G i = true → ∀ ci : ℚ,
    dget pf.DIST (lbl G i) = some ((ci : ℚ) : WithTop ℚ) →
    poppedB G pf i = true
  dnn : ∀ i ∈ getNodes G, ∀ ci : ℚ,
    dget pf.DIST (lbl G i) = some ((ci : ℚ) : WithTop ℚ) → 0 ≤ ci
  e4 : ∀ p ∈ pf.p_queue, ∀ q : ℚ, p.1 = ((q : ℚ) : WithTop ℚ) →
    ∀ i ∈ getNodes G, ∀ ci : ℚ,
    dget pf.DIST (lbl G i) = some ((ci : ℚ) : WithTop ℚ) → ci ≤ q
  qcost : ∀ p ∈ pf.p_queue, p.2.eid ≠ e0.eid →
    p.2.source ∈ getNodes G ∧ ∃ cs : ℚ,
      dget pf.DIST (lbl G p.2.source) = some ((cs : ℚ) : WithTop ℚ) ∧
      p.1 = ((p.2.weight + cs : ℚ) : WithTop ℚ)
  e2min : ∀ p ∈ pf.p_queue, ∀ s ∈ getNodes G, ∀ cs : ℚ,
    dget pf.DIST (lbl G s) = some ((cs : ℚ) : WithTop ℚ) →
    ∀ e2 ∈ (getObj G s).full_edges, e2.eid ∉ spend.map Edge.eid →
    e2.target = p.2.target →
    ∃ q : ℚ, p.1 = ((q : ℚ) : WithTop ℚ) ∧ q ≤ e2.weight + cs
  e2cov : ∀ s ∈ getNodes G, ∀ cs : ℚ,
    dget pf.DIST (lbl G s) = some ((cs : ℚ) : WithTop ℚ) →
    ∀ e2 ∈ (getObj G s).full_edges, e2.eid ∉ spend.map Edge.eid →
    (∃ ct : ℚ,
      dget pf.DIST (lbl G e2.target) = some ((ct : ℚ) : WithTop ℚ) ∧
      ct ≤ e2.weight + cs) ∨
    (∃ p ∈ pf.p_queue, p.2.target = e2.target)
  r0pop : ∀ i ∈ getNodes G, isSimple G i = true →
    dget pf.REACH (lbl G i) = some 0 →
    poppedB G pf i = true ∨ ∃ p ∈ pf.p_queue, p.2.target = i
  creach : ∀ z ∈ getNodes G, ∀ l, (getObj G z).dependencies = some l →
    ∀ cz : ℚ, dget pf.DIST (lbl G z) = some ((cz : ℚ) : WithTop ℚ) →
    dget pf.REACH (lbl G z) = some 0
  ephd0 : poppedB G pf eph = true →
    dget pf.DIST (lbl G eph) = some (((0 : ℚ)) : WithTop ℚ)
  seedq : poppedB G pf eph = false →
    ((((0 : ℚ)) : WithTop ℚ), e0) ∈ pf.p_queue
  cmono : ∀ z ∈ getNodes G, ∀ l, (getObj G z).dependencies = some l →
    ∀ cz : ℚ, dget pf.DIST (lbl G z) = some ((cz : ℚ) : WithTop ℚ) →
    ∀ d ∈ l, ∃ cd : ℚ,
      dget pf.DIST (lbl G d) = some ((cd : ℚ) : WithTop ℚ) ∧ cd ≤ cz
  czle : ∀ z ∈ getNodes G, ∀ d ds, (getObj G z).dependencies
      = some (d :: ds) →
    (dpend.filter (fun e2 => e2.target = z)).length = 0 →
    (∀ x ∈ d :: ds, poppedB G pf x = true) →
    ∀ g : NodeId → ℚ,
    (∀ x ∈ d :: ds, dget pf.DIST (lbl G x)
      = some ((g x : ℚ) : WithTop ℚ)) →
    ∃ cz : ℚ, dget pf.DIST (lbl G z) = some ((cz : ℚ) : WithTop ℚ) ∧
      cz ≤ qMaxList (g d) (ds.map g)
  mono : ∀ i ∈ getNodes G, ∀ e,
    dget pf.LAST (lbl G i) = some (.edge e) → e.eid ≠ e0.eid →
    ∃ cs ci : ℚ,
      dget pf.DIST (lbl G e.source) = some ((cs : ℚ) : WithTop ℚ) ∧
      dget pf.DIST (lbl G i) = some ((ci : ℚ) : WithTop ℚ) ∧
      ci = e.weight + cs
  lastE : ∀ i ∈ getNodes G, ∀ e,
    dget pf.LAST (lbl G i) = some (.edge e) → e ∈ edgesOf G ∨ e = e0

/-- The soundness invariant carried through the closure loop.  `G` is the
(unchanging) graph, `src` the resolved source set, `eph` the ephemeral
source node, `e0` the seed self-loop edge.  `pend` lists the dotted edges
of the node settled by the current iteration that are still waiting to
decrement their compound target's counter; at iteration boundaries
`pend = []`. -/
structure InvP (G : Hypergraph) (src : List NodeId) (eph : NodeId)
    (e0 : Edge) (pend : List Edge) (pf : PF) : Prop where
  source_eq : pf.source = eph
  source_set_eq : pf.source_set = src
  qfacts : ∀ p ∈ pf.p_queue, p.2.target ∈ getNodes G ∧
    isSimple G p.2.target = true ∧
    (p.2.target = eph ∨ ReachableFrom G src p.2.target) ∧
    dget pf.REACH (lbl G p.2.target) = some 0 ∧
    poppedB G pf p.2.target = false ∧
    (∃ q : ℚ, p.1 = some q ∧ Deriv G eph p.2.target q)
  qdistinct : pf.p_queue.Pairwise
    (fun p1 p2 => lbl G p1.2.target ≠ lbl G p2.2.target)
  qedges : ∀ p ∈ pf.p_queue, p.2 ∈ edgesOf G ∨ p.2 = e0
  sreach : ∀ i ∈ getNodes G, isSimple G i = true →
    ∃ r, dget pf.REACH (lbl G i) = some r ∧ (r = 0 ∨ r = 1)
  untS : ∀ i ∈ getNodes G, isSimple G i = true →
    ¬(i = eph ∨ ReachableFrom G src i) →
    dget pf.REACH (lbl G i) = some 1 ∧
    dget pf.DIST (lbl G i) = some ⊤ ∧
    dget pf.LAST (lbl G i) = some .strNone
  pReach : ∀ i ∈ getNodes G, poppedB G pf i = true →
    (i = eph ∨ ReachableFrom G src i) ∧ isSimple G i = true ∧
    (∃ c : ℚ, dget pf.DIST (lbl G i) = some ((c : ℚ) : WithTop ℚ) ∧
      Deriv G eph i c)
  pr0 : ∀ i ∈ getNodes G, poppedB G pf i = true →
    dget pf.REACH (lbl G i) = some 0
  lastDom : ∀ ℓ v, dget pf.LAST ℓ = some v →
    ∃ i ∈ getNodes G, isSimple G i = true ∧ lbl G i = ℓ
  ccount : ∀ z ∈ getNodes G, ∀ l, (getObj G z).dependencies = some l →
    dget pf.REACH (lbl G z) = some ((l.length : Int) -
      ((l.filter (fun d => poppedB G pf d)).length : Int) +
      ((pend.filter (fun e => e.target = z)).length : Int))
  cdone : ∀ z ∈ getNodes G, ∀ l, (getObj G z).dependencies = some l →
    l ≠ [] → (∀ d ∈ l, poppedB G pf d = true) →
    (pend.filter (fun e => e.target = z)).length = 0 →
    (z = eph ∨ ReachableFrom G src z) ∧
    (∃ c : ℚ, dget pf.DIST (lbl G z) = some ((c : ℚ) : WithTop ℚ) ∧
      Deriv G eph z c)
  cnotdone : ∀ z ∈ getNodes G, ∀ l, (getObj G z).dependencies = some l →
    (∃ d ∈ l, poppedB G pf d = false) →
    dget pf.DIST (lbl G z) = some ⊤

/-- The invariant at iteration boundaries: no pending decrements. -/
def Inv (G : Hypergraph) (src : List NodeId) (eph : NodeId) (e0 : Edge)
    (pf : PF) : Prop :=
  InvP G src eph e0 [] pf

/-! ### Theorems -/

/-! Dictionary lemmas for the Python-style assoc-list maps. -/

theorem dget_dset_map {α : Type} (m : List (String × α)) (k k' : String)
    (v : α) (h : k' ≠ k) :
    dget (m.map (fun p => if p.1 == k then (k, v) else p)) k'
      = dget m k' := by
  induction m with
  | nil => rfl
  | cons p m ih =>
    by_cases hp : (p.1 == k) = true
    · have hpk : p.1 = k := by simpa using hp
      simp only [List.map_cons, if_pos hp, dget, List.find?_cons]
      have h1 : (k == k') = false := by simp [Ne.symm h]
      have h2 : (p.1 == k') = false := by simp [hpk, Ne.symm h]
      rw [h1, h2]
      exact ih
    · simp only [List.map_cons, if_neg hp, dget, List.find?_cons]
      cases hpk : (p.1 == k') with
      | true => rfl
      | false => exact ih

theorem dget_map_set_self {α : Type} (m : List (String × α)) (k : String)
    (v : α) (h2 : m.any (fun p => p.1 == k) = true) :
    dget (m.map (fun p => if p.1 == k then (k, v) else p)) k = some v := by
  induction m with
  | nil => simp at h2
  | cons q m ih =>
    by_cases hq : (q.1 == k) = true
    · simp only [List.map_cons, if_pos hq, dget, List.find?_cons]
      have : ((k, v).1 == k) = true := by simp
      rw [this]
      rfl
    · have h2' : m.any (fun p => p.1 == k) = true := by
        simp only [List.any_cons, Bool.eq_false_iff.mpr hq,
          Bool.false_or] at h2
        exact h2
      simp only [List.map_cons, if_neg hq, dget, List.find?_cons]
      rw [show (q.1 == k) = false from Bool.eq_false_iff.mpr hq]
      exact ih h2'

theorem dget_dset_ne {α : Type} (m : List (String × α)) {k k' : String}
    (v : α) (h : k' ≠ k) : dget (dset m k v) k' = dget m k' := by
  unfold dset
  by_cases h2 : m.any (fun p => p.1 == k)
  · rw [if_pos h2]
    exact dget_dset_map m k k' v h
  · rw [if_neg h2]
    unfold dget
    rw [List.find?_append]
    cases hf : m.find? (fun p => p.1 == k') with
    | some p => simp [hf]
    | none =>
      have : ((k, v).1 == k') = false := by simp [Ne.symm h]
      simp [List.find?, this]

theorem dget_dset_self {α : Type} (m : List (String × α)) (k : String)
    (v : α) : dget (dset m k v) k = some v := by
  unfold dset
  by_cases h2 : m.any (fun p => p.1 == k)
  · rw [if_pos h2]
    exact dget_map_set_self m k v h2
  · rw [if_neg h2]
    unfold dget
    rw [List.find?_append]
    have hf : m.find? (fun p => p.1 == k) = none := by
      rw [List.find?_eq_none]
      intro x hx
      rw [List.any_eq_true] at h2
      push_neg at h2
      simpa using h2 x hx
    rw [hf]
    have : ((k, v).1 == k) = true := by simp
    simp [List.find?, this]

/-! Lemmas about the priority-queue primitives and label injectivity. -/

theorem label_inj {G : Hypergraph}
    (hpw : (getNodes G).Pairwise (fun i j => lbl G i ≠ lbl G j))
    {i j : NodeId} (hi : i ∈ getNodes G) (hj : j ∈ getNodes G)
    (h : lbl G i = lbl G j) : i = j := by
  by_contra hne
  exact List.Pairwise.forall (fun _ _ h' => Ne.symm h') hpw hi hj hne h

theorem eid_inj {L : List Edge} (hpw : L.Pairwise (fun a b => a.eid ≠ b.eid))
    {a b : Edge} (ha : a ∈ L) (hb : b ∈ L) (h : a.eid = b.eid) : a = b := by
  by_contra hne
  exact List.Pairwise.forall (fun _ _ h' => Ne.symm h') hpw ha hb hne h

theorem removeFirstQ_sublist (q : List (WithTop ℚ × Edge)) (d : WithTop ℚ)
    (e : Edge) : List.Sublist (removeFirstQ q d e) q := by
  induction q with
  | nil => exact List.Sublist.refl []
  | cons el rest ih =>
    unfold removeFirstQ
    by_cases h : el.1 = d ∧ el.2.eid = e.eid
    · rw [if_pos h]
      exact List.sublist_cons_of_sublist el (List.Sublist.refl rest)
    · rw [if_neg h]
      exact List.Sublist.cons₂ el ih

theorem queueMinFold_go (q : List (WithTop ℚ × Edge)) :
    ∀ acc : WithTop ℚ × Option Edge,
    (q.foldl (fun acc el => if edLtB el.1 acc.1 then (el.1, some el.2)
        else acc) acc) = acc ∨
    ∃ p ∈ q,
      (q.foldl (fun acc el => if edLtB el.1 acc.1 then (el.1, some el.2)
        else acc) acc) = (p.1, some p.2) := by
  induction q with
  | nil => exact fun _ => .inl rfl
  | cons el rest ih =>
    intro acc
    simp only [List.foldl_cons]
    by_cases h : edLtB el.1 acc.1
    · rw [if_pos h]
      rcases ih (el.1, some el.2) with h2 | ⟨p, hp, h2⟩
      · exact .inr ⟨el, List.mem_cons_self el rest, h2⟩
      · exact .inr ⟨p, List.mem_cons_of_mem el hp, h2⟩
    · rw [if_neg h]
      rcases ih acc with h2 | ⟨p, hp, h2⟩
      · exact .inl h2
      · exact .inr ⟨p, List.mem_cons_of_mem el hp, h2⟩

theorem queueMinFold_mem {q : List (WithTop ℚ × Edge)} {d : WithTop ℚ}
    {e : Edge} (h : queueMinFold q = (d, some e)) : (d, e) ∈ q := by
  unfold queueMinFold at h
  rcases queueMinFold_go q (⊤, none) with h2 | ⟨p, hp, h2⟩
  · rw [h] at h2
    exact absurd (congrArg Prod.snd h2) (by simp)
  · rw [h] at h2
    have h3 : d = p.1 := congrArg Prod.fst h2
    have h4 : e = p.2 := Option.some.inj (congrArg Prod.snd h2)
    rw [h3, h4]
    exact hp

theorem removeFirstQ_mem_strong (G : Hypergraph)
    (q : List (WithTop ℚ × Edge)) (d : WithTop ℚ) (e : Edge)
    (hinj : ∀ p ∈ q, p.1 = d → p.2.eid = e.eid → p.2.target = e.target)
    (hpar : q.Pairwise (fun p1 p2 => lbl G p1.2.target ≠ lbl G p2.2.target))
    (hmem : ∃ p ∈ q, p.1 = d ∧ p.2.eid = e.eid) :
    ∀ x ∈ removeFirstQ q d e,
      x ∈ q ∧ lbl G x.2.target ≠ lbl G e.target := by
  induction q with
  | nil => intro x hx; exact absurd hx (by simp [removeFirstQ])
  | cons el rest ih =>
    rw [List.pairwise_cons] at hpar
    unfold removeFirstQ
    by_cases h : el.1 = d ∧ el.2.eid = e.eid
    · rw [if_pos h]
      intro x hx
      refine ⟨List.mem_cons_of_mem el hx, ?_⟩
      have ht : el.2.target = e.target :=
        hinj el (List.mem_cons_self el rest) h.1 h.2
      rw [← ht]
      exact Ne.symm (hpar.1 x hx)
    · rw [if_neg h]
      have hmem' : ∃ p ∈ rest, p.1 = d ∧ p.2.eid = e.eid := by
        obtain ⟨p, hp, hp1, hp2⟩ := hmem
        rcases List.mem_cons.mp hp with h2 | h2
        · exact absurd ⟨h2 ▸ hp1, h2 ▸ hp2⟩ h
        · exact ⟨p, h2, hp1, hp2⟩
      intro x hx
      rcases List.mem_cons.mp hx with h1 | h1
      · subst h1
        refine ⟨List.mem_cons_self x rest, ?_⟩
        obtain ⟨p, hp, hp1, hp2⟩ := hmem'
        have ht : p.2.target = e.target :=
          hinj p (List.mem_cons_of_mem x hp) hp1 hp2
        rw [← ht]
        exact hpar.1 p hp
      · have := ih (fun p hp => hinj p (List.mem_cons_of_mem el hp))
          hpar.2 hmem' x h1
        exact ⟨List.mem_cons_of_mem el this.1, this.2⟩

theorem replaceFirstQ_mem (q : List (WithTop ℚ × Edge))
    (old new : WithTop ℚ × Edge) :
    ∀ x ∈ replaceFirstQ q old new, x ∈ q ∨
      (x = new ∧ ∃ p ∈ q, p.1 = old.1 ∧ p.2.eid = old.2.eid) := by
  induction q with
  | nil => intro x hx; exact absurd hx (by simp [replaceFirstQ])
  | cons el rest ih =>
    unfold replaceFirstQ
    by_cases h : el.1 = old.1 ∧ el.2.eid = old.2.eid
    · rw [if_pos h]
      intro x hx
      rcases List.mem_cons.mp hx with h1 | h1
      · exact .inr ⟨h1, el, List.mem_cons_self el rest, h⟩
      · exact .inl (List.mem_cons_of_mem el h1)
    · rw [if_neg h]
      intro x hx
      rcases List.mem_cons.mp hx with h1 | h1
      · exact .inl (h1 ▸ List.mem_cons_self el rest)
      · rcases ih x h1 with h2 | ⟨h2, p, hp, hm⟩
        · exact .inl (List.mem_cons_of_mem el h2)
        · exact .inr ⟨h2, p, List.mem_cons_of_mem el hp, hm⟩

theorem replaceFirstQ_pairwise
    {R : (WithTop ℚ × Edge) → (WithTop ℚ × Edge) → Prop}
    (q : List (WithTop ℚ × Edge)) (old new : WithTop ℚ × Edge)
    (hpar : q.Pairwise R)
    (hmatch : ∀ p ∈ q, p.1 = old.1 → p.2.eid = old.2.eid →
      (∀ x, R p x → R new x) ∧ (∀ x, R x p → R x new)) :
    (replaceFirstQ q old new).Pairwise R := by
  induction q with
  | nil => exact List.Pairwise.nil
  | cons el rest ih =>
    rw [List.pairwise_cons] at hpar
    unfold replaceFirstQ
    by_cases h : el.1 = old.1 ∧ el.2.eid = old.2.eid
    · rw [if_pos h]
      rw [List.pairwise_cons]
      exact ⟨fun x hx => (hmatch el (List.mem_cons_self el rest) h.1 h.2).1 x
        (hpar.1 x hx), hpar.2⟩
    · rw [if_neg h]
      rw [List.pairwise_cons]
      refine ⟨?_, ih hpar.2
        (fun p hp => hmatch p (List.mem_cons_of_mem el hp))⟩
      intro x hx
      rcases replaceFirstQ_mem rest old new x hx with h1 | ⟨h1, p, hp, hm1, hm2⟩
      · exact hpar.1 x h1
      · subst h1
        exact (hmatch p (List.mem_cons_of_mem el hp) hm1 hm2).2 el
          (hpar.1 p hp)

theorem filter_length_update {l : List NodeId} (p q : NodeId → Bool)
    (t : NodeId) (hnd : l.Nodup)
    (hpq : ∀ d ∈ l, d ≠ t → q d = p d) (hqt : q t = true)
    (hpt : p t = false) :
    ((l.filter q).length : Int) =
      (l.filter p).length + (if t ∈ l then 1 else 0) := by
  induction l with
  | nil => simp
  | cons a l' ih =>
    rw [List.nodup_cons] at hnd
    by_cases hat : a = t
    · subst hat
      have hnt : a ∉ l' := hnd.1
      have heq : l'.filter q = l'.filter p :=
        List.filter_congr (fun d hd => hpq d (List.mem_cons_of_mem a hd)
          (fun he => hnt (he ▸ hd)))
      have hm : a ∈ a :: l' := List.mem_cons_self a l'
      simp only [List.filter_cons, hqt, hpt, if_true, if_false, heq,
        List.length_cons, if_pos hm]
      push_cast
      ring
    · have hqa : q a = p a := hpq a (List.mem_cons_self a l') hat
      have hmem : (t ∈ a :: l') ↔ (t ∈ l') := by
        rw [List.mem_cons]
        constructor
        · rintro (h | h)
          · exact absurd h.symm hat
          · exact h
        · exact Or.inr
      have ih' := ih hnd.2 (fun d hd => hpq d (List.mem_cons_of_mem a hd))
      simp only [List.filter_cons, hqa, hmem]
      by_cases hpa : p a = true
      · simp only [hpa, if_true, List.length_cons]
        push_cast
        rw [ih']
        ring
      · simp only [hpa, if_false]
        exact ih'

/-! Constancy of the `source`/`source_set` attributes (and where
applicable the DIST/LAST dictionaries) through the loop primitives. -/

theorem checkQueueToUpdate_src (G : Hypergraph) (pf : PF) (D : WithTop ℚ)
    (e : Edge) :
    (checkQueueToUpdate G pf D e).source = pf.source ∧
    (checkQueueToUpdate G pf D e).source_set = pf.source_set ∧
    (checkQueueToUpdate G pf D e).REACH = pf.REACH ∧
    (checkQueueToUpdate G pf D e).DIST = pf.DIST ∧
    (checkQueueToUpdate G pf D e).LAST = pf.LAST := by
  unfold checkQueueToUpdate
  split
  · exact ⟨rfl, rfl, rfl, rfl, rfl⟩
  · split
    · exact ⟨rfl, rfl, rfl, rfl, rfl⟩
    · exact ⟨rfl, rfl, rfl, rfl, rfl⟩

theorem scan_src {G : Hypergraph} {pf pf' : PF} {e : Edge}
    (h : scan G pf e = .ok pf') :
    pf'.source = pf.source ∧ pf'.source_set = pf.source_set ∧
    pf'.DIST = pf.DIST ∧ pf'.LAST = pf.LAST := by
  unfold scan at h
  split at h
  · exact Except.noConfusion h
  · split at h
    · exact Except.noConfusion h
    · split at h
      · injection h with h
        subst h
        exact ⟨rfl, rfl, rfl, rfl⟩
      · injection h with h
        subst h
        exact ⟨(checkQueueToUpdate_src G pf _ e).1,
          (checkQueueToUpdate_src G pf _ e).2.1,
          (checkQueueToUpdate_src G pf _ e).2.2.2.1,
          (checkQueueToUpdate_src G pf _ e).2.2.2.2⟩

theorem scanFold_src {G : Hypergraph} {L : List Edge} {pf pf' : PF}
    (h : L.foldlM (fun p e => scan G p e) pf = .ok pf') :
    pf'.source = pf.source ∧ pf'.source_set = pf.source_set ∧
    pf'.DIST = pf.DIST ∧ pf'.LAST = pf.LAST := by
  induction L generalizing pf with
  | nil =>
    rw [List.foldlM_nil] at h
    injection h with h
    subst h
    exact ⟨rfl, rfl, rfl, rfl⟩
  | cons e L ih =>
    rw [List.foldlM_cons] at h
    cases hs : scan G pf e with
    | error err =>
      rw [hs] at h
      exact Except.noConfusion h
    | ok pf1 =>
      rw [hs] at h
      have h2 : L.foldlM (fun p e => scan G p e) pf1 = .ok pf' := h
      have h3 := ih h2
      have h4 := scan_src hs
      exact ⟨h3.1.trans h4.1, h3.2.1.trans h4.2.1, h3.2.2.1.trans h4.2.2.1,
        h3.2.2.2.trans h4.2.2.2⟩

theorem dottedStep_src {G : Hypergraph} {pf pf' : PF} {e : Edge}
    (h : dottedStep G pf e = .ok pf') :
    pf'.source = pf.source ∧ pf'.source_set = pf.source_set ∧
    pf'.LAST = pf.LAST := by
  unfold dottedStep at h
  split at h
  · exact Except.noConfusion h
  · split at h
    · exact Except.noConfusion h
    · split at h
      · split at h
        · exact Except.noConfusion h
        · exact Except.noConfusion h
        · split at h
          · exact Except.noConfusion h
          · split at h
            · exact Except.noConfusion h
            · have h2 := scanFold_src h
              exact ⟨h2.1, h2.2.1, h2.2.2.2⟩
      · injection h with h
        subst h
        exact ⟨rfl, rfl, rfl⟩

theorem dottedFold_src {G : Hypergraph} {L : List Edge} {pf pf' : PF}
    (h : L.foldlM (fun p e => dottedStep G p e) pf = .ok pf') :
    pf'.source = pf.source ∧ pf'.source_set = pf.source_set := by
  induction L generalizing pf with
  | nil =>
    rw [List.foldlM_nil] at h
    injection h with h
    subst h
    exact ⟨rfl, rfl⟩
  | cons e L ih =>
    rw [List.foldlM_cons] at h
    cases hs : dottedStep G pf e with
    | error err =>
      rw [hs] at h
      exact Except.noConfusion h
    | ok pf1 =>
      rw [hs] at h
      have h2 : L.foldlM (fun p e => dottedStep G p e) pf1 = .ok pf' := h
      have h3 := ih h2
      have h4 := dottedStep_src hs
      exact ⟨h3.1.trans h4.1, h3.2.trans h4.2.1⟩

theorem pfStep_src {G : Hypergraph} {pf pf' : PF}
    (h : pfStep G pf = .ok pf') :
    pf'.source = pf.source ∧ pf'.source_set = pf.source_set := by
  unfold pfStep at h
  split at h
  · exact Except.noConfusion h
  · next el pf1 heq =>
    split at h
    · exact Except.noConfusion h
    · next pf3 heq2 =>
      have h1 := dottedFold_src h
      have h2 := scanFold_src heq2
      unfold getMinQueueEl at heq
      split at heq
      · exact Except.noConfusion heq
      · injection heq with heq
        have hel : pf1 = { pf with
            p_queue := removeFirstQ pf.p_queue _ _ } :=
          (congrArg Prod.snd heq).symm
        constructor
        · rw [h1.1, h2.1, hel]
          rfl
        · rw [h1.2, h2.2.1, hel]
          rfl

theorem pfLoop_src {G : Hypergraph} {fuel : Nat} {pf pf' : PF}
    (h : pfLoop G fuel pf = .ok pf') :
    pf'.source = pf.source ∧ pf'.source_set = pf.source_set := by
  induction fuel generalizing pf with
  | zero => exact Except.noConfusion h
  | succ n ih =>
    unfold pfLoop at h
    split at h
    · injection h with h
      subst h
      exact ⟨rfl, rfl⟩
    · split at h
      · exact Except.noConfusion h
      · next pf1 heq =>
        have h1 := pfStep_src heq
        have h2 := ih h
        exact ⟨h2.1.trans h1.1, h2.2.trans h1.2⟩

/-! Evaluation helpers for the embedded float primitives and the
dependency-maximum fold. -/

theorem edMax_coe (a b : ℚ) :
    edMax ((a : ℚ) : WithTop ℚ) ((b : ℚ) : WithTop ℚ)
      = ((max a b : ℚ) : WithTop ℚ) := rfl

theorem edAdd_coe (w q : ℚ) :
    edAdd w ((q : ℚ) : WithTop ℚ) = ((w + q : ℚ) : WithTop ℚ) := rfl

theorem poppedB_of_LAST_eq {G : Hypergraph} {pf pf' : PF}
    (h : pf'.LAST = pf.LAST) (i : NodeId) :
    poppedB G pf' i = poppedB G pf i := by
  unfold poppedB
  rw [h]

theorem poppedB_lastSet (G : Hypergraph) (pf : PF) (tl : String) (e : Edge)
    (i : NodeId) :
    poppedB G (lastSetEdge pf tl e) i =
      if lbl G i = tl then true else poppedB G pf i := by
  unfold poppedB lastSetEdge
  by_cases h : lbl G i = tl
  · rw [if_pos h, h]
    simp only [dget_dset_self]
  · rw [if_neg h]
    simp only [dget_dset_ne _ _ h]

theorem distListMax_spec (G : Hypergraph) (eph : NodeId) (pf : PF)
    (ds : List NodeId) (hnd : ds.Nodup)
    (hds : ∀ x ∈ ds, ∃ c : ℚ,
      dget pf.DIST ((getObj G x).label) = some ((c : ℚ) : WithTop ℚ) ∧
      Deriv G eph x c) :
    ∀ c0 : ℚ, ∃ m : ℚ,
      distListMax G pf ds (((c0 : ℚ)) : WithTop ℚ)
        = .ok (((m : ℚ)) : WithTop ℚ) ∧
      ∃ f : NodeId → ℚ, m = qMaxList c0 (ds.map f) ∧
        ∀ x ∈ ds, Deriv G eph x (f x) := by
  induction ds with
  | nil =>
    intro c0
    exact ⟨c0, rfl, fun _ => 0, rfl, by simp⟩
  | cons x ds' ih =>
    rw [List.nodup_cons] at hnd
    intro c0
    obtain ⟨cx, hcx, hdx⟩ := hds x (List.mem_cons_self x ds')
    obtain ⟨m, hm, f', hf'1, hf'2⟩ := ih hnd.2
      (fun y hy => hds y (List.mem_cons_of_mem x hy)) (max c0 cx)
    refine ⟨m, ?_, fun y => if y = x then cx else f' y, ?_, ?_⟩
    · rw [distListMax]
      rw [show distGet pf (getObj G x).label
          = .ok (((cx : ℚ)) : WithTop ℚ) from by
        unfold distGet; rw [hcx]]
      show distListMax G pf ds'
        (edMax (((c0 : ℚ)) : WithTop ℚ) (((cx : ℚ)) : WithTop ℚ))
        = Except.ok (((m : ℚ)) : WithTop ℚ)
      rw [edMax_coe]
      exact hm
    · have hmap : ds'.map (fun y => if y = x then cx else f' y)
          = ds'.map f' := by
        apply List.map_congr_left
        intro y hy
        have hyx : y ≠ x := fun he => hnd.1 (he ▸ hy)
        rw [if_neg hyx]
      rw [List.map_cons, hmap,
        show (if x = x then cx else f' x) = cx from if_pos rfl]
      exact hf'1
    · intro y hy
      rcases List.mem_cons.mp hy with h1 | h1
      · subst h1
        show Deriv G eph y (if y = y then cx else f' y)
        rw [show (if y = y then cx else f' y) = cx from if_pos rfl]
        exact hdx
      · have hyx : y ≠ x := fun he => hnd.1 (he ▸ h1)
        show Deriv G eph y (if y = x then cx else f' y)
        rw [if_neg hyx]
        exact hf'2 y h1

/-! Helper lemmas about the primitive graph operations, used by the
universal theorems below. -/

theorem getObj_setObj (hg : Hypergraph) (i j : NodeId) (o : NodeObj) :
    getObj (setObj hg i o) j =
      if i = j ∧ i < hg.arena.length then o else getObj hg j := by
  unfold getObj setObj
  simp only [List.getD_eq_getElem?_getD, List.getElem?_set]
  by_cases h : i = j
  · subst h
    by_cases hl : i < hg.arena.length
    · simp [hl]
    · simp [hl, List.getElem?_eq_none (Nat.le_of_not_lt hl)]
  · simp [h]

theorem deps_setObj (hg : Hypergraph) (i j : NodeId) (o : NodeObj)
    (h : o.dependencies = (getObj hg i).dependencies) :
    (getObj (setObj hg i o) j).dependencies = (getObj hg j).dependencies := by
  rw [getObj_setObj]
  split
  · next hc => rw [h, hc.1]
  · rfl

theorem getObj_mem {hg : Hypergraph} {i : NodeId} (h : i < hg.arena.length) :
    getObj hg i ∈ hg.arena := by
  unfold getObj
  rw [List.getD_eq_getElem?_getD, List.getElem?_eq_getElem h]
  exact List.getElem_mem h

theorem getObj_default {hg : Hypergraph} {i : NodeId}
    (h : ¬ i < hg.arena.length) : getObj hg i = default := by
  unfold getObj
  rw [List.getD_eq_getElem?_getD, List.getElem?_eq_none (Nat.le_of_not_lt h)]
  rfl

theorem mem_edgesOf_setObj {hg : Hypergraph} {i : NodeId} {o : NodeObj}
    {e : Edge} (h : e ∈ edgesOf (setObj hg i o)) :
    e ∈ edgesOf hg ∨ e ∈ o.full_edges ++ o.dotted_edges := by
  simp only [edgesOf, setObj] at h
  rcases List.mem_flatMap.mp h with ⟨ob, hob, he⟩
  rcases List.mem_or_eq_of_mem_set hob with h1 | h1
  · exact .inl (List.mem_flatMap.mpr ⟨ob, h1, he⟩)
  · subst h1; exact .inr he

theorem mem_edgesOf_of_obj {hg : Hypergraph} {i : NodeId} {e : Edge}
    (hi : i < hg.arena.length)
    (h : e ∈ (getObj hg i).full_edges ++ (getObj hg i).dotted_edges) :
    e ∈ edgesOf hg :=
  List.mem_flatMap.mpr ⟨getObj hg i, getObj_mem hi, h⟩

/-! Order facts about the embedded float comparison, the queue minimum,
and the `max` fold, used by the minimality layer. -/

theorem edLtB_lt {a b : WithTop ℚ} (h : edLtB a b = true) : a < b := by
  cases a with
  | top => exact absurd h (by rw [show edLtB ⊤ b = false from rfl]; simp)
  | coe p =>
    cases b with
    | top => exact WithTop.coe_lt_top p
    | coe q =>
      have h2 : decide (p < q) = true := h
      exact WithTop.coe_lt_coe.mpr (of_decide_eq_true h2)

theorem edLtB_le {a b : WithTop ℚ} (h : edLtB a b = false) : b ≤ a := by
  cases a with
  | top => exact le_top
  | coe p =>
    cases b with
    | top =>
      exact absurd h
        (by rw [show edLtB ((p : ℚ) : WithTop ℚ) ⊤ = true from rfl]; simp)
    | coe q =>
      have h2 : decide (p < q) = false := h
      exact WithTop.coe_le_coe.mpr (le_of_not_lt (of_decide_eq_false h2))

theorem queueMinFold_le (q : List (WithTop ℚ × Edge)) :
    ∀ acc : WithTop ℚ × Option Edge,
    (q.foldl (fun acc el => if edLtB el.1 acc.1 then (el.1, some el.2)
      else acc) acc).1 ≤ acc.1 ∧
    ∀ p ∈ q,
    (q.foldl (fun acc el => if edLtB el.1 acc.1 then (el.1, some el.2)
      else acc) acc).1 ≤ p.1 := by
  induction q with
  | nil => intro acc; exact ⟨le_refl _, by simp⟩
  | cons el rest ih =>
    intro acc
    simp only [List.foldl_cons]
    by_cases h : edLtB el.1 acc.1
    · rw [if_pos h]
      obtain ⟨h1, h2⟩ := ih (el.1, some el.2)
      refine ⟨h1.trans (le_of_lt (edLtB_lt h)), ?_⟩
      intro p hp
      rcases List.mem_cons.mp hp with h3 | h3
      · rw [h3]
        exact h1
      · exact h2 p h3
    · rw [if_neg h]
      obtain ⟨h1, h2⟩ := ih acc
      refine ⟨h1, ?_⟩
      intro p hp
      rcases List.mem_cons.mp hp with h3 | h3
      · rw [h3]
        exact h1.trans (edLtB_le (Bool.eq_false_iff.mpr h))
      · exact h2 p h3

theorem queueMinFold_min {q : List (WithTop ℚ × Edge)} {d : WithTop ℚ}
    {e : Edge} (h : queueMinFold q = (d, some e)) :
    ∀ p ∈ q, d ≤ p.1 := by
  intro p hp
  have h2 := (queueMinFold_le q (⊤, none)).2 p hp
  unfold queueMinFold at h
  rw [h] at h2
  exact h2

theorem removeFirstQ_mem_keep (q : List (WithTop ℚ × Edge)) (d : WithTop ℚ)
    (e : Edge) {x : WithTop ℚ × Edge} (hx : x ∈ q)
    (hne : ¬(x.1 = d ∧ x.2.eid = e.eid)) : x ∈ removeFirstQ q d e := by
  induction q with
  | nil => exact absurd hx (List.not_mem_nil x)
  | cons el rest ih =>
    unfold removeFirstQ
    by_cases h : el.1 = d ∧ el.2.eid = e.eid
    · rw [if_pos h]
      rcases List.mem_cons.mp hx with h1 | h1
      · exact absurd (h1 ▸ h) hne
      · exact h1
    · rw [if_neg h]
      rcases List.mem_cons.mp hx with h1 | h1
      · rw [h1]
        exact List.mem_cons_self el _
      · exact List.mem_cons_of_mem el (ih h1)

theorem replaceFirstQ_mem_keep (q : List (WithTop ℚ × Edge))
    (old new : WithTop ℚ × Edge) {x : WithTop ℚ × Edge} (hx : x ∈ q)
    (hne : ¬(x.1 = old.1 ∧ x.2.eid = old.2.eid)) :
    x ∈ replaceFirstQ q old new := by
  induction q with
  | nil => exact absurd hx (List.not_mem_nil x)
  | cons el rest ih =>
    unfold replaceFirstQ
    by_cases h : el.1 = old.1 ∧ el.2.eid = old.2.eid
    · rw [if_pos h]
      rcases List.mem_cons.mp hx with h1 | h1
      · exact absurd (h1 ▸ h) hne
      · exact List.mem_cons_of_mem _ h1
    · rw [if_neg h]
      rcases List.mem_cons.mp hx with h1 | h1
      · rw [h1]
        exact List.mem_cons_self el _
      · exact List.mem_cons_of_mem el (ih h1)

theorem replaceFirstQ_new_mem (q : List (WithTop ℚ × Edge))
    (old new : WithTop ℚ × Edge)
    (hmem : ∃ p ∈ q, p.1 = old.1 ∧ p.2.eid = old.2.eid) :
    new ∈ replaceFirstQ q old new := by
  induction q with
  | nil =>
    obtain ⟨p, hp, -⟩ := hmem
    exact absurd hp (List.not_mem_nil p)
  | cons el rest ih =>
    unfold replaceFirstQ
    by_cases h : el.1 = old.1 ∧ el.2.eid = old.2.eid
    · rw [if_pos h]
      exact List.mem_cons_self new _
    · rw [if_neg h]
      obtain ⟨p, hp, hp1, hp2⟩ := hmem
      rcases List.mem_cons.mp hp with h1 | h1
      · exact absurd (h1 ▸ (⟨hp1, hp2⟩ : p.1 = old.1 ∧ p.2.eid = old.2.eid)) h
      · exact List.mem_cons_of_mem el (ih ⟨p, h1, hp1, hp2⟩)

theorem replaceFirstQ_mem_strong (G : Hypergraph)
    (q : List (WithTop ℚ × Edge)) (old new : WithTop ℚ × Edge)
    (hinj : ∀ p ∈ q, p.1 = old.1 → p.2.eid = old.2.eid →
      p.2.target = old.2.target)
    (hpar : q.Pairwise (fun p1 p2 => lbl G p1.2.target ≠ lbl G p2.2.target))
    (hmem : ∃ p ∈ q, p.1 = old.1 ∧ p.2.eid = old.2.eid) :
    ∀ x ∈ replaceFirstQ q old new,
      (x ∈ q ∧ lbl G x.2.target ≠ lbl G old.2.target) ∨ x = new := by
  induction q with
  | nil => intro x hx; exact absurd hx (by simp [replaceFirstQ])
  | cons el rest ih =>
    rw [List.pairwise_cons] at hpar
    unfold replaceFirstQ
    by_cases h : el.1 = old.1 ∧ el.2.eid = old.2.eid
    · rw [if_pos h]
      intro x hx
      rcases List.mem_cons.mp hx with h1 | h1
      · exact .inr h1
      · refine .inl ⟨List.mem_cons_of_mem el h1, ?_⟩
        have ht : el.2.target = old.2.target :=
          hinj el (List.mem_cons_self el rest) h.1 h.2
        rw [← ht]
        exact Ne.symm (hpar.1 x h1)
    · rw [if_neg h]
      have hmem' : ∃ p ∈ rest, p.1 = old.1 ∧ p.2.eid = old.2.eid := by
        obtain ⟨p, hp, hp1, hp2⟩ := hmem
        rcases List.mem_cons.mp hp with h2 | h2
        · exact absurd ⟨h2 ▸ hp1, h2 ▸ hp2⟩ h
        · exact ⟨p, h2, hp1, hp2⟩
      intro x hx
      rcases List.mem_cons.mp hx with h1 | h1
      · subst h1
        refine .inl ⟨List.mem_cons_self x rest, ?_⟩
        obtain ⟨p, hp, hp1, hp2⟩ := hmem'
        have ht : p.2.target = old.2.target :=
          hinj p (List.mem_cons_of_mem x hp) hp1 hp2
        rw [← ht]
        exact hpar.1 p hp
      · rcases ih (fun p hp => hinj p (List.mem_cons_of_mem el hp))
          hpar.2 hmem' x h1 with ⟨h2, h3⟩ | h2
        · exact .inl ⟨List.mem_cons_of_mem el h2, h3⟩
        · exact .inr h2

theorem qMaxList_le_left (l : List ℚ) : ∀ a : ℚ, a ≤ qMaxList a l := by
  induction l with
  | nil => intro a; exact le_refl a
  | cons x l ih =>
    intro a
    show a ≤ qMaxList (max a x) l
    exact le_trans (le_max_left a x) (ih (max a x))

theorem qMaxList_le_mem (l : List ℚ) :
    ∀ (a x : ℚ), x ∈ l → x ≤ qMaxList a l := by
  induction l with
  | nil => intro a x hx; exact absurd hx (List.not_mem_nil x)
  | cons y l ih =>
    intro a x hx
    show x ≤ qMaxList (max a y) l
    rcases List.mem_cons.mp hx with h1 | h1
    · rw [h1]
      exact le_trans (le_max_right a y) (qMaxList_le_left l (max a y))
    · exact ih (max a y) x h1

theorem qMaxList_le_of (l : List ℚ) :
    ∀ (a b : ℚ), a ≤ b → (∀ x ∈ l, x ≤ b) → qMaxList a l ≤ b := by
  induction l with
  | nil => intro a b hab _; exact hab
  | cons y l ih =>
    intro a b hab hall
    show qMaxList (max a y) l ≤ b
    exact ih (max a y) b (max_le hab (hall y (List.mem_cons_self y l)))
      (fun x hx => hall x (List.mem_cons_of_mem y hx))

theorem qMaxList_mono_map {ds : List NodeId} {g f : NodeId → ℚ} {a b : ℚ}
    (hab : a ≤ b) (h : ∀ x ∈ ds, g x ≤ f x) :
    qMaxList a (ds.map g) ≤ qMaxList b (ds.map f) := by
  refine qMaxList_le_of (ds.map g) a (qMaxList b (ds.map f))
    (hab.trans (qMaxList_le_left (ds.map f) b)) ?_
  intro y hy
  obtain ⟨x, hx, rfl⟩ := List.mem_map.mp hy
  exact (h x hx).trans
    (qMaxList_le_mem (ds.map f) b (f x) (List.mem_map_of_mem f hx))

theorem distListMax_dists (G : Hypergraph) (pf : PF) (ds : List NodeId)
    (hds : ∀ x ∈ ds, ∃ c : ℚ,
      dget pf.DIST ((getObj G x).label) = some ((c : ℚ) : WithTop ℚ)) :
    ∀ c0 : ℚ, ∃ m : ℚ,
      distListMax G pf ds (((c0 : ℚ)) : WithTop ℚ)
        = .ok (((m : ℚ)) : WithTop ℚ) ∧
      ∀ g : NodeId → ℚ,
        (∀ x ∈ ds, dget pf.DIST ((getObj G x).label)
          = some ((g x : ℚ) : WithTop ℚ)) →
        m = qMaxList c0 (ds.map g) := by
  induction ds with
  | nil => intro c0; exact ⟨c0, rfl, fun g _ => rfl⟩
  | cons x ds' ih =>
    intro c0
    obtain ⟨cx, hcx⟩ := hds x (List.mem_cons_self x ds')
    obtain ⟨m, hm, hall⟩ := ih
      (fun y hy => hds y (List.mem_cons_of_mem x hy)) (max c0 cx)
    refine ⟨m, ?_, ?_⟩
    · rw [distListMax]
      rw [show distGet pf (getObj G x).label
          = .ok (((cx : ℚ)) : WithTop ℚ) from by
        unfold distGet; rw [hcx]]
      show distListMax G pf ds'
        (edMax (((c0 : ℚ)) : WithTop ℚ) (((cx : ℚ)) : WithTop ℚ))
        = Except.ok (((m : ℚ)) : WithTop ℚ)
      rw [edMax_coe]
      exact hm
    · intro g hg
      have hgx : g x = cx := by
        have h2 := hg x (List.mem_cons_self x ds')
        rw [hcx] at h2
        exact_mod_cast (Option.some.inj h2).symm
      show m = qMaxList c0 ((x :: ds').map g)
      rw [List.map_cons]
      show m = qMaxList (max c0 (g x)) (ds'.map g)
      rw [hgx]
      exact hall g (fun y hy => hg y (List.mem_cons_of_mem x hy))

theorem orphan_no_full {G : Hypergraph} (hww : WFW G) {s : NodeId}
    (hs : s ∉ getNodes G) : (getObj G s).full_edges = [] := by
  by_cases hlt : s < G.arena.length
  · exact List.length_eq_zero.mp (hww.2 s (List.mem_range.mpr hlt) hs)
  · rw [getObj_default hlt]
    rfl

/-- A distance assignment for a list of nodes, extracted pointwise from
finite dictionary entries (keyed by label, so duplicates are harmless). -/
theorem dists_fun {G : Hypergraph} {pf : PF} (l : List NodeId)
    (h : ∀ x ∈ l, ∃ cx : ℚ,
      dget pf.DIST (lbl G x) = some ((cx : ℚ) : WithTop ℚ)) :
    ∃ g : NodeId → ℚ, ∀ x ∈ l,
      dget pf.DIST (lbl G x) = some ((g x : ℚ) : WithTop ℚ) := by
  induction l with
  | nil => exact ⟨fun _ => 0, by simp⟩
  | cons x l ih =>
    obtain ⟨g, hgl⟩ := ih (fun y hy => h y (List.mem_cons_of_mem x hy))
    obtain ⟨cx, hcx⟩ := h x (List.mem_cons_self x l)
    refine ⟨fun y => if lbl G y = lbl G x then cx else g y, ?_⟩
    intro y hy
    by_cases hyx : lbl G y = lbl G x
    · show dget pf.DIST (lbl G y)
        = some (((if lbl G y = lbl G x then cx else g y : ℚ)) : WithTop ℚ)
      rw [if_pos hyx, hyx]
      exact hcx
    · show dget pf.DIST (lbl G y)
        = some (((if lbl G y = lbl G x then cx else g y : ℚ)) : WithTop ℚ)
      rw [if_neg hyx]
      rcases List.mem_cons.mp hy with h1 | h1
      · exact absurd (congrArg (lbl G) h1) hyx
      · exact hgl y h1

/-- Inversion for derivations of a Compound node: on a well-formed graph
no full edge and no base step can reach it, so the derivation ends with
the AND-join rule over its stored dependency list. -/
theorem deriv_cmpnd_inv {G : Hypergraph} {src : List NodeId} {eph : NodeId}
    {e0 : Edge} (hwf : WFRun G src eph e0) (hww : WFW G)
    {z : NodeId} {l : List NodeId} {c : ℚ}
    (hdep : (getObj G z).dependencies = some l)
    (hder : Deriv G eph z c) :
    ∃ (d : NodeId) (ds : List NodeId) (f : NodeId → ℚ) (c0 : ℚ),
      l = d :: ds ∧
      c = qMaxList c0 (ds.map f) ∧ Deriv G eph d c0 ∧
      ∀ x ∈ ds, Deriv G eph x (f x) := by
  obtain ⟨hpw, hnd, hnv, hsi, hci, hephm, hephe, hephd, hsrcm, hloc, hcmp,
    heid, he0t⟩ := hwf
  revert hdep
  cases hder with
  | base =>
    intro hdep
    have h2 := hsi eph hephm
    unfold isSimple at h2
    rw [hdep] at h2
    exact absurd h2 (by simp)
  | @full s e c' hds he =>
    intro hdep
    by_cases hsN : s ∈ getNodes G
    · have h2 := ((hloc s hsN).1 e he).2.2
      unfold isSimple at h2
      rw [hdep] at h2
      exact absurd h2 (by simp)
    · rw [orphan_no_full hww hsN] at he
      exact absurd he (List.not_mem_nil e)
  | @cmpnd z2 d ds f c0 hdep2 hd hds =>
    intro hdep
    rw [hdep2] at hdep
    exact ⟨d, ds, f, c0, (Option.some.inj hdep).symm, rfl, hd, hds⟩

/-- A node with no incoming full edges, no dependency list and distinct
from the root admits no derivation at any cost. -/
theorem not_deriv_no_incoming (hg : Hypergraph) (root n : NodeId)
    (h1 : n ≠ root)
    (h2 : ∀ o ∈ hg.arena, ∀ e ∈ o.full_edges, e.target ≠ n)
    (h3 : (getObj hg n).dependencies = none) :
    ∀ c, ¬ Deriv hg root n c := by
  intro c h
  revert h1 h2 h3
  cases h with
  | base =>
    intro h1 _ _
    exact h1 rfl
  | @full s e c' hr he =>
    intro _ h2 _
    by_cases hs : s < hg.arena.length
    · exact h2 _ (getObj_mem hs) e he rfl
    · rw [getObj_default hs] at he
      exact absurd he (List.not_mem_nil e)
  | cmpnd hdep hd hds =>
    intro _ _ h3
    rw [h3] at hdep
    exact Option.noConfusion hdep

theorem sublist_flatMap_of_mem {α β : Type} {l : List α} {o : α}
    (f : α → List β) (h : o ∈ l) : List.Sublist (f o) (l.flatMap f) := by
  induction l with
  | nil => exact absurd h (List.not_mem_nil o)
  | cons a l ih =>
    rw [List.flatMap_cons]
    rcases List.mem_cons.mp h with rfl | h1
    · exact List.sublist_append_left (f o) (l.flatMap f)
    · exact (ih h1).trans (List.sublist_append_right (f a) (l.flatMap f))

theorem full_eids_nodup {G : Hypergraph}
    (heidG : (edgesOf G).Pairwise (fun a b => a.eid ≠ b.eid))
    {z : NodeId} (hz : z < G.arena.length) :
    (((getObj G z).full_edges).map Edge.eid).Nodup := by
  have h1 : List.Sublist
      ((getObj G z).full_edges ++ (getObj G z).dotted_edges) (edgesOf G) :=
    sublist_flatMap_of_mem (fun o => o.full_edges ++ o.dotted_edges)
      (getObj_mem hz)
  have h2 : List.Sublist ((getObj G z).full_edges) (edgesOf G) :=
    (List.sublist_append_left _ _).trans h1
  exact List.Pairwise.map Edge.eid (fun a b h => h) (heidG.sublist h2)

theorem eid_eq_edge {G : Hypergraph}
    (heidG : (edgesOf G).Pairwise (fun a b => a.eid ≠ b.eid))
    {s : NodeId} (hslt : s < G.arena.length) {e2 e : Edge}
    (he2 : e2 ∈ (getObj G s).full_edges) (hmemE : e ∈ edgesOf G)
    (heq : e2.eid = e.eid) : e2 = e :=
  eid_inj heidG (mem_edgesOf_of_obj hslt (List.mem_append_left _ he2))
    hmemE heq

/-- The frontier lemma: at an iteration boundary, every derivation of a
registered node is either already dominated by a settled distance or
crosses the queue at a key no larger than its cost. -/
theorem frontier {G : Hypergraph} {src : List NodeId} {eph : NodeId}
    {e0 : Edge} {pf : PF}
    (hwf : WFRun G src eph e0) (hww : WFW G)
    (hM : MInv G src eph e0 [] [] pf) :
    ∀ u c, Deriv G eph u c → u ∈ getNodes G →
      (∃ cu : ℚ, dget pf.DIST (lbl G u) = some ((cu : ℚ) : WithTop ℚ) ∧
        cu ≤ c) ∨
      (∃ p ∈ pf.p_queue, ∃ q : ℚ, p.1 = ((q : ℚ) : WithTop ℚ) ∧
        q ≤ c) := by
  obtain ⟨hpw, hnd, hnv, hsi, hci, hephm, hephe, hephd, hsrcm, hloc, hcmp,
    heid, he0t⟩ := hwf
  intro u c hder
  induction hder with
  | base =>
    intro _
    cases hpop : poppedB G pf eph with
    | true => exact .inl ⟨0, hM.ephd0 hpop, le_refl 0⟩
    | false =>
      exact .inr ⟨((((0 : ℚ)) : WithTop ℚ), e0), hM.seedq hpop, 0, rfl,
        le_refl 0⟩
  | @full s e c' hds he ih =>
    intro htN
    have hsN : s ∈ getNodes G := by
      by_contra hs
      rw [orphan_no_full hww hs] at he
      exact absurd he (List.not_mem_nil e)
    have hwnn : (0 : ℚ) ≤ e.weight :=
      hww.1 e (mem_edgesOf_of_obj (hnv s hsN) (List.mem_append_left _ he))
    rcases ih hsN with ⟨cs, hcs, hle⟩ | ⟨p, hp, q, hq, hqle⟩
    · rcases hM.e2cov s hsN cs hcs e he (by simp)
        with ⟨ct, hct, hctle⟩ | ⟨p, hp, htgt⟩
      · exact .inl ⟨ct, hct, by linarith⟩
      · obtain ⟨q, hq, hqle⟩ :=
          hM.e2min p hp s hsN cs hcs e he (by simp) htgt.symm
        exact .inr ⟨p, hp, q, hq, by linarith⟩
    · exact .inr ⟨p, hp, q, hq, by linarith⟩
  | @cmpnd z d ds f c0 hdep hd hds ihd ihds =>
    intro hzN
    obtain ⟨hlne, hlnd, hleph, hldep, -, -⟩ := hcmp z hzN (d :: ds) hdep
    have hdN : d ∈ getNodes G := (hldep d (List.mem_cons_self d ds)).1
    by_cases hallfin : ∀ x ∈ d :: ds, ∃ cx : ℚ,
        dget pf.DIST (lbl G x) = some ((cx : ℚ) : WithTop ℚ)
    · obtain ⟨g, hg⟩ := dists_fun (d :: ds) hallfin
      have hallpop : ∀ x ∈ d :: ds, poppedB G pf x = true := by
        intro x hx
        exact hM.dfin x (hldep x hx).1 (hldep x hx).2 (g x) (hg x hx)
      obtain ⟨cz, hcz, hczle⟩ := hM.czle z hzN d ds hdep (by simp)
        hallpop g hg
      refine .inl ⟨cz, hcz, ?_⟩
      have hgd : g d ≤ c0 :=
        hM.m1 d hdN (g d) (hg d (List.mem_cons_self d ds)) c0 hd
      have hgds : ∀ x ∈ ds, g x ≤ f x := by
        intro x hx
        exact hM.m1 x (hldep x (List.mem_cons_of_mem d hx)).1 (g x)
          (hg x (List.mem_cons_of_mem d hx)) (f x) (hds x hx)
      exact hczle.trans (qMaxList_mono_map hgd hgds)
    · push_neg at hallfin
      obtain ⟨x, hx, hxnot⟩ := hallfin
      rcases List.mem_cons.mp hx with rfl | hxds
      · rcases ihd hdN with ⟨cx, hcx, -⟩ | ⟨p, hp, q, hq, hqle⟩
        · exact absurd hcx (hxnot cx)
        · exact .inr ⟨p, hp, q, hq,
            hqle.trans (qMaxList_le_left (ds.map f) c0)⟩
      · rcases ihds x hxds (hldep x (List.mem_cons_of_mem d hxds)).1
          with ⟨cx, hcx, -⟩ | ⟨p, hp, q, hq, hqle⟩
        · exact absurd hcx (hxnot cx)
        · exact .inr ⟨p, hp, q, hq, hqle.trans
            (qMaxList_le_mem (ds.map f) c0 (f x)
              (List.mem_map_of_mem f hxds))⟩

/-- Preservation of the minimality invariant by one `scan` call issued
while settling a node whose distance `cs` dominates every settled
distance (`hub`); the scanned edge `e` moves out of the unprocessed
suffix. -/
theorem scan_m {G : Hypergraph} {src : List NodeId} {eph : NodeId}
    {e0 : Edge} {dpend spend : List Edge} {pf pf' : PF} {e : Edge} {cs : ℚ}
    (hwf : WFRun G src eph e0) (hww : WFW G)
    (hInv : InvP G src eph e0 dpend pf)
    (hM : MInv G src eph e0 dpend (e :: spend) pf)
    (hscan : scan G pf e = .ok pf')
    (hsN : e.source ∈ getNodes G)
    (he : e ∈ (getObj G e.source).full_edges)
    (hcs : dget pf.DIST ((getObj G e.source).label)
      = some ((cs : ℚ) : WithTop ℚ))
    (hub : ∀ i ∈ getNodes G, ∀ ci : ℚ,
      dget pf.DIST (lbl G i) = some ((ci : ℚ) : WithTop ℚ) → ci ≤ cs)
    (hsp : e.eid ∉ spend.map Edge.eid) :
    MInv G src eph e0 dpend spend pf' := by
  obtain ⟨hpw, hnd, hnv, hsi, hci, hephm, hephe, hephd, hsrcm, hloc, hcmp,
    heid, he0t⟩ := hwf
  have heidG : (edgesOf G).Pairwise (fun a b => a.eid ≠ b.eid) :=
    (List.pairwise_append.mp heid).1
  have hcross : ∀ a ∈ edgesOf G, ∀ b ∈ [e0], a.eid ≠ b.eid :=
    (List.pairwise_append.mp heid).2.2
  obtain ⟨-, htN, htS⟩ := (hloc e.source hsN).1 e he
  have hmemE : e ∈ edgesOf G :=
    mem_edgesOf_of_obj (hnv e.source hsN) (List.mem_append_left _ he)
  have hene0 : e.eid ≠ e0.eid :=
    hcross e hmemE e0 (List.mem_singleton_self e0)
  have hwnn : (0 : ℚ) ≤ e.weight := hww.1 e hmemE
  have hcsnn : (0 : ℚ) ≤ cs := hM.dnn e.source hsN cs hcs
  have hdg : distGet pf (getObj G e.source).label
      = .ok (((cs : ℚ)) : WithTop ℚ) := by
    unfold distGet
    rw [hcs]
  obtain ⟨r, hr, hr01⟩ := hInv.sreach e.target htN htS
  have hrg : reachGet pf (getObj G e.target).label = .ok r := by
    unfold reachGet
    rw [show dget pf.REACH ((getObj G e.target).label) = some r from hr]
  have hguard : ∀ {e2 : Edge}, e2.eid ≠ e.eid →
      e2.eid ∉ spend.map Edge.eid →
      e2.eid ∉ (e :: spend).map Edge.eid := by
    intro e2 h1 h2 hmem
    rw [List.map_cons] at hmem
    rcases List.mem_cons.mp hmem with h3 | h3
    · exact h1 h3
    · exact h2 h3
  simp only [scan, hdg, hrg] at hscan
  rcases hr01 with rfl | rfl
  · -- REACH = 0: the queue-update path.
    rw [if_neg (by decide : ¬((0 : Int) = 1))] at hscan
    have hpf' : checkQueueToUpdate G pf
        (edAdd e.weight (((cs : ℚ)) : WithTop ℚ)) e = pf' :=
      Except.ok.inj hscan
    rcases hfq : findInQueue G pf e.target with - | el2
    · have hpf2 : pf = pf' := by
        rw [← hpf']
        simp only [checkQueueToUpdate, hfq]
      subst hpf2
      have hnone := List.find?_eq_none.mp hfq
      refine ⟨hM.m1, hM.dach, hM.ddom, hM.dfin, hM.dnn, hM.e4, hM.qcost,
        ?_, ?_, hM.r0pop, hM.creach, hM.ephd0, hM.seedq, hM.cmono, hM.czle,
        hM.mono, hM.lastE⟩
      · intro p hp s hs cs2 hcs2 e2 he2 hsp2 htgt2
        by_cases heq2 : e2.eid = e.eid
        · exfalso
          have he2e : e2 = e := eid_eq_edge heidG (hnv s hs) he2 hmemE heq2
          have hmatch : nodeRefEq G p.2.target e.target = true := by
            rw [← htgt2, he2e]
            simp [nodeRefEq, nodeEqPy]
          exact absurd hmatch (hnone p hp)
        · exact hM.e2min p hp s hs cs2 hcs2 e2 he2 (hguard heq2 hsp2) htgt2
      · intro s hs cs2 hcs2 e2 he2 hsp2
        by_cases heq2 : e2.eid = e.eid
        · have he2e : e2 = e := eid_eq_edge heidG (hnv s hs) he2 hmemE heq2
          rcases hM.r0pop e.target htN htS hr with hpop | ⟨p, hp, htg⟩
          · obtain ⟨-, -, ct, hct, -⟩ := hInv.pReach e.target htN hpop
            refine .inl ⟨ct, ?_, ?_⟩
            · rw [he2e]
              exact hct
            · have hders : Deriv G eph e.target (cs2 + e.weight) := by
                have h0 := Deriv.full (hM.dach s hs cs2 hcs2) he2
                rw [he2e] at h0
                exact h0
              have h2 := hM.m1 e.target htN ct hct (cs2 + e.weight) hders
              rw [he2e]
              linarith
          · exfalso
            have hmatch : nodeRefEq G p.2.target e.target = true := by
              rw [htg]
              simp [nodeRefEq, nodeEqPy]
            exact absurd hmatch (hnone p hp)
        · exact hM.e2cov s hs cs2 hcs2 e2 he2 (hguard heq2 hsp2)
    · have hel2 : el2 ∈ pf.p_queue := List.mem_of_find?_eq_some hfq
      have hlab : lbl G e.target = lbl G el2.2.target := by
        have h2 := List.find?_some hfq
        exact eq_of_beq h2
      have o2 := hInv.qfacts el2 hel2
      have htgt : el2.2.target = e.target := label_inj hpw o2.1 htN hlab.symm
      have hinj : ∀ p ∈ pf.p_queue, p.1 = el2.1 → p.2.eid = el2.2.eid →
          p.2.target = el2.2.target := by
        intro p hp _ hpe
        have hpm : p.2 ∈ edgesOf G ++ [e0] := by
          rcases hInv.qedges p hp with h | h
          · exact List.mem_append_left _ h
          · rw [h]
            exact List.mem_append_right _ (List.mem_cons_self _ _)
        have hem : el2.2 ∈ edgesOf G ++ [e0] := by
          rcases hInv.qedges el2 hel2 with h | h
          · exact List.mem_append_left _ h
          · rw [h]
            exact List.mem_append_right _ (List.mem_cons_self _ _)
        rw [eid_inj heid hpm hem hpe]
      by_cases hlt : edLtB (edAdd e.weight (((cs : ℚ)) : WithTop ℚ)) el2.1
      · -- strictly better: the entry is replaced in place.
        have hpf2 : { pf with p_queue := (replaceFirstQ pf.p_queue el2
            (edAdd e.weight (((cs : ℚ)) : WithTop ℚ), e)) } = pf' := by
          rw [← hpf']
          simp only [checkQueueToUpdate, hfq]
          rw [if_pos hlt]
        subst hpf2
        have hDlt : (((e.weight + cs : ℚ)) : WithTop ℚ) < el2.1 := by
          have h2 := edLtB_lt hlt
          rw [edAdd_coe] at h2
          exact h2
        have hmemrep := replaceFirstQ_mem_strong G pf.p_queue el2
          (edAdd e.weight (((cs : ℚ)) : WithTop ℚ), e) hinj hInv.qdistinct
          ⟨el2, hel2, rfl, rfl⟩
        have hnewmem : (edAdd e.weight (((cs : ℚ)) : WithTop ℚ), e)
            ∈ replaceFirstQ pf.p_queue el2
              (edAdd e.weight (((cs : ℚ)) : WithTop ℚ), e) :=
          replaceFirstQ_new_mem _ _ _ ⟨el2, hel2, rfl, rfl⟩
        refine ⟨hM.m1, hM.dach, hM.ddom, hM.dfin, hM.dnn, ?_, ?_, ?_, ?_,
          ?_, hM.creach, hM.ephd0, ?_, hM.cmono, hM.czle, hM.mono,
          hM.lastE⟩
        · -- e4
          intro p hp q hq i hi ci hci
          rcases hmemrep p hp with ⟨hold, -⟩ | rfl
          · exact hM.e4 p hold q hq i hi ci hci
          · have hq2 : (((e.weight + cs : ℚ)) : WithTop ℚ)
                = ((q : ℚ) : WithTop ℚ) := by
              rw [← edAdd_coe]
              exact hq
            have hq3 : e.weight + cs = q := by exact_mod_cast hq2
            have h2 := hub i hi ci hci
            linarith
        · -- qcost
          intro p hp hpe0
          rcases hmemrep p hp with ⟨hold, -⟩ | rfl
          · exact hM.qcost p hold hpe0
          · exact ⟨hsN, cs, hcs, edAdd_coe e.weight cs⟩
        · -- e2min
          intro p hp s hs cs2 hcs2 e2 he2 hsp2 htgt2
          rcases hmemrep p hp with ⟨hold, hlbl2⟩ | rfl
          · by_cases heq2 : e2.eid = e.eid
            · exfalso
              have he2e : e2 = e := eid_eq_edge heidG (hnv s hs) he2
                hmemE heq2
              apply hlbl2
              rw [← htgt2, he2e, htgt]
            · exact hM.e2min p hold s hs cs2 hcs2 e2 he2
                (hguard heq2 hsp2) htgt2
          · by_cases heq2 : e2.eid = e.eid
            · have he2e : e2 = e := eid_eq_edge heidG (hnv s hs) he2
                hmemE heq2
              have hse : s = e.source := by
                have h2 := ((hloc s hs).1 e2 he2).1
                rw [he2e] at h2
                exact h2.symm
              have hcseq : cs2 = cs := by
                have h2 : dget pf.DIST ((getObj G e.source).label)
                    = some ((cs2 : ℚ) : WithTop ℚ) := by
                  rw [← hse] at hcs ⊢
                  exact hcs2
                rw [hcs] at h2
                exact_mod_cast (Option.some.inj h2).symm
              refine ⟨e.weight + cs, edAdd_coe e.weight cs, ?_⟩
              rw [he2e, hcseq]
            · obtain ⟨q2, hq2c, hq2le⟩ := hM.e2min el2 hel2 s hs cs2 hcs2
                e2 he2 (hguard heq2 hsp2) (by rw [htgt, ← htgt2])
              refine ⟨e.weight + cs, edAdd_coe e.weight cs, ?_⟩
              have hlt2 : e.weight + cs < q2 := by
                rw [hq2c] at hDlt
                exact_mod_cast hDlt
              linarith
        · -- e2cov
          intro s hs cs2 hcs2 e2 he2 hsp2
          by_cases heq2 : e2.eid = e.eid
          · have he2e : e2 = e := eid_eq_edge heidG (hnv s hs) he2
              hmemE heq2
            refine .inr ⟨(edAdd e.weight (((cs : ℚ)) : WithTop ℚ), e),
              hnewmem, ?_⟩
            rw [he2e]
          · rcases hM.e2cov s hs cs2 hcs2 e2 he2 (hguard heq2 hsp2)
              with h | ⟨p, hp, htg⟩
            · exact .inl h
            · by_cases hm2 : p.1 = el2.1 ∧ p.2.eid = el2.2.eid
              · refine .inr ⟨(edAdd e.weight (((cs : ℚ)) : WithTop ℚ), e),
                  hnewmem, ?_⟩
                have h3 := hinj p hp hm2.1 hm2.2
                rw [← htg, h3, htgt]
              · exact .inr ⟨p, replaceFirstQ_mem_keep pf.p_queue el2
                  (edAdd e.weight (((cs : ℚ)) : WithTop ℚ), e) hp hm2, htg⟩
        · -- r0pop
          intro i hi hsi2 hr0
          rcases hM.r0pop i hi hsi2 hr0 with hpop | ⟨p, hp, htg⟩
          · exact .inl hpop
          · by_cases hm2 : p.1 = el2.1 ∧ p.2.eid = el2.2.eid
            · refine .inr ⟨(edAdd e.weight (((cs : ℚ)) : WithTop ℚ), e),
                hnewmem, ?_⟩
              have h3 := hinj p hp hm2.1 hm2.2
              rw [← htg, h3, htgt]
            · exact .inr ⟨p, replaceFirstQ_mem_keep pf.p_queue el2
                (edAdd e.weight (((cs : ℚ)) : WithTop ℚ), e) hp hm2, htg⟩
        · -- seedq
          intro hnpop
          have hseed := hM.seedq hnpop
          refine replaceFirstQ_mem_keep pf.p_queue el2
            (edAdd e.weight (((cs : ℚ)) : WithTop ℚ), e) hseed ?_
          intro hm2
          have hel2e0 : el2.2 = e0 := by
            rcases hInv.qedges el2 hel2 with h | h
            · exact absurd hm2.2.symm (hcross el2.2 h e0
                (List.mem_singleton_self e0))
            · exact h
          have hkey : el2.1 = (((0 : ℚ)) : WithTop ℚ) := hm2.1.symm
          rw [hkey] at hDlt
          have h4 : e.weight + cs < 0 := by exact_mod_cast hDlt
          linarith
      · -- not better: the state is unchanged.
        have hpf2 : pf = pf' := by
          rw [← hpf']
          simp only [checkQueueToUpdate, hfq]
          rw [if_neg hlt]
        subst hpf2
        have hle2 : el2.1 ≤ edAdd e.weight (((cs : ℚ)) : WithTop ℚ) :=
          edLtB_le (Bool.eq_false_iff.mpr hlt)
        obtain ⟨q2, hq2, -⟩ := o2.2.2.2.2.2
        refine ⟨hM.m1, hM.dach, hM.ddom, hM.dfin, hM.dnn, hM.e4, hM.qcost,
          ?_, ?_, hM.r0pop, hM.creach, hM.ephd0, hM.seedq, hM.cmono,
          hM.czle, hM.mono, hM.lastE⟩
        · intro p hp s hs cs2 hcs2 e2 he2 hsp2 htgt2
          by_cases heq2 : e2.eid = e.eid
          · have he2e : e2 = e := eid_eq_edge heidG (hnv s hs) he2
              hmemE heq2
            have hpel2 : p = el2 := by
              by_contra hne
              refine List.Pairwise.forall (fun _ _ h' => Ne.symm h')
                hInv.qdistinct hp hel2 hne ?_
              rw [← htgt2, he2e, htgt]
            have hse : s = e.source := by
              have h2 := ((hloc s hs).1 e2 he2).1
              rw [he2e] at h2
              exact h2.symm
            have hcseq : cs2 = cs := by
              have h2 : dget pf.DIST ((getObj G e.source).label)
                  = some ((cs2 : ℚ) : WithTop ℚ) := by
                rw [← hse] at hcs ⊢
                exact hcs2
              rw [hcs] at h2
              exact_mod_cast (Option.some.inj h2).symm
            have hq2' : el2.1 = ((q2 : ℚ) : WithTop ℚ) := hq2
            refine ⟨q2, by rw [hpel2]; exact hq2', ?_⟩
            have h3 : ((q2 : ℚ) : WithTop ℚ)
                ≤ (((e.weight + cs : ℚ)) : WithTop ℚ) := by
              rw [← hq2', ← edAdd_coe]
              exact hle2
            have h4 : q2 ≤ e.weight + cs := by exact_mod_cast h3
            rw [he2e, hcseq]
            exact h4
          · exact hM.e2min p hp s hs cs2 hcs2 e2 he2 (hguard heq2 hsp2)
              htgt2
        · intro s hs cs2 hcs2 e2 he2 hsp2
          by_cases heq2 : e2.eid = e.eid
          · have he2e : e2 = e := eid_eq_edge heidG (hnv s hs) he2
              hmemE heq2
            refine .inr ⟨el2, hel2, ?_⟩
            rw [htgt, he2e]
          · exact hM.e2cov s hs cs2 hcs2 e2 he2 (hguard heq2 hsp2)
  · -- REACH = 1: mark reached and push the new queue entry.
    rw [if_pos rfl] at hscan
    have hpf2 : { reachSet pf ((getObj G e.target).label) ((1 : Int) + (-1))
        with p_queue := pf.p_queue ++
          [(edAdd e.weight (((cs : ℚ)) : WithTop ℚ), e)] } = pf' :=
      Except.ok.inj hscan
    subst hpf2
    have hz : ((1 : Int) + (-1)) = 0 := by decide
    have hRne : ∀ i, i ∈ getNodes G → i ≠ e.target →
        dget (dset pf.REACH ((getObj G e.target).label) ((1 : Int) + (-1)))
          (lbl G i) = dget pf.REACH (lbl G i) := by
      intro i hi hne
      exact dget_dset_ne _ _
        (fun h => hne (label_inj hpw hi htN h))
    have hq1 : ∀ p ∈ pf.p_queue, p.2.target ≠ e.target := by
      intro p hp hcon
      have h2 := (hInv.qfacts p hp).2.2.2.1
      rw [hcon] at h2
      rw [show dget pf.REACH (lbl G e.target) = some 1 from hr] at h2
      exact absurd (Option.some.inj h2) (by decide)
    refine ⟨hM.m1, hM.dach, hM.ddom, hM.dfin, hM.dnn, ?_, ?_, ?_, ?_, ?_,
      ?_, hM.ephd0, ?_, hM.cmono, hM.czle, hM.mono, hM.lastE⟩
    · -- e4
      intro p hp q hq i hi ci hci
      rcases List.mem_append.mp hp with h | h
      · exact hM.e4 p h q hq i hi ci hci
      · rw [List.mem_singleton.mp h] at hq
        have hq2 : (((e.weight + cs : ℚ)) : WithTop ℚ)
            = ((q : ℚ) : WithTop ℚ) := by
          rw [← edAdd_coe]
          exact hq
        have hq3 : e.weight + cs = q := by exact_mod_cast hq2
        have h2 := hub i hi ci hci
        linarith
    · -- qcost
      intro p hp hpe0
      rcases List.mem_append.mp hp with h | h
      · exact hM.qcost p h hpe0
      · rw [List.mem_singleton.mp h]
        exact ⟨hsN, cs, hcs, edAdd_coe e.weight cs⟩
    · -- e2min
      intro p hp s hs cs2 hcs2 e2 he2 hsp2 htgt2
      by_cases heq2 : e2.eid = e.eid
      · have he2e : e2 = e := eid_eq_edge heidG (hnv s hs) he2 hmemE heq2
        rcases List.mem_append.mp hp with h | h
        · exact absurd (by rw [← htgt2, he2e] : p.2.target = e.target).symm
            (fun h2 => hq1 p h h2.symm)
        · rw [List.mem_singleton.mp h]
          have hse : s = e.source := by
            have h2 := ((hloc s hs).1 e2 he2).1
            rw [he2e] at h2
            exact h2.symm
          have hcseq : cs2 = cs := by
            have h2 : dget pf.DIST ((getObj G e.source).label)
                = some ((cs2 : ℚ) : WithTop ℚ) := by
              rw [← hse] at hcs ⊢
              exact hcs2
            rw [hcs] at h2
            exact_mod_cast (Option.some.inj h2).symm
          refine ⟨e.weight + cs, edAdd_coe e.weight cs, ?_⟩
          rw [he2e, hcseq]
      · rcases List.mem_append.mp hp with h | h
        · exact hM.e2min p h s hs cs2 hcs2 e2 he2 (hguard heq2 hsp2) htgt2
        · exfalso
          rcases hM.e2cov s hs cs2 hcs2 e2 he2 (hguard heq2 hsp2)
            with ⟨ct, hct, -⟩ | ⟨p2, hp2, htg2⟩
          · have hpt : e2.target = e.target := by
              rw [htgt2, (List.mem_singleton.mp h)]
            rw [hpt] at hct
            have hpop := hM.dfin e.target htN htS ct hct
            have h2 := hInv.pr0 e.target htN hpop
            rw [show dget pf.REACH (lbl G e.target) = some 1 from hr] at h2
            exact absurd (Option.some.inj h2) (by decide)
          · have hpt : e2.target = e.target := by
              rw [htgt2, (List.mem_singleton.mp h)]
            rw [hpt] at htg2
            exact hq1 p2 hp2 htg2
    · -- e2cov
      intro s hs cs2 hcs2 e2 he2 hsp2
      by_cases heq2 : e2.eid = e.eid
      · have he2e : e2 = e := eid_eq_edge heidG (hnv s hs) he2 hmemE heq2
        refine .inr ⟨(edAdd e.weight (((cs : ℚ)) : WithTop ℚ), e),
          List.mem_append_right _ (List.mem_singleton_self _), ?_⟩
        rw [he2e]
      · rcases hM.e2cov s hs cs2 hcs2 e2 he2 (hguard heq2 hsp2)
          with h | ⟨p, hp, htg⟩
        · exact .inl h
        · exact .inr ⟨p, List.mem_append_left _ hp, htg⟩
    · -- r0pop
      intro i hi hsi2 hr0
      by_cases hie : i = e.target
      · refine .inr ⟨(edAdd e.weight (((cs : ℚ)) : WithTop ℚ), e),
          List.mem_append_right _ (List.mem_singleton_self _), hie.symm⟩
      · have hr0' : dget pf.REACH (lbl G i) = some 0 := by
          rw [← hRne i hi hie]
          exact hr0
        rcases hM.r0pop i hi hsi2 hr0' with hpop | ⟨p, hp, htg⟩
        · exact .inl hpop
        · exact .inr ⟨p, List.mem_append_left _ hp, htg⟩
    · -- creach
      intro z hz l hdep cz hcz
      have hzne : z ≠ e.target := by
        intro h2
        rw [h2] at hdep
        unfold isSimple at htS
        rw [hdep] at htS
        exact absurd htS (by simp)
      have h2 := hM.creach z hz l hdep cz hcz
      rw [← hRne z hz hzne] at h2
      exact h2
    · -- seedq
      intro hnpop
      exact List.mem_append_left _ (hM.seedq hnpop)

theorem mem_edgesOf_nodeAddEdge {hg : Hypergraph} {i t : NodeId} {w : ℚ}
    {r : Option Relationship} {e : Edge}
    (h : e ∈ edgesOf (nodeAddEdge hg i t w r)) :
    e ∈ edgesOf hg ∨
      (e.target = t ∧ e.weight = w ∧ e.rel = defaultEdgeRel r) := by
  simp only [nodeAddEdge] at h
  split at h <;>
  · rcases mem_edgesOf_setObj h with h1 | h1
    · exact .inl h1
    · simp only [List.mem_append, List.mem_singleton] at h1
      have h2 : e ∈ (getObj hg i).full_edges ∨ e ∈ (getObj hg i).dotted_edges ∨
          e = { eid := hg.nextEid, source := i, target := t, weight := w,
                rel := defaultEdgeRel r } := by tauto
      by_cases hi : i < hg.arena.length
      · rcases h2 with h2 | h2 | h2
        · exact .inl (mem_edgesOf_of_obj hi (List.mem_append.mpr (.inl h2)))
        · exact .inl (mem_edgesOf_of_obj hi (List.mem_append.mpr (.inr h2)))
        · subst h2; exact .inr ⟨rfl, rfl, rfl⟩
      · rw [getObj_default hi] at h2
        rcases h2 with h2 | h2 | h2
        · simp [default] at h2
        · simp [default] at h2
        · subst h2; exact .inr ⟨rfl, rfl, rfl⟩

theorem deps_nodeAddEdge (hg : Hypergraph) (i t : NodeId) (w : ℚ)
    (r : Option Relationship) (j : NodeId) :
    (getObj (nodeAddEdge hg i t w r) j).dependencies =
      (getObj hg j).dependencies := by
  unfold nodeAddEdge
  split <;> exact deps_setObj _ _ _ _ rfl

theorem arena_length_nodeAddEdge (hg : Hypergraph) (i t : NodeId) (w : ℚ)
    (r : Option Relationship) :
    (nodeAddEdge hg i t w r).arena.length = hg.arena.length := by
  unfold nodeAddEdge
  split <;> simp [setObj]

theorem dotted_rel_nodeAddEdge (hg : Hypergraph) (i t : NodeId) (w : ℚ)
    (r : Option Relationship) :
    (nodeAddEdge hg i t w r).dotted_rel = hg.dotted_rel := by
  unfold nodeAddEdge
  split <;> rfl

theorem nodes_nodeAddEdge (hg : Hypergraph) (i t : NodeId) (w : ℚ)
    (r : Option Relationship) :
    getNodes (nodeAddEdge hg i t w r) = getNodes hg := by
  unfold nodeAddEdge
  split <;> rfl

theorem getObj_allocNode_lt {hg : Hypergraph} {o : NodeObj} {j : NodeId}
    (h : j < hg.arena.length) : getObj (allocNode hg o).1 j = getObj hg j := by
  unfold getObj allocNode
  simp only [List.getD_eq_getElem?_getD]
  rw [List.getElem?_append_left h]

theorem mem_edgesOf_allocNode {hg : Hypergraph} {o : NodeObj} {e : Edge}
    (h : e ∈ edgesOf (allocNode hg o).1) :
    e ∈ edgesOf hg ∨ e ∈ o.full_edges ++ o.dotted_edges := by
  simp only [edgesOf, allocNode] at h
  rcases List.mem_flatMap.mp h with ⟨ob, hob, he⟩
  rcases List.mem_append.mp hob with h1 | h1
  · exact .inl (List.mem_flatMap.mpr ⟨ob, h1, he⟩)
  · rw [List.mem_singleton.mp h1] at he
    exact .inr he

theorem mem_edgesOf_addNodeCommon {hg : Hypergraph} {i : NodeId} {e : Edge}
    (h : e ∈ edgesOf (addNodeCommon hg i)) : e ∈ edgesOf hg := by
  simp only [addNodeCommon] at h
  split at h <;>
  all_goals try split at h
  all_goals
  · rcases mem_edgesOf_setObj h with h1 | h1
    · exact h1
    · by_cases hi : i < hg.arena.length
      · exact mem_edgesOf_of_obj hi h1
      · rw [getObj_default hi] at h1
        simp [default] at h1

theorem deps_addNodeCommon (hg : Hypergraph) (i j : NodeId) :
    (getObj (addNodeCommon hg i) j).dependencies =
      (getObj hg j).dependencies := by
  simp only [addNodeCommon]
  split <;>
  all_goals try split
  all_goals exact deps_setObj _ _ _ _ rfl

theorem arena_length_addNodeCommon (hg : Hypergraph) (i : NodeId) :
    (addNodeCommon hg i).arena.length = hg.arena.length := by
  simp only [addNodeCommon]
  split <;>
  all_goals try split
  all_goals simp [setObj]

theorem dotted_rel_addNodeCommon (hg : Hypergraph) (i : NodeId) :
    (addNodeCommon hg i).dotted_rel = hg.dotted_rel := by
  simp only [addNodeCommon]
  split <;>
  all_goals try split
  all_goals rfl

theorem nodes_addNodeCommon {hg : Hypergraph} {i j : NodeId}
    (h : j ∈ getNodes (addNodeCommon hg i)) : j ∈ getNodes hg ∨ j = i := by
  simp only [addNodeCommon, getNodes, setObj] at h
  split at h <;>
  all_goals try split at h
  all_goals
  · simp only [List.append_assoc, List.mem_append, List.mem_singleton] at h
    simp only [getNodes, List.mem_append]
    tauto

/-- The facts about `addNodeStr` used by the universal theorems: it adds no
edge, does not change the dependencies of already-allocated objects, grows
the arena by one, keeps `dotted_rel`, and keeps the node registry valid. -/
theorem addNodeStr_facts (hg : Hypergraph) (s : String)
    (d : Option (List NodeId)) :
    (∀ e ∈ edgesOf (addNodeStr hg s d), e ∈ edgesOf hg) ∧
    (∀ j, j < hg.arena.length →
      (getObj (addNodeStr hg s d) j).dependencies =
        (getObj hg j).dependencies) ∧
    (addNodeStr hg s d).arena.length = hg.arena.length + 1 ∧
    (addNodeStr hg s d).dotted_rel = hg.dotted_rel ∧
    (nodesValid hg → nodesValid (addNodeStr hg s d)) := by
  unfold addNodeStr
  refine ⟨?_, ?_, ?_, ?_, ?_⟩
  · intro e he
    rcases mem_edgesOf_allocNode (mem_edgesOf_addNodeCommon he) with h1 | h1
    · exact h1
    · simp at h1
  · intro j hj
    rw [deps_addNodeCommon, getObj_allocNode_lt hj]
  · rw [arena_length_addNodeCommon]
    simp [allocNode]
  · rw [dotted_rel_addNodeCommon]
    rfl
  · intro hv j hj
    rw [arena_length_addNodeCommon]
    have hlen : (allocNode hg
        { label := s, full_edges := [], dotted_edges := [],
          dependencies := d, value := none }).1.arena.length =
        hg.arena.length + 1 := by simp [allocNode]
    rw [hlen]
    rcases nodes_addNodeCommon hj with h1 | h1
    · have h2 := hv j (by simpa [allocNode, getNodes] using h1)
      exact Nat.lt_succ_of_lt h2
    · rw [h1]
      show hg.arena.length < hg.arena.length + 1
      exact Nat.lt_succ_self _

/-- The same facts for `getNodeMake`, whose result index is moreover a valid
node reference. -/
theorem getNodeMake_facts (hg : Hypergraph) (s : String) :
    (∀ e ∈ edgesOf (getNodeMake hg s).1, e ∈ edgesOf hg) ∧
    (∀ j, j < hg.arena.length →
      (getObj (getNodeMake hg s).1 j).dependencies =
        (getObj hg j).dependencies) ∧
    hg.arena.length ≤ (getNodeMake hg s).1.arena.length ∧
    (getNodeMake hg s).1.dotted_rel = hg.dotted_rel ∧
    (nodesValid hg → nodesValid (getNodeMake hg s).1) ∧
    (nodesValid hg → ∀ i, (getNodeMake hg s).2 = some i →
      i < (getNodeMake hg s).1.arena.length) := by
  cases hf : getNodeNoMake hg s with
  | some i =>
    have heq : getNodeMake hg s = (hg, some i) := by
      unfold getNodeMake; rw [hf]
    rw [heq]
    exact ⟨fun e he => he, fun j _ => rfl, Nat.le_refl _, rfl, fun hv => hv,
      fun hv j hj => by
        cases hj
        exact hv _ (List.mem_of_find?_eq_some hf)⟩
  | none =>
    have heq : getNodeMake hg s =
        (addNodeStr hg s none, getNodeNoMake (addNodeStr hg s none) s) := by
      unfold getNodeMake; rw [hf]
    rw [heq]
    obtain ⟨h1, h2, h3, h4, h5⟩ := addNodeStr_facts hg s none
    refine ⟨h1, h2, ?_, h4, h5, fun hv j hj => ?_⟩
    · show hg.arena.length ≤ (addNodeStr hg s none).arena.length
      rw [h3]
      exact Nat.le_succ _
    cases hg2 : getNodeNoMake (addNodeStr hg s none) s with
    | none => rw [hg2] at hj; cases hj
    | some k =>
      rw [hg2] at hj
      cases hj
      exact h5 hv _ (List.mem_of_find?_eq_some hg2)

theorem resolveMake_facts (hg : Hypergraph) (a : NodeArg) :
    (∀ e ∈ edgesOf (resolveMake hg a).1, e ∈ edgesOf hg) ∧
    (∀ j, j < hg.arena.length →
      (getObj (resolveMake hg a).1 j).dependencies =
        (getObj hg j).dependencies) ∧
    hg.arena.length ≤ (resolveMake hg a).1.arena.length ∧
    (resolveMake hg a).1.dotted_rel = hg.dotted_rel ∧
    (nodesValid hg → nodesValid (resolveMake hg a).1) ∧
    (nodesValid hg → ∀ i, (resolveMake hg a).2 = some i →
      (∀ k, a = NodeArg.node k → k < hg.arena.length) →
      i < (resolveMake hg a).1.arena.length) := by
  cases a with
  | str s =>
    obtain ⟨h1, h2, h3, h4, h5, h6⟩ := getNodeMake_facts hg s
    exact ⟨h1, h2, h3, h4, h5, fun hv i hi _ => h6 hv i hi⟩
  | node i =>
    refine ⟨fun e he => he, fun j _ => rfl, Nat.le_refl _, rfl, fun hv => hv,
      fun hv k hk hvalid => ?_⟩
    have hik : i = k := by simpa [resolveMake] using hk
    subst hik
    exact hvalid i rfl

theorem resolveArgsMake_facts :
    ∀ {args : List NodeArg} {hg hg' : Hypergraph} {src : List NodeId},
      resolveArgsMake hg args = .ok (hg', src) →
      (∀ e ∈ edgesOf hg', e ∈ edgesOf hg) ∧
      (∀ j, j < hg.arena.length →
        (getObj hg' j).dependencies = (getObj hg j).dependencies) ∧
      hg.arena.length ≤ hg'.arena.length ∧
      hg'.dotted_rel = hg.dotted_rel ∧
      (nodesValid hg → nodesValid hg')
  | [], hg, hg', src, h => by
    unfold resolveArgsMake at h
    cases h
    exact ⟨fun e he => he, fun j _ => rfl, Nat.le_refl _, rfl, fun hv => hv⟩
  | a :: as, hg, hg', src, h => by
    rcases hm : resolveMake hg a with ⟨hg1, oi⟩
    cases oi with
    | none =>
      simp only [resolveArgsMake, hm] at h
      exact Except.noConfusion h
    | some i =>
      cases hr : resolveArgsMake hg1 as with
      | error err =>
        simp only [resolveArgsMake, hm, hr] at h
        exact Except.noConfusion h
      | ok p =>
        obtain ⟨hg2, l⟩ := p
        simp only [resolveArgsMake, hm, hr, Except.ok.injEq,
          Prod.mk.injEq] at h
        obtain ⟨he1, _⟩ := h
        subst he1
        obtain ⟨f1, f2, f3, f4, f5⟩ := resolveArgsMake_facts hr
        have g := resolveMake_facts hg a
        rw [hm] at g
        obtain ⟨g1, g2, g3, g4, g5, _⟩ := g
        refine ⟨fun e he => g1 e (f1 e he), fun j hj => ?_,
          Nat.le_trans g3 f3, by rw [f4, g4], fun hv => f5 (g5 hv)⟩
        rw [f2 j (Nat.lt_of_lt_of_le hj g3), g2 j hj]

theorem makeNewCompoundNode_facts (hg : Hypergraph) (deps : List NodeId)
    (tgt : NodeId) (w : ℚ) (r : Relationship) :
    (∀ e ∈ edgesOf (makeNewCompoundNode hg deps tgt w r).1,
      e ∈ edgesOf hg ∨ e.target = tgt) ∧
    (∀ j, j < hg.arena.length →
      (getObj (makeNewCompoundNode hg deps tgt w r).1 j).dependencies =
        (getObj hg j).dependencies) ∧
    hg.arena.length ≤ (makeNewCompoundNode hg deps tgt w r).1.arena.length ∧
    (makeNewCompoundNode hg deps tgt w r).1.dotted_rel = hg.dotted_rel ∧
    (nodesValid hg → nodesValid (makeNewCompoundNode hg deps tgt w r).1) := by
  unfold makeNewCompoundNode
  refine ⟨?_, ?_, ?_, ?_, ?_⟩
  · intro e he
    rcases mem_edgesOf_nodeAddEdge (mem_edgesOf_addNodeCommon he) with h1 | h1
    · rcases mem_edgesOf_allocNode h1 with h2 | h2
      · exact .inl h2
      · simp at h2
    · exact .inr h1.1
  · intro j hj
    rw [deps_addNodeCommon, deps_nodeAddEdge, getObj_allocNode_lt hj]
  · rw [arena_length_addNodeCommon, arena_length_nodeAddEdge]
    simp [allocNode]
  · rw [dotted_rel_addNodeCommon, dotted_rel_nodeAddEdge]
    rfl
  · intro hv j hj
    rw [arena_length_addNodeCommon, arena_length_nodeAddEdge]
    have hlen : ∀ o, (allocNode hg o).1.arena.length = hg.arena.length + 1 :=
      fun o => by simp [allocNode]
    rw [hlen]
    rcases nodes_addNodeCommon hj with h1 | h1
    · rw [nodes_nodeAddEdge] at h1
      have h2 := hv j (by simpa [allocNode, getNodes] using h1)
      exact Nat.lt_succ_of_lt h2
    · rw [h1]
      show hg.arena.length < hg.arena.length + 1
      exact Nat.lt_succ_self _

theorem foldl_nodeAddEdge_facts (tgt : NodeId) (w : ℚ) (r : Relationship) :
    ∀ (src : List NodeId) (hg : Hypergraph),
      (∀ e ∈ edgesOf (src.foldl (fun h s => nodeAddEdge h s tgt w (some r)) hg),
        e ∈ edgesOf hg ∨ (e.target = tgt ∧ e.weight = w ∧ e.rel = r)) ∧
      (∀ j, (getObj (src.foldl (fun h s => nodeAddEdge h s tgt w (some r)) hg)
          j).dependencies = (getObj hg j).dependencies) ∧
      (src.foldl (fun h s => nodeAddEdge h s tgt w (some r)) hg).arena.length
        = hg.arena.length := by
  intro src
  induction src with
  | nil => exact fun hg => ⟨fun e he => .inl he, fun j => rfl, rfl⟩
  | cons a as ih =>
    intro hg
    simp only [List.foldl_cons]
    refine ⟨?_, ?_, ?_⟩
    · intro e he
      rcases (ih (nodeAddEdge hg a tgt w (some r))).1 e he with h1 | h1
      · rcases mem_edgesOf_nodeAddEdge h1 with h2 | h2
        · exact .inl h2
        · exact .inr ⟨h2.1, h2.2.1, by simpa [defaultEdgeRel] using h2.2.2⟩
      · exact .inr h1
    · intro j
      rw [(ih _).2.1 j, deps_nodeAddEdge]
    · rw [(ih _).2.2, arena_length_nodeAddEdge]

/-- After the final loop of `Hypergraph.addEdge` (one `Node.addEdge` per
source, all with the same target, weight and relationship), the
compound-edge invariant holds provided it held before and the weight and
relationship used are the forced ones whenever the common target is
compound. -/
theorem compoundEdgeInv_foldl (hgP : Hypergraph) (tgtP : NodeId)
    (rel1 : Relationship) (w : ℚ) (src : List NodeId)
    (hbase : compoundEdgeInv hgP)
    (hdr : hgP.dotted_rel.label = "to#rel") :
    compoundEdgeInv (src.foldl (fun h s => nodeAddEdge h s tgtP
        (if ! isSimple hgP tgtP then (hgP.dotted_rel, (0 : ℚ))
          else (rel1, w)).2
        (some ((if ! isSimple hgP tgtP then (hgP.dotted_rel, (0 : ℚ))
          else (rel1, w)).1))) hgP) := by
  obtain ⟨ff1, ff2, ff3⟩ := foldl_nodeAddEdge_facts tgtP
    (if ! isSimple hgP tgtP then (hgP.dotted_rel, (0 : ℚ)) else (rel1, w)).2
    (if ! isSimple hgP tgtP then (hgP.dotted_rel, (0 : ℚ)) else (rel1, w)).1
    src hgP
  intro e he hcmp
  have hiso : ∀ j, isSimple (src.foldl (fun h s => nodeAddEdge h s tgtP
      (if ! isSimple hgP tgtP then (hgP.dotted_rel, (0 : ℚ))
        else (rel1, w)).2
      (some ((if ! isSimple hgP tgtP then (hgP.dotted_rel, (0 : ℚ))
        else (rel1, w)).1))) hgP) j = isSimple hgP j := by
    intro j
    unfold isSimple
    exact congrArg Option.isNone (ff2 j)
  rcases ff1 e he with hOld | ⟨hT, hW, hR⟩
  · exact hbase e hOld (by rw [← hiso]; exact hcmp)
  · by_cases hsim : isSimple hgP tgtP = true
    · exfalso
      rw [hiso, hT, hsim] at hcmp
      cases hcmp
    · have hne : (! isSimple hgP tgtP) = true := by
        simp [Bool.not_eq_true] at hsim ⊢
        exact hsim
      rw [if_pos hne] at hW hR
      exact ⟨hW, by rw [hR]; exact hdr⟩

theorem getObj_allocNode_self (hg : Hypergraph) (o : NodeObj) :
    getObj (allocNode hg o).1 hg.arena.length = o := by
  unfold getObj allocNode
  simp

/-- Core of the C8 argument: after source/target resolution,
`Hypergraph.addEdge` promotes (or not) and then adds one edge per source;
the compound-edge invariant is preserved.  `(hgP, tgtP)` abstracts the
promotion result so that the lemma applies verbatim to the code's term. -/
theorem addEdge_core_inv (hg0 hg2 hgP : Hypergraph) (src : List NodeId)
    (tgt0 tgtP : NodeId) (rel1 : Relationship) (w : ℚ)
    (hpr : (hgP, tgtP) = (if src.length > 1 && isSimple hg2 tgt0 then
        makeNewCompoundNode hg2 src tgt0 w rel1 else (hg2, tgt0)))
    (e02 : ∀ e ∈ edgesOf hg2, e ∈ edgesOf hg0)
    (l02 : hg0.arena.length ≤ hg2.arena.length)
    (rel02 : hg2.dotted_rel.label = "to#rel")
    (htgt0 : tgt0 < hg2.arena.length)
    (htgt : edgeTargetsValid hg0)
    (inv2 : compoundEdgeInv hg2) :
    compoundEdgeInv (src.foldl (fun h s => nodeAddEdge h s tgtP
      (if ! isSimple hgP tgtP then (hgP.dotted_rel, (0 : ℚ))
        else (rel1, w)).2
      (some ((if ! isSimple hgP tgtP then (hgP.dotted_rel, (0 : ℚ))
        else (rel1, w)).1))) hgP) := by
  by_cases hpromo : (src.length > 1 && isSimple hg2 tgt0) = true
  · rw [if_pos hpromo] at hpr
    obtain ⟨m1, m2, m3, m4, m5⟩ :=
      makeNewCompoundNode_facts hg2 src tgt0 w rel1
    have hP1 : hgP = (makeNewCompoundNode hg2 src tgt0 w rel1).1 :=
      congrArg Prod.fst hpr
    have hP2 : tgtP = (makeNewCompoundNode hg2 src tgt0 w rel1).2 :=
      congrArg Prod.snd hpr
    subst hP1
    subst hP2
    refine compoundEdgeInv_foldl _ _ _ _ _ ?_ ?_
    · intro e he hc
      rcases m1 e he with h2 | h2
      · have hlt2 : e.target < hg2.arena.length :=
          Nat.lt_of_lt_of_le (htgt e (e02 e h2)) l02
        refine inv2 e h2 ?_
        unfold isSimple at hc ⊢
        rw [← m2 e.target hlt2]
        exact hc
      · exfalso
        have hsimp0 : isSimple hg2 tgt0 = true := by
          have h3 := hpromo
          simp only [Bool.and_eq_true] at h3
          exact h3.2
        unfold isSimple at hc hsimp0
        rw [h2, m2 tgt0 htgt0] at hc
        rw [hc] at hsimp0
        cases hsimp0
    · rw [m4]
      exact rel02
  · rw [if_neg hpromo] at hpr
    have hP1 : hgP = hg2 := congrArg Prod.fst hpr
    have hP2 : tgtP = tgt0 := congrArg Prod.snd hpr
    subst hP1
    subst hP2
    exact compoundEdgeInv_foldl hgP tgtP rel1 w src inv2 rel02

/-! Preservation of the loop invariant by `Pathfinder.scan`. -/

theorem dget_dset_zero (m : List (String × Int)) (k L : String)
    (h : dget m L = some 0) : dget (dset m k 0) L = some 0 := by
  by_cases hLk : L = k
  · subst hLk
    exact dget_dset_self m L 0
  · rw [dget_dset_ne m 0 hLk]
    exact h

theorem scan_ok {G : Hypergraph} {src : List NodeId} {eph : NodeId}
    {e0 : Edge} {pend : List Edge} {pf : PF} {e : Edge}
    (hwf : WFRun G src eph e0)
    (hInv : InvP G src eph e0 pend pf)
    (hsN : e.source ∈ getNodes G)
    (hsR : e.source = eph ∨ ReachableFrom G src e.source)
    (he : e ∈ (getObj G e.source).full_edges)
    (hdist : ∃ c : ℚ, dget pf.DIST ((getObj G e.source).label)
      = some ((c : ℚ) : WithTop ℚ) ∧ Deriv G eph e.source c) :
    ∃ pf', scan G pf e = .ok pf' ∧ InvP G src eph e0 pend pf' ∧
      pf'.DIST = pf.DIST ∧ pf'.LAST = pf.LAST := by
  obtain ⟨hpw, hnd, hnv, hsi, hci, hephm, hephe, hephd, hsrcm, hloc, hcmp,
    heid, he0t⟩ := hwf
  obtain ⟨c, hc, hder⟩ := hdist
  obtain ⟨-, htN, htS⟩ := (hloc e.source hsN).1 e he
  have htR : e.target = eph ∨ ReachableFrom G src e.target := by
    rcases hsR with h | h
    · exact .inr (.src (hephe e (h ▸ he)))
    · exact .inr (.full h he)
  obtain ⟨r, hr, hr01⟩ := hInv.sreach e.target htN htS
  have hderT : Deriv G eph e.target (e.weight + c) := by
    rw [add_comm]
    exact Deriv.full hder he
  have hmemE : e ∈ edgesOf G :=
    mem_edgesOf_of_obj (hnv e.source hsN) (List.mem_append_left _ he)
  have hdg : distGet pf (getObj G e.source).label
      = .ok (((c : ℚ)) : WithTop ℚ) := by
    unfold distGet
    rw [hc]
  have hrg : reachGet pf (getObj G e.target).label = .ok r := by
    unfold reachGet
    rw [show dget pf.REACH ((getObj G e.target).label) = some r from hr]
  rcases hr01 with hr0 | hr1
  · -- REACH = 0: the queue-update path; the dictionaries are unchanged.
    subst hr0
    have hscan : scan G pf e = .ok (checkQueueToUpdate G pf
        (edAdd e.weight (((c : ℚ)) : WithTop ℚ)) e) := by
      simp only [scan, hdg, hrg]
      rw [if_neg (by decide : ¬((0 : Int) = 1))]
    rcases hfq : findInQueue G pf e.target with - | el2
    · refine ⟨pf, ?_, hInv, rfl, rfl⟩
      rw [hscan]
      simp only [checkQueueToUpdate, hfq]
    · have hel2 : el2 ∈ pf.p_queue := List.mem_of_find?_eq_some hfq
      have hlabB := List.find?_some hfq
      have hlab : lbl G e.target = lbl G el2.2.target := by
        have := eq_of_beq hlabB
        exact this
      have o2 := hInv.qfacts el2 hel2
      have htgt : el2.2.target = e.target :=
        label_inj hpw o2.1 htN hlab.symm
      by_cases hlt : edLtB (edAdd e.weight (((c : ℚ)) : WithTop ℚ)) el2.1
      · -- strictly better: the entry is replaced in place.
        refine ⟨{ pf with p_queue := (replaceFirstQ pf.p_queue el2
          (edAdd e.weight (((c : ℚ)) : WithTop ℚ), e)) }, ?_, ?_, rfl, rfl⟩
        · rw [hscan]
          simp only [checkQueueToUpdate, hfq]
          rw [if_pos hlt]
        · have hmatch : ∀ p ∈ pf.p_queue, p.1 = el2.1 →
              p.2.eid = el2.2.eid → p.2.target = e.target := by
            intro p hp _ hpe
            have hpm : p.2 ∈ edgesOf G ++ [e0] := by
              rcases hInv.qedges p hp with h | h
              · exact List.mem_append_left _ h
              · rw [h]; exact List.mem_append_right _ (List.mem_cons_self _ _)
            have hem : el2.2 ∈ edgesOf G ++ [e0] := by
              rcases hInv.qedges el2 hel2 with h | h
              · exact List.mem_append_left _ h
              · rw [h]; exact List.mem_append_right _ (List.mem_cons_self _ _)
            rw [eid_inj heid hpm hem hpe, htgt]
          refine ⟨hInv.source_eq, hInv.source_set_eq, ?_, ?_, ?_, hInv.sreach,
            hInv.untS, hInv.pReach, hInv.pr0, hInv.lastDom, hInv.ccount,
            hInv.cdone, hInv.cnotdone⟩
          · intro p hp
            rcases replaceFirstQ_mem pf.p_queue el2
              (edAdd e.weight (((c : ℚ)) : WithTop ℚ), e) p hp
              with h | ⟨h, -⟩
            · exact hInv.qfacts p h
            · subst h
              refine ⟨htN, htS, htR, hr, ?_, e.weight + c,
                (edAdd_coe e.weight c) ▸ rfl, hderT⟩
              have := o2.2.2.2.2.1
              rw [htgt] at this
              exact this
          · refine replaceFirstQ_pairwise pf.p_queue el2 _ hInv.qdistinct ?_
            intro p hp hp1 hpe
            have hpt : p.2.target = e.target := hmatch p hp hp1 hpe
            constructor
            · intro x hx
              show lbl G e.target ≠ lbl G x.2.target
              rw [← hpt]
              exact hx
            · intro x hx
              show lbl G x.2.target ≠ lbl G e.target
              rw [← hpt]
              exact hx
          · intro p hp
            rcases replaceFirstQ_mem pf.p_queue el2
              (edAdd e.weight (((c : ℚ)) : WithTop ℚ), e) p hp
              with h | ⟨h, -⟩
            · exact hInv.qedges p h
            · subst h
              exact .inl hmemE
      · refine ⟨pf, ?_, hInv, rfl, rfl⟩
        rw [hscan]
        simp only [checkQueueToUpdate, hfq]
        rw [if_neg hlt]
  · -- REACH = 1: mark reached and push the new queue entry.
    subst hr1
    have hnp : poppedB G pf e.target = false := by
      by_cases h : poppedB G pf e.target = true
      · have := hInv.pr0 e.target htN h
        rw [hr] at this
        exact absurd (Option.some.inj this) (by decide)
      · exact Bool.eq_false_iff.mpr h
    refine ⟨{ reachSet pf ((getObj G e.target).label) ((1 : Int) + (-1)) with
        p_queue := pf.p_queue ++
          [(edAdd e.weight (((c : ℚ)) : WithTop ℚ), e)] }, ?_, ?_, rfl, rfl⟩
    · simp only [scan, hdg, hrg]
      rw [if_pos trivial]
    · have hz : ((1 : Int) + (-1)) = 0 := by decide
      rw [hz]
      have hR' : ∀ L, dget (dset pf.REACH ((getObj G e.target).label) 0) L
          = dget pf.REACH L ∨
          dget (dset pf.REACH ((getObj G e.target).label) 0) L = some 0 := by
        intro L
        by_cases hL : L = (getObj G e.target).label
        · subst hL
          exact .inr (dget_dset_self _ _ _)
        · exact .inl (dget_dset_ne _ _ hL)
      have hRne : ∀ i, i ∈ getNodes G → i ≠ e.target →
          dget (dset pf.REACH ((getObj G e.target).label) 0) (lbl G i)
            = dget pf.REACH (lbl G i) := by
        intro i hi hne
        exact dget_dset_ne _ _ (fun h => hne (label_inj hpw hi htN h))
      refine ⟨hInv.source_eq, hInv.source_set_eq, ?_, ?_, ?_, ?_, ?_,
        hInv.pReach, ?_, hInv.lastDom, ?_, hInv.cdone, hInv.cnotdone⟩
      · intro p hp
        rcases List.mem_append.mp hp with h | h
        · obtain ⟨q1, q2, q3, q4, q5, q6⟩ := hInv.qfacts p h
          exact ⟨q1, q2, q3, dget_dset_zero _ _ _ q4, q5, q6⟩
        · rw [List.mem_singleton.mp h]
          exact ⟨htN, htS, htR, dget_dset_self _ _ _, hnp, e.weight + c,
            (edAdd_coe e.weight c) ▸ rfl, hderT⟩
      · rw [List.pairwise_append]
        refine ⟨hInv.qdistinct, List.pairwise_singleton _ _, ?_⟩
        intro p hp x hx
        rw [List.mem_singleton.mp hx]
        show lbl G p.2.target ≠ lbl G e.target
        intro hcol
        have := (hInv.qfacts p hp).2.2.2.1
        rw [hcol] at this
        rw [show dget pf.REACH (lbl G e.target) = some 1 from hr] at this
        exact absurd (Option.some.inj this) (by decide)
      · intro p hp
        rcases List.mem_append.mp hp with h | h
        · exact hInv.qedges p h
        · rw [List.mem_singleton.mp h]
          exact .inl hmemE
      · intro i hi hsimp
        by_cases hie : i = e.target
        · subst hie
          exact ⟨0, dget_dset_self _ _ _, .inl rfl⟩
        · obtain ⟨ri, hri, hri01⟩ := hInv.sreach i hi hsimp
          exact ⟨ri, (hRne i hi hie).symm ▸ hri, hri01⟩
      · intro i hi hsimp hun
        have hie : i ≠ e.target := by
          intro h
          rw [h] at hun
          exact hun htR
        obtain ⟨u1, u2, u3⟩ := hInv.untS i hi hsimp hun
        exact ⟨(hRne i hi hie).symm ▸ u1, u2, u3⟩
      · intro i hi hpop
        exact dget_dset_zero _ _ _ (hInv.pr0 i hi hpop)
      · intro z hz hl hdep
        have hzne : z ≠ e.target := by
          intro h
          rw [h] at hdep
          unfold isSimple at htS
          rw [hdep] at htS
          exact absurd htS (by simp)
        have hcc := hInv.ccount z hz hl hdep
        rw [← hRne z hz hzne] at hcc
        exact hcc

theorem reachGet_reachSet (pf : PF) (k : String) (v : Int) :
    reachGet (reachSet pf k v) k = .ok v := by
  unfold reachGet reachSet
  simp only [dget_dset_self]

theorem scanFold_ok {G : Hypergraph} {src : List NodeId} {eph : NodeId}
    {e0 : Edge} {pend : List Edge} {t : NodeId} {L : List Edge} {pf : PF}
    (hwf : WFRun G src eph e0)
    (hInv : InvP G src eph e0 pend pf)
    (htN : t ∈ getNodes G)
    (htR : t = eph ∨ ReachableFrom G src t)
    (hL : ∀ e ∈ L, e ∈ (getObj G t).full_edges)
    (hdist : ∃ c : ℚ, dget pf.DIST ((getObj G t).label)
      = some ((c : ℚ) : WithTop ℚ) ∧ Deriv G eph t c) :
    ∃ pf', L.foldlM (fun p e => scan G p e) pf = .ok pf' ∧
      InvP G src eph e0 pend pf' ∧
      pf'.DIST = pf.DIST ∧ pf'.LAST = pf.LAST := by
  induction L generalizing pf with
  | nil => exact ⟨pf, rfl, hInv, rfl, rfl⟩
  | cons e L ih =>
    have hsrc : e.source = t :=
      ((hwf.2.2.2.2.2.2.2.2.2.1 t htN).1 e (hL e (List.mem_cons_self e L))).1
    have hsN : e.source ∈ getNodes G := hsrc ▸ htN
    have hsR : e.source = eph ∨ ReachableFrom G src e.source :=
      hsrc ▸ htR
    have he : e ∈ (getObj G e.source).full_edges :=
      hsrc ▸ hL e (List.mem_cons_self e L)
    have hd : ∃ c : ℚ, dget pf.DIST ((getObj G e.source).label)
        = some ((c : ℚ) : WithTop ℚ) ∧ Deriv G eph e.source c :=
      hsrc ▸ hdist
    obtain ⟨pf1, hscan, hInv1, hd1, hl1⟩ := scan_ok hwf hInv hsN hsR he hd
    obtain ⟨pf2, hfold, hInv2, hd2, hl2⟩ := ih hInv1
      (fun e2 h2 => hL e2 (List.mem_cons_of_mem e h2))
      (by rw [hd1]; exact hdist)
    refine ⟨pf2, ?_, hInv2, hd2.trans hd1, hl2.trans hl1⟩
    rw [List.foldlM_cons, hscan]
    exact hfold

/-- Combined preservation (soundness and minimality layers) for the scan
fold over the unprocessed full edges of a node settled at distance `cs`
dominating every settled distance. -/
theorem scanFold_m {G : Hypergraph} {src : List NodeId} {eph : NodeId}
    {e0 : Edge} {dpend : List Edge} {t : NodeId} {L : List Edge}
    {pf pf' : PF} {cs : ℚ}
    (hwf : WFRun G src eph e0) (hww : WFW G)
    (hInv : InvP G src eph e0 dpend pf)
    (hM : MInv G src eph e0 dpend L pf)
    (hfold : L.foldlM (fun p e => scan G p e) pf = .ok pf')
    (htN : t ∈ getNodes G)
    (htR : t = eph ∨ ReachableFrom G src t)
    (hL : ∀ e ∈ L, e ∈ (getObj G t).full_edges)
    (hnodup : (L.map Edge.eid).Nodup)
    (hcs : dget pf.DIST ((getObj G t).label) = some ((cs : ℚ) : WithTop ℚ))
    (hub : ∀ i ∈ getNodes G, ∀ ci : ℚ,
      dget pf.DIST (lbl G i) = some ((ci : ℚ) : WithTop ℚ) → ci ≤ cs) :
    InvP G src eph e0 dpend pf' ∧ MInv G src eph e0 dpend [] pf' ∧
      pf'.DIST = pf.DIST ∧ pf'.LAST = pf.LAST := by
  induction L generalizing pf with
  | nil =>
    rw [List.foldlM_nil] at hfold
    obtain rfl : pf = pf' := Except.ok.inj hfold
    exact ⟨hInv, hM, rfl, rfl⟩
  | cons e L ih =>
    have hsrc : e.source = t :=
      ((hwf.2.2.2.2.2.2.2.2.2.1 t htN).1 e (hL e (List.mem_cons_self e L))).1
    have hsN : e.source ∈ getNodes G := hsrc ▸ htN
    have hsR : e.source = eph ∨ ReachableFrom G src e.source := hsrc ▸ htR
    have he : e ∈ (getObj G e.source).full_edges :=
      hsrc ▸ hL e (List.mem_cons_self e L)
    have hcs' : dget pf.DIST ((getObj G e.source).label)
        = some ((cs : ℚ) : WithTop ℚ) := hsrc ▸ hcs
    have hder : Deriv G eph t cs := hM.dach t htN cs hcs
    have hd : ∃ c : ℚ, dget pf.DIST ((getObj G e.source).label)
        = some ((c : ℚ) : WithTop ℚ) ∧ Deriv G eph e.source c :=
      hsrc ▸ (⟨cs, hcs, hder⟩ : ∃ c : ℚ,
        dget pf.DIST ((getObj G t).label)
          = some ((c : ℚ) : WithTop ℚ) ∧ Deriv G eph t c)
    rw [List.foldlM_cons] at hfold
    cases hs : scan G pf e with
    | error err =>
      rw [hs] at hfold
      exact Except.noConfusion hfold
    | ok pf1 =>
      rw [hs] at hfold
      obtain ⟨pf1', hscan', hInv1, hd1, hl1⟩ := scan_ok hwf hInv hsN hsR he hd
      rw [hs] at hscan'
      obtain rfl : pf1' = pf1 := Except.ok.inj hscan'.symm
      have hnodup' : (L.map Edge.eid).Nodup := by
        rw [List.map_cons] at hnodup
        exact (List.nodup_cons.mp hnodup).2
      have hsp : e.eid ∉ L.map Edge.eid := by
        rw [List.map_cons] at hnodup
        exact (List.nodup_cons.mp hnodup).1
      have hM1 : MInv G src eph e0 dpend L pf1' :=
        scan_m hwf hww hInv hM hs hsN he hcs' hub hsp
      have hfold1 : L.foldlM (fun p e => scan G p e) pf1' = .ok pf' := hfold
      obtain ⟨hInvF, hMF, hdF, hlF⟩ := ih hInv1 hM1 hfold1
        (fun e2 h2 => hL e2 (List.mem_cons_of_mem e h2)) hnodup'
        (by rw [hd1]; exact hcs)
        (fun i hi ci h => hub i hi ci (hd1 ▸ h))
      exact ⟨hInvF, hMF, hdF.trans hd1, hlF.trans hl1⟩

theorem dottedStep_ok {G : Hypergraph} {src : List NodeId} {eph : NodeId}
    {e0 : Edge} {t : NodeId} {e : Edge} {pend' : List Edge} {pf : PF}
    (hwf : WFRun G src eph e0)
    (hInv : InvP G src eph e0 (e :: pend') pf)
    (htN : t ∈ getNodes G)
    (hsub : List.Sublist (e :: pend') (getObj G t).dotted_edges) :
    ∃ pf', dottedStep G pf e = .ok pf' ∧ InvP G src eph e0 pend' pf' ∧
      pf'.LAST = pf.LAST := by
  obtain ⟨hpw, hnd, hnv, hsi, hci, hephm, hephe, hephd, hsrcm, hloc, hcmp,
    heid, he0t⟩ := hwf
  have hwf' : WFRun G src eph e0 := ⟨hpw, hnd, hnv, hsi, hci, hephm, hephe,
    hephd, hsrcm, hloc, hcmp, heid, he0t⟩
  have heM : e ∈ (getObj G t).dotted_edges :=
    hsub.mem (List.mem_cons_self e pend')
  obtain ⟨-, hzN, hzS⟩ := (hloc t htN).2 e heM
  rcases hdep0 : (getObj G e.target).dependencies with - | l
  · exfalso
    unfold isSimple at hzS
    rw [hdep0] at hzS
    exact absurd hzS (by simp)
  obtain ⟨hlne, hlnd, hleph, hldep, hfil1, hfil0⟩ :=
    hcmp e.target hzN l hdep0
  have htl : t ∈ l := by
    by_contra htl
    have h0 := hfil0 t htN htl
    have : e ∈ (getObj G t).dotted_edges.filter
        (fun e2 => e2.target = e.target) :=
      List.mem_filter.mpr ⟨heM, by simp⟩
    rw [List.length_eq_zero] at h0
    rw [h0] at this
    exact absurd this (List.not_mem_nil e)
  have hpc : ((e :: pend').filter
      (fun e2 => e2.target = e.target)).length = 1 := by
    have hle : ((e :: pend').filter
        (fun e2 => e2.target = e.target)).length ≤ 1 := by
      rw [← hfil1 t htl]
      exact (hsub.filter (fun e2 => e2.target = e.target)).length_le
    have hge : e ∈ (e :: pend').filter (fun e2 => e2.target = e.target) :=
      List.mem_filter.mpr ⟨List.mem_cons_self e pend', by simp⟩
    have := List.length_pos.mpr (List.ne_nil_of_mem hge)
    omega
  have hpc0 : (pend'.filter (fun e2 => e2.target = e.target)).length = 0 := by
    have : (e :: pend').filter (fun e2 => e2.target = e.target)
        = e :: pend'.filter (fun e2 => e2.target = e.target) := by
      rw [List.filter_cons]
      simp
    rw [this, List.length_cons] at hpc
    omega
  have hcc := hInv.ccount e.target hzN l hdep0
  rw [hpc] at hcc
  have hr1 : reachGet pf (getObj G e.target).label
      = .ok ((l.length : Int) -
        ((l.filter (fun d => poppedB G pf d)).length : Int) + (1 : Nat)) := by
    unfold reachGet
    rw [show dget pf.REACH ((getObj G e.target).label)
      = some ((l.length : Int) -
        ((l.filter (fun d => poppedB G pf d)).length : Int) + (1 : Nat))
      from hcc]
  have hzlbl : ∀ i ∈ getNodes G, i ≠ e.target →
      lbl G i ≠ (getObj G e.target).label := by
    intro i hi hne h
    exact hne (label_inj hpw hi hzN h)
  have hcnt_ne : ∀ z' ∈ getNodes G, z' ≠ e.target →
      ((e :: pend').filter (fun e2 => e2.target = z')).length
        = (pend'.filter (fun e2 => e2.target = z')).length := by
    intro z' hz' hne
    rw [List.filter_cons]
    simp only [show (decide (e.target = z')) = false from
      decide_eq_false (fun h => hne h.symm)]
    rw [if_neg (by simp)]
  by_cases hall : ∀ d ∈ l, poppedB G pf d = true
  · -- the counter reaches zero: the compound node is completed.
    have hfl : l.filter (fun d => poppedB G pf d) = l :=
      List.filter_eq_self.mpr (fun d hd => hall d hd)
    have hR0 : ((l.length : Int) -
        ((l.filter (fun d => poppedB G pf d)).length : Int) + (1 : Nat))
        + (-1) = 0 := by
      rw [hfl]
      push_cast
      ring
    rcases hlcons : l with - | ⟨d, ds⟩
    · exact absurd (hlcons ▸ hlne) (by simp [hlcons])
    have hdN : d ∈ getNodes G := (hldep d (hlcons ▸ List.mem_cons_self d ds)).1
    obtain ⟨hdR, hdS, cd, hcd, hcdD⟩ := hInv.pReach d hdN
      (hall d (hlcons ▸ List.mem_cons_self d ds))
    have hdsder : ∀ x ∈ ds, ∃ c : ℚ,
        dget pf.DIST ((getObj G x).label) = some ((c : ℚ) : WithTop ℚ) ∧
        Deriv G eph x c := by
      intro x hx
      have hxl : x ∈ l := hlcons ▸ List.mem_cons_of_mem d hx
      have hxN : x ∈ getNodes G := (hldep x hxl).1
      obtain ⟨-, -, cx, hcx, hcxD⟩ := hInv.pReach x hxN (hall x hxl)
      exact ⟨cx, hcx, hcxD⟩
    have hdsnd : ds.Nodup := (List.nodup_cons.mp (hlcons ▸ hlnd)).2
    obtain ⟨m, hm, f, hf1, hf2⟩ := distListMax_spec G eph
      (reachSet pf (getObj G e.target).label 0) ds hdsnd
      (by
        intro x hx
        obtain ⟨cx, hcx, hcxD⟩ := hdsder x hx
        exact ⟨cx, hcx, hcxD⟩) cd
    have hderZ : Deriv G eph e.target m := by
      rw [hf1]
      exact Deriv.cmpnd (hlcons ▸ hdep0) hcdD hf2
    have hRz : e.target = eph ∨ ReachableFrom G src e.target := by
      refine .inr (ReachableFrom.cmpnd hdep0 ?_)
      intro x hx
      have hxN : x ∈ getNodes G := (hldep x hx).1
      obtain ⟨hxR, -, -⟩ := hInv.pReach x hxN (hall x hx)
      rcases hxR with h | h
      · exact absurd (h ▸ hx) hleph
      · exact h
    -- the updated state after the decrement and the distance write
    have hInv2 : InvP G src eph e0 pend'
        (distSet (reachSet pf (getObj G e.target).label 0)
          (getObj G e.target).label (((m : ℚ)) : WithTop ℚ)) := by
      have hRe : ∀ i ∈ getNodes G, i ≠ e.target →
          dget (dset pf.REACH ((getObj G e.target).label) 0) (lbl G i)
            = dget pf.REACH (lbl G i) := by
        intro i hi hne
        exact dget_dset_ne _ _ (hzlbl i hi hne)
      have hDe : ∀ i ∈ getNodes G, i ≠ e.target →
          dget (dset pf.DIST ((getObj G e.target).label)
              (((m : ℚ)) : WithTop ℚ)) (lbl G i)
            = dget pf.DIST (lbl G i) := by
        intro i hi hne
        exact dget_dset_ne _ _ (hzlbl i hi hne)
      have hSimpNe : ∀ i ∈ getNodes G, isSimple G i = true →
          i ≠ e.target := by
        intro i hi hs h
        rw [h] at hs
        rw [hs] at hzS
        exact absurd hzS (by simp)
      refine ⟨hInv.source_eq, hInv.source_set_eq, ?_, hInv.qdistinct,
        hInv.qedges, ?_, ?_, ?_, ?_, hInv.lastDom, ?_, ?_, ?_⟩
      · intro p hp
        obtain ⟨q1, q2, q3, q4, q5, q6⟩ := hInv.qfacts p hp
        exact ⟨q1, q2, q3, (hRe p.2.target q1 (hSimpNe p.2.target q1 q2)).symm
          ▸ q4, q5, q6⟩
      · intro i hi hs
        obtain ⟨r, hr, hr01⟩ := hInv.sreach i hi hs
        exact ⟨r, (hRe i hi (hSimpNe i hi hs)).symm ▸ hr, hr01⟩
      · intro i hi hs hun
        obtain ⟨u1, u2, u3⟩ := hInv.untS i hi hs hun
        exact ⟨(hRe i hi (hSimpNe i hi hs)).symm ▸ u1,
          (hDe i hi (hSimpNe i hi hs)).symm ▸ u2, u3⟩
      · intro i hi hpop
        obtain ⟨p1, p2, cp, hcp, hcpD⟩ := hInv.pReach i hi hpop
        exact ⟨p1, p2, cp, (hDe i hi (hSimpNe i hi p2)).symm ▸ hcp, hcpD⟩
      · intro i hi hpop
        exact (hRe i hi (hSimpNe i hi (hInv.pReach i hi hpop).2.1)).symm ▸
          (hInv.pr0 i hi hpop)
      · intro z' hz' l' hdep'
        by_cases hze : z' = e.target
        · subst hze
          rw [hdep0] at hdep'
          obtain rfl : l = l' := Option.some.inj hdep'
          show dget (dset pf.REACH ((getObj G e.target).label) 0)
              ((getObj G e.target).label)
            = some ((l.length : Int)
              - ((l.filter (fun d => poppedB G pf d)).length : Int)
              + ((pend'.filter
                  (fun e2 => e2.target = e.target)).length : Int))
          rw [dget_dset_self, hfl, hpc0]
          push_cast
          ring_nf
        · have hcc' := hInv.ccount z' hz' l' hdep'
          rw [hcnt_ne z' hz' hze] at hcc'
          rw [← hRe z' hz' hze] at hcc'
          show dget (dset pf.REACH ((getObj G e.target).label) 0) (lbl G z')
            = some ((l'.length : Int)
              - ((l'.filter (fun d => poppedB G pf d)).length : Int)
              + ((pend'.filter (fun e2 => e2.target = z')).length : Int))
          exact hcc'
      · intro z' hz' l' hdep' hlne' hall' hpc'
        by_cases hze : z' = e.target
        · subst hze
          exact ⟨hRz, m, dget_dset_self _ _ _, hderZ⟩
        · have hall2 : ∀ d2 ∈ l', poppedB G pf d2 = true :=
            fun d2 hd2 => hall' d2 hd2
          obtain ⟨w1, w2⟩ := hInv.cdone z' hz' l' hdep' hlne' hall2
            (by rw [hcnt_ne z' hz' hze]; exact hpc')
          obtain ⟨cw, hcw, hcwD⟩ := w2
          exact ⟨w1, cw, (hDe z' hz' hze).symm ▸ hcw, hcwD⟩
      · intro z' hz' l' hdep' hex
        obtain ⟨dx, hdx, hdxp⟩ := hex
        have hdxp2 : poppedB G pf dx = false := hdxp
        have hze : z' ≠ e.target := by
          intro h
          subst h
          rw [hdep0] at hdep'
          obtain rfl : l = l' := Option.some.inj hdep'
          rw [hall dx hdx] at hdxp2
          exact absurd hdxp2 (by simp)
        have := hInv.cnotdone z' hz' l' hdep' ⟨dx, hdx, hdxp2⟩
        exact (hDe z' hz' hze).symm ▸ this
    obtain ⟨pf3, hfold, hInv3, hd3, hl3⟩ := scanFold_ok hwf' hInv2 hzN hRz
      (fun e2 h2 => h2)
      ⟨m, dget_dset_self _ _ _, hderZ⟩
    refine ⟨pf3, ?_, hInv3, hl3⟩
    have hdgd : distGet (reachSet pf ((getObj G e.target).label) 0)
        ((getObj G d).label) = .ok (((cd : ℚ)) : WithTop ℚ) := by
      show distGet pf ((getObj G d).label) = _
      unfold distGet
      rw [show dget pf.DIST ((getObj G d).label)
        = some (((cd : ℚ)) : WithTop ℚ) from hcd]
    simp only [dottedStep, hr1]
    rw [hR0]
    simp only [reachGet_reachSet]
    rw [if_pos trivial]
    simp only [show (getObj G e.target).dependencies = some (d :: ds) from
      hlcons ▸ hdep0]
    simp only [hdgd, hm]
    exact hfold
  · -- some dependency is still missing: only the counter changes.
    push_neg at hall
    obtain ⟨dm, hdm, hdmp⟩ := hall
    have hdmp' : poppedB G pf dm = false := Bool.eq_false_iff.mpr hdmp
    have hltlen : ((l.filter (fun d => poppedB G pf d)).length : Int)
        < (l.length : Int) := by
      have h2 : (l.filter (fun d => poppedB G pf d)).length < l.length :=
        List.length_filter_lt_length_iff_exists.mpr
          ⟨dm, hdm, by rw [hdmp']; simp⟩
      exact_mod_cast h2
    have hCne : ¬(((l.length : Int) -
        ((l.filter (fun d => poppedB G pf d)).length : Int) + (1 : Nat))
        + (-1) = 0) := by
      push_cast
      omega
    refine ⟨reachSet pf (getObj G e.target).label
      (((l.length : Int) -
        ((l.filter (fun d => poppedB G pf d)).length : Int) + (1 : Nat))
        + (-1)), ?_, ?_, rfl⟩
    · simp only [dottedStep, hr1]
      simp only [reachGet_reachSet]
      rw [if_neg hCne]
    · have hval : ((l.length : Int) -
          ((l.filter (fun d => poppedB G pf d)).length : Int) + (1 : Nat))
          + (-1)
          = (l.length : Int) -
            ((l.filter (fun d => poppedB G pf d)).length : Int) := by
        push_cast
        ring
      have hRe : ∀ i ∈ getNodes G, i ≠ e.target →
          dget (dset pf.REACH ((getObj G e.target).label)
              (((l.length : Int) -
                ((l.filter (fun d => poppedB G pf d)).length : Int)
                + (1 : Nat)) + (-1))) (lbl G i)
            = dget pf.REACH (lbl G i) := by
        intro i hi hne
        exact dget_dset_ne _ _ (hzlbl i hi hne)
      have hSimpNe : ∀ i ∈ getNodes G, isSimple G i = true →
          i ≠ e.target := by
        intro i hi hs h
        rw [h] at hs
        rw [hs] at hzS
        exact absurd hzS (by simp)
      refine ⟨hInv.source_eq, hInv.source_set_eq, ?_, hInv.qdistinct,
        hInv.qedges, ?_, ?_, ?_, ?_, hInv.lastDom, ?_, ?_, hInv.cnotdone⟩
      · intro p hp
        obtain ⟨q1, q2, q3, q4, q5, q6⟩ := hInv.qfacts p hp
        exact ⟨q1, q2, q3, (hRe p.2.target q1 (hSimpNe p.2.target q1 q2)).symm
          ▸ q4, q5, q6⟩
      · intro i hi hs
        obtain ⟨r, hr, hr01⟩ := hInv.sreach i hi hs
        exact ⟨r, (hRe i hi (hSimpNe i hi hs)).symm ▸ hr, hr01⟩
      · intro i hi hs hun
        obtain ⟨u1, u2, u3⟩ := hInv.untS i hi hs hun
        exact ⟨(hRe i hi (hSimpNe i hi hs)).symm ▸ u1, u2, u3⟩
      · intro i hi hpop
        exact hInv.pReach i hi hpop
      · intro i hi hpop
        exact (hRe i hi (hSimpNe i hi (hInv.pReach i hi hpop).2.1)).symm ▸
          (hInv.pr0 i hi hpop)
      · intro z' hz' l' hdep'
        by_cases hze : z' = e.target
        · subst hze
          rw [hdep0] at hdep'
          obtain rfl : l = l' := Option.some.inj hdep'
          show dget (dset pf.REACH ((getObj G e.target).label)
              (((l.length : Int) -
                ((l.filter (fun d => poppedB G pf d)).length : Int)
                + (1 : Nat)) + (-1)))
              ((getObj G e.target).label)
            = some ((l.length : Int)
              - ((l.filter (fun d => poppedB G pf d)).length : Int)
              + ((pend'.filter
                  (fun e2 => e2.target = e.target)).length : Int))
          rw [dget_dset_self, hpc0]
          congr 1
          push_cast
          ring
        · have hcc' := hInv.ccount z' hz' l' hdep'
          rw [hcnt_ne z' hz' hze] at hcc'
          rw [← hRe z' hz' hze] at hcc'
          show dget (dset pf.REACH ((getObj G e.target).label)
              (((l.length : Int) -
                ((l.filter (fun d => poppedB G pf d)).length : Int)
                + (1 : Nat)) + (-1))) (lbl G z')
            = some ((l'.length : Int)
              - ((l'.filter (fun d => poppedB G pf d)).length : Int)
              + ((pend'.filter (fun e2 => e2.target = z')).length : Int))
          exact hcc'
      · intro z' hz' l' hdep' hlne' hall' hpc'
        have hall2 : ∀ d2 ∈ l', poppedB G pf d2 = true :=
          fun d2 hd2 => hall' d2 hd2
        by_cases hze : z' = e.target
        · exfalso
          subst hze
          rw [hdep0] at hdep'
          obtain rfl : l = l' := Option.some.inj hdep'
          rw [hall2 dm hdm] at hdmp'
          exact absurd hdmp' (by simp)
        · exact hInv.cdone z' hz' l' hdep' hlne' hall2
            (by rw [hcnt_ne z' hz' hze]; exact hpc')

/-- Preservation of the minimality invariant by one dotted-edge step of
the iteration settling node `t` at distance `qv` (which dominates every
settled distance).  A completed Compound node is settled exactly at `qv`:
its last dependency to pop is `t` itself, so the maximum of its
dependencies' distances is squeezed between `t`'s distance and the upper
bound. -/
theorem dottedStep_m {G : Hypergraph} {src : List NodeId} {eph : NodeId}
    {e0 : Edge} {t : NodeId} {e : Edge} {pend' : List Edge} {pf pf' : PF}
    {qv : ℚ}
    (hwf : WFRun G src eph e0) (hww : WFW G)
    (hInv : InvP G src eph e0 (e :: pend') pf)
    (hM : MInv G src eph e0 (e :: pend') [] pf)
    (hstep : dottedStep G pf e = .ok pf')
    (htN : t ∈ getNodes G)
    (hsub : List.Sublist (e :: pend') (getObj G t).dotted_edges)
    (hqt : dget pf.DIST ((getObj G t).label)
      = some ((qv : ℚ) : WithTop ℚ))
    (hub : ∀ i ∈ getNodes G, ∀ ci : ℚ,
      dget pf.DIST (lbl G i) = some ((ci : ℚ) : WithTop ℚ) → ci ≤ qv) :
    InvP G src eph e0 pend' pf' ∧ MInv G src eph e0 pend' [] pf' ∧
    dget pf'.DIST ((getObj G t).label) = some ((qv : ℚ) : WithTop ℚ) ∧
    (∀ i ∈ getNodes G, ∀ ci : ℚ,
      dget pf'.DIST (lbl G i) = some ((ci : ℚ) : WithTop ℚ) → ci ≤ qv) := by
  obtain ⟨hpw, hnd, hnv, hsi, hci, hephm, hephe, hephd, hsrcm, hloc, hcmp,
    heid, he0t⟩ := hwf
  have hwf' : WFRun G src eph e0 := ⟨hpw, hnd, hnv, hsi, hci, hephm, hephe,
    hephd, hsrcm, hloc, hcmp, heid, he0t⟩
  have heidG : (edgesOf G).Pairwise (fun a b => a.eid ≠ b.eid) :=
    (List.pairwise_append.mp heid).1
  have heM : e ∈ (getObj G t).dotted_edges :=
    hsub.mem (List.mem_cons_self e pend')
  obtain ⟨-, hzN, hzS⟩ := (hloc t htN).2 e heM
  rcases hdep0 : (getObj G e.target).dependencies with - | l
  · exfalso
    unfold isSimple at hzS
    rw [hdep0] at hzS
    exact absurd hzS (by simp)
  obtain ⟨hlne, hlnd, hleph, hldep, hfil1, hfil0⟩ :=
    hcmp e.target hzN l hdep0
  have htl : t ∈ l := by
    by_contra htl
    have h0 := hfil0 t htN htl
    have h1 : e ∈ (getObj G t).dotted_edges.filter
        (fun e2 => e2.target = e.target) :=
      List.mem_filter.mpr ⟨heM, by simp⟩
    rw [List.length_eq_zero] at h0
    rw [h0] at h1
    exact absurd h1 (List.not_mem_nil e)
  have htS : isSimple G t = true := (hldep t htl).2
  have htzne : t ≠ e.target := by
    intro h
    rw [← h] at hzS
    rw [htS] at hzS
    exact absurd hzS (by simp)
  have hpc : ((e :: pend').filter
      (fun e2 => e2.target = e.target)).length = 1 := by
    have hle : ((e :: pend').filter
        (fun e2 => e2.target = e.target)).length ≤ 1 := by
      rw [← hfil1 t htl]
      exact (hsub.filter (fun e2 => e2.target = e.target)).length_le
    have hge : e ∈ (e :: pend').filter (fun e2 => e2.target = e.target) :=
      List.mem_filter.mpr ⟨List.mem_cons_self e pend', by simp⟩
    have h2 := List.length_pos.mpr (List.ne_nil_of_mem hge)
    omega
  have hpc0 : (pend'.filter (fun e2 => e2.target = e.target)).length = 0 := by
    have h2 : (e :: pend').filter (fun e2 => e2.target = e.target)
        = e :: pend'.filter (fun e2 => e2.target = e.target) := by
      rw [List.filter_cons]
      simp
    rw [h2, List.length_cons] at hpc
    omega
  have hcc := hInv.ccount e.target hzN l hdep0
  rw [hpc] at hcc
  have hr1 : reachGet pf (getObj G e.target).label
      = .ok ((l.length : Int) -
        ((l.filter (fun d => poppedB G pf d)).length : Int) + (1 : Nat)) := by
    unfold reachGet
    rw [show dget pf.REACH ((getObj G e.target).label)
      = some ((l.length : Int) -
        ((l.filter (fun d => poppedB G pf d)).length : Int) + (1 : Nat))
      from hcc]
  have hzlbl : ∀ i ∈ getNodes G, i ≠ e.target →
      lbl G i ≠ (getObj G e.target).label := by
    intro i hi hne h
    exact hne (label_inj hpw hi hzN h)
  have hcnt_ne : ∀ z' ∈ getNodes G, z' ≠ e.target →
      ((e :: pend').filter (fun e2 => e2.target = z')).length
        = (pend'.filter (fun e2 => e2.target = z')).length := by
    intro z' hz' hne
    rw [List.filter_cons]
    simp only [show (decide (e.target = z')) = false from
      decide_eq_false (fun h => hne h.symm)]
    rw [if_neg (by simp)]
  by_cases hall : ∀ d ∈ l, poppedB G pf d = true
  · -- the counter reaches zero: the compound node is completed.
    have hfl : l.filter (fun d => poppedB G pf d) = l :=
      List.filter_eq_self.mpr (fun d hd => hall d hd)
    have hz1 : dget pf.REACH (lbl G e.target) = some 1 := by
      rw [hcc]
      congr 1
      rw [hfl]
      push_cast
      ring
    have hR0 : ((l.length : Int) -
        ((l.filter (fun d => poppedB G pf d)).length : Int) + (1 : Nat))
        + (-1) = 0 := by
      rw [hfl]
      push_cast
      ring
    rcases hlcons : l with - | ⟨d, ds⟩
    · exact absurd (hlcons ▸ hlne) (by simp [hlcons])
    have hdN : d ∈ getNodes G :=
      (hldep d (hlcons ▸ List.mem_cons_self d ds)).1
    obtain ⟨hdR, hdS, cd, hcd, hcdD⟩ := hInv.pReach d hdN
      (hall d (hlcons ▸ List.mem_cons_self d ds))
    have hdsd : ∀ x ∈ ds, ∃ cx : ℚ,
        dget pf.DIST ((getObj G x).label)
          = some ((cx : ℚ) : WithTop ℚ) := by
      intro x hx
      have hxl : x ∈ l := hlcons ▸ List.mem_cons_of_mem d hx
      obtain ⟨-, -, cx, hcx, -⟩ := hInv.pReach x (hldep x hxl).1 (hall x hxl)
      exact ⟨cx, hcx⟩
    obtain ⟨m, hm, hmg⟩ := distListMax_dists G
      (reachSet pf (getObj G e.target).label 0) ds
      (fun x hx => hdsd x hx) cd
    have hgl : ∀ x ∈ d :: ds, ∃ cx : ℚ,
        dget pf.DIST (lbl G x) = some ((cx : ℚ) : WithTop ℚ) := by
      intro x hx
      rcases List.mem_cons.mp hx with rfl | hx2
      · exact ⟨cd, hcd⟩
      · exact hdsd x hx2
    obtain ⟨g, hg⟩ := dists_fun (d :: ds) hgl
    have hgd : g d = cd := by
      have h2 := hg d (List.mem_cons_self d ds)
      rw [show dget pf.DIST (lbl G d) = some (((cd : ℚ)) : WithTop ℚ)
        from hcd] at h2
      exact_mod_cast (Option.some.inj h2).symm
    have hmq : m = qMaxList cd (ds.map g) :=
      hmg g (fun x hx => hg x (List.mem_cons_of_mem d hx))
    have hmemlds : ∀ x ∈ ds, x ∈ getNodes G := by
      intro x hx
      exact (hldep x (hlcons ▸ List.mem_cons_of_mem d hx)).1
    have hgt : g t = qv := by
      have h2 := hg t (hlcons ▸ htl)
      rw [show dget pf.DIST (lbl G t) = some (((qv : ℚ)) : WithTop ℚ)
        from hqt] at h2
      exact_mod_cast (Option.some.inj h2).symm
    have hmle : m ≤ qv := by
      rw [hmq]
      refine qMaxList_le_of (ds.map g) cd qv (hub d hdN cd hcd) ?_
      intro y hy
      obtain ⟨x, hx, rfl⟩ := List.mem_map.mp hy
      exact hub x (hmemlds x hx) (g x) (hg x (List.mem_cons_of_mem d hx))
    have hmge : qv ≤ m := by
      rw [hmq, ← hgt]
      rcases List.mem_cons.mp (hlcons ▸ htl) with h1 | h1
      · rw [h1, hgd]
        exact qMaxList_le_left (ds.map g) cd
      · exact qMaxList_le_mem (ds.map g) cd (g t)
          (List.mem_map_of_mem g h1)
    have hmqv : m = qv := le_antisymm hmle hmge
    have hcdD2 : Deriv G eph d (g d) := by
      rw [hgd]
      exact hcdD
    have hderZ : Deriv G eph e.target m := by
      rw [hmq, ← hgd]
      exact Deriv.cmpnd (hlcons ▸ hdep0) hcdD2
        (fun x hx => hM.dach x (hmemlds x hx) (g x)
          (hg x (List.mem_cons_of_mem d hx)))
    have hRz : e.target = eph ∨ ReachableFrom G src e.target := by
      refine .inr (ReachableFrom.cmpnd hdep0 ?_)
      intro x hx
      obtain ⟨hxR, -, -⟩ := hInv.pReach x (hldep x hx).1 (hall x hx)
      rcases hxR with h | h
      · exact absurd (h ▸ hx) hleph
      · exact h
    have hzne_simple : ∀ i ∈ getNodes G, isSimple G i = true →
        i ≠ e.target := by
      intro i hi hs h
      rw [h] at hs
      rw [hs] at hzS
      exact absurd hzS (by simp)
    have hRe : ∀ i ∈ getNodes G, i ≠ e.target →
        dget (dset pf.REACH ((getObj G e.target).label) 0) (lbl G i)
          = dget pf.REACH (lbl G i) := by
      intro i hi hne
      exact dget_dset_ne _ _ (hzlbl i hi hne)
    have hDe : ∀ i ∈ getNodes G, i ≠ e.target →
        dget (dset pf.DIST ((getObj G e.target).label)
            (((m : ℚ)) : WithTop ℚ)) (lbl G i)
          = dget pf.DIST (lbl G i) := by
      intro i hi hne
      exact dget_dset_ne _ _ (hzlbl i hi hne)
    -- the soundness invariant at the settled intermediate state
    have hInv2 : InvP G src eph e0 pend'
        (distSet (reachSet pf (getObj G e.target).label 0)
          (getObj G e.target).label (((m : ℚ)) : WithTop ℚ)) := by
      refine ⟨hInv.source_eq, hInv.source_set_eq, ?_, hInv.qdistinct,
        hInv.qedges, ?_, ?_, ?_, ?_, hInv.lastDom, ?_, ?_, ?_⟩
      · intro p hp
        obtain ⟨q1, q2, q3, q4, q5, q6⟩ := hInv.qfacts p hp
        exact ⟨q1, q2, q3,
          (hRe p.2.target q1 (hzne_simple p.2.target q1 q2)).symm ▸ q4,
          q5, q6⟩
      · intro i hi hs
        obtain ⟨r, hr, hr01⟩ := hInv.sreach i hi hs
        exact ⟨r, (hRe i hi (hzne_simple i hi hs)).symm ▸ hr, hr01⟩
      · intro i hi hs hun
        obtain ⟨u1, u2, u3⟩ := hInv.untS i hi hs hun
        exact ⟨(hRe i hi (hzne_simple i hi hs)).symm ▸ u1,
          (hDe i hi (hzne_simple i hi hs)).symm ▸ u2, u3⟩
      · intro i hi hpop
        obtain ⟨p1, p2, cp, hcp, hcpD⟩ := hInv.pReach i hi hpop
        exact ⟨p1, p2, cp, (hDe i hi (hzne_simple i hi p2)).symm ▸ hcp, hcpD⟩
      · intro i hi hpop
        exact (hRe i hi (hzne_simple i hi
          (hInv.pReach i hi hpop).2.1)).symm ▸ (hInv.pr0 i hi hpop)
      · intro z' hz' l' hdep'
        by_cases hze : z' = e.target
        · subst hze
          rw [hdep0] at hdep'
          obtain rfl : l = l' := Option.some.inj hdep'
          show dget (dset pf.REACH ((getObj G e.target).label) 0)
              ((getObj G e.target).label)
            = some ((l.length : Int)
              - ((l.filter (fun d => poppedB G pf d)).length : Int)
              + ((pend'.filter
                  (fun e2 => e2.target = e.target)).length : Int))
          rw [dget_dset_self, hfl, hpc0]
          push_cast
          ring_nf
        · have hcc' := hInv.ccount z' hz' l' hdep'
          rw [hcnt_ne z' hz' hze] at hcc'
          rw [← hRe z' hz' hze] at hcc'
          show dget (dset pf.REACH ((getObj G e.target).label) 0) (lbl G z')
            = some ((l'.length : Int)
              - ((l'.filter (fun d => poppedB G pf d)).length : Int)
              + ((pend'.filter (fun e2 => e2.target = z')).length : Int))
          exact hcc'
      · intro z' hz' l' hdep' hlne' hall' hpc'
        by_cases hze : z' = e.target
        · subst hze
          exact ⟨hRz, m, dget_dset_self _ _ _, hderZ⟩
        · have hall2 : ∀ d2 ∈ l', poppedB G pf d2 = true :=
            fun d2 hd2 => hall' d2 hd2
          obtain ⟨w1, w2⟩ := hInv.cdone z' hz' l' hdep' hlne' hall2
            (by rw [hcnt_ne z' hz' hze]; exact hpc')
          obtain ⟨cw, hcw, hcwD⟩ := w2
          exact ⟨w1, cw, (hDe z' hz' hze).symm ▸ hcw, hcwD⟩
      · intro z' hz' l' hdep' hex
        obtain ⟨dx, hdx, hdxp⟩ := hex
        have hdxp2 : poppedB G pf dx = false := hdxp
        have hze : z' ≠ e.target := by
          intro h
          subst h
          rw [hdep0] at hdep'
          obtain rfl : l = l' := Option.some.inj hdep'
          rw [hall dx hdx] at hdxp2
          exact absurd hdxp2 (by simp)
        have h2 := hInv.cnotdone z' hz' l' hdep' ⟨dx, hdx, hdxp2⟩
        exact (hDe z' hz' hze).symm ▸ h2
    -- the minimality invariant at the settled intermediate state
    have hM2 : MInv G src eph e0 pend' ((getObj G e.target).full_edges)
        (distSet (reachSet pf (getObj G e.target).label 0)
          (getObj G e.target).label (((m : ℚ)) : WithTop ℚ)) := by
      have hDlblS : ∀ ℓ : String, ℓ ≠ (getObj G e.target).label →
          dget (distSet (reachSet pf (getObj G e.target).label 0)
            (getObj G e.target).label (((m : ℚ)) : WithTop ℚ)).DIST ℓ
            = dget pf.DIST ℓ :=
        fun ℓ h => dget_dset_ne _ _ h
      have hDeS : ∀ i ∈ getNodes G, i ≠ e.target →
          dget (distSet (reachSet pf (getObj G e.target).label 0)
            (getObj G e.target).label (((m : ℚ)) : WithTop ℚ)).DIST
            (lbl G i) = dget pf.DIST (lbl G i) :=
        fun i hi hne => hDlblS (lbl G i) (hzlbl i hi hne)
      have hReS : ∀ i ∈ getNodes G, i ≠ e.target →
          dget (distSet (reachSet pf (getObj G e.target).label 0)
            (getObj G e.target).label (((m : ℚ)) : WithTop ℚ)).REACH
            (lbl G i) = dget pf.REACH (lbl G i) :=
        fun i hi hne => dget_dset_ne _ _ (hzlbl i hi hne)
      have hDz : dget (distSet (reachSet pf (getObj G e.target).label 0)
          (getObj G e.target).label (((m : ℚ)) : WithTop ℚ)).DIST
          ((getObj G e.target).label)
          = some (((m : ℚ)) : WithTop ℚ) := dget_dset_self _ _ _
      have hpostD : ∀ i ∈ getNodes G, ∀ ci : ℚ,
          dget (distSet (reachSet pf (getObj G e.target).label 0)
            (getObj G e.target).label (((m : ℚ)) : WithTop ℚ)).DIST
            (lbl G i) = some ((ci : ℚ) : WithTop ℚ) →
          (i = e.target ∧ ci = m) ∨
          (i ≠ e.target ∧ dget pf.DIST (lbl G i)
            = some ((ci : ℚ) : WithTop ℚ)) := by
        intro i hi ci hci
        by_cases hie : i = e.target
        · rw [hie] at hci
          have hci2 : dget (dset pf.DIST ((getObj G e.target).label)
              (((m : ℚ)) : WithTop ℚ)) ((getObj G e.target).label)
              = some ((ci : ℚ) : WithTop ℚ) := hci
          rw [dget_dset_self] at hci2
          exact .inl ⟨hie, by exact_mod_cast (Option.some.inj hci2).symm⟩
        · rw [hDeS i hi hie] at hci
          exact .inr ⟨hie, hci⟩
      have hdepsle : ∀ x ∈ d :: ds, g x ≤ m := by
        intro x hx
        rw [hmq, ← hgd]
        rcases List.mem_cons.mp hx with rfl | h1
        · exact qMaxList_le_left (ds.map g) (g x)
        · exact qMaxList_le_mem (ds.map g) (g d) (g x)
            (List.mem_map_of_mem g h1)
      refine ⟨?_, ?_, ?_, ?_, ?_, ?_, ?_, ?_, ?_, ?_, ?_, ?_, ?_, ?_,
        ?_, ?_, ?_⟩
      · -- m1
        intro i hi ci hci c hder
        rcases hpostD i hi ci hci with ⟨hie, hcim⟩ | ⟨-, hpre⟩
        · obtain ⟨d', ds', f, c0, hlds, hceq, hdD, hdsD⟩ :=
            deriv_cmpnd_inv hwf' hww hdep0 (hie ▸ hder)
          have hcons : d' :: ds' = d :: ds := by
            rw [← hlds, hlcons]
          injection hcons with h1 h2
          rw [h2] at hdsD
          rw [hcim, hceq, h2, hmq]
          refine qMaxList_mono_map ?_ ?_
          · have h3 := hM.m1 d hdN (g d)
              (hg d (List.mem_cons_self d ds)) c0 (h1 ▸ hdD)
            rw [hgd] at h3
            exact h3
          · intro x hx
            exact hM.m1 x (hmemlds x hx) (g x)
              (hg x (List.mem_cons_of_mem d hx)) (f x) (hdsD x hx)
        · exact hM.m1 i hi ci hpre c hder
      · -- dach
        intro i hi ci hci
        rcases hpostD i hi ci hci with ⟨hie, hcim⟩ | ⟨-, hpre⟩
        · rw [hie, hcim]
          exact hderZ
        · exact hM.dach i hi ci hpre
      · -- ddom
        intro i hi
        by_cases hie : i = e.target
        · refine ⟨(((m : ℚ)) : WithTop ℚ), ?_⟩
          rw [hie]
          exact hDz
        · obtain ⟨v, hv⟩ := hM.ddom i hi
          refine ⟨v, ?_⟩
          rw [hDeS i hi hie]
          exact hv
      · -- dfin
        intro i hi hisimp ci hci
        rcases hpostD i hi ci hci with ⟨hie, -⟩ | ⟨-, hpre⟩
        · rw [hie] at hisimp
          rw [hisimp] at hzS
          exact absurd hzS (by simp)
        · exact hM.dfin i hi hisimp ci hpre
      · -- dnn
        intro i hi ci hci
        rcases hpostD i hi ci hci with ⟨-, hcim⟩ | ⟨-, hpre⟩
        · have h1 : (0 : ℚ) ≤ cd := hM.dnn d hdN cd hcd
          have h2 : cd ≤ m := by
            rw [hmq]
            exact qMaxList_le_left (ds.map g) cd
          rw [hcim]
          linarith
        · exact hM.dnn i hi ci hpre
      · -- e4
        intro p hp q hq i hi ci hci
        rcases hpostD i hi ci hci with ⟨-, hcim⟩ | ⟨-, hpre⟩
        · rw [hcim, hmq]
          refine qMaxList_le_of (ds.map g) cd q
            (hM.e4 p hp q hq d hdN cd hcd) ?_
          intro y hy
          obtain ⟨x, hx, rfl⟩ := List.mem_map.mp hy
          exact hM.e4 p hp q hq x (hmemlds x hx) (g x)
            (hg x (List.mem_cons_of_mem d hx))
        · exact hM.e4 p hp q hq i hi ci hpre
      · -- qcost
        intro p hp hpe0
        obtain ⟨hsmem, cs', hcs', hkey⟩ := hM.qcost p hp hpe0
        refine ⟨hsmem, cs', ?_, hkey⟩
        have hsz : p.2.source ≠ e.target := by
          intro h
          have h2 := hM.creach e.target hzN l hdep0 cs' (h ▸ hcs')
          rw [hz1] at h2
          exact absurd (Option.some.inj h2) (by decide)
        rw [hDeS p.2.source hsmem hsz]
        exact hcs'
      · -- e2min
        intro p hp s hs cs2 hcs2 e2 he2 hsp2 htgt2
        by_cases hsz : s = e.target
        · exfalso
          apply hsp2
          rw [hsz] at he2
          exact List.mem_map_of_mem Edge.eid he2
        · rw [hDeS s hs hsz] at hcs2
          exact hM.e2min p hp s hs cs2 hcs2 e2 he2 (by simp) htgt2
      · -- e2cov
        intro s hs cs2 hcs2 e2 he2 hsp2
        by_cases hsz : s = e.target
        · exfalso
          apply hsp2
          rw [hsz] at he2
          exact List.mem_map_of_mem Edge.eid he2
        · rw [hDeS s hs hsz] at hcs2
          rcases hM.e2cov s hs cs2 hcs2 e2 he2 (by simp)
            with ⟨ct, hct, hle⟩ | ⟨p, hp, htg⟩
          · have htne : e2.target ≠ e.target := by
              intro h
              have h2 := ((hloc s hs).1 e2 he2).2.2
              rw [h] at h2
              rw [h2] at hzS
              exact absurd hzS (by simp)
            refine .inl ⟨ct, ?_, hle⟩
            rw [hDeS e2.target ((hloc s hs).1 e2 he2).2.1 htne]
            exact hct
          · exact .inr ⟨p, hp, htg⟩
      · -- r0pop
        intro i hi hisimp hr0
        have hie : i ≠ e.target := hzne_simple i hi hisimp
        rw [hReS i hi hie] at hr0
        exact hM.r0pop i hi hisimp hr0
      · -- creach
        intro z' hz' l' hdep' cz hcz
        by_cases hze : z' = e.target
        · rw [hze]
          have h2 : dget (dset pf.REACH ((getObj G e.target).label) 0)
              ((getObj G e.target).label) = some 0 := dget_dset_self _ _ _
          exact h2
        · rw [hDeS z' hz' hze] at hcz
          have h2 := hM.creach z' hz' l' hdep' cz hcz
          rw [← hReS z' hz' hze] at h2
          exact h2
      · -- ephd0
        intro hpop
        have hephN : eph ∈ getNodes G := List.mem_append_left _ hephm
        have hephne : eph ≠ e.target :=
          hzne_simple eph hephN (hsi eph hephm)
        rw [hDeS eph hephN hephne]
        exact hM.ephd0 hpop
      · -- seedq
        exact hM.seedq
      · -- cmono
        intro z' hz' l' hdep' cz hcz
        rcases hpostD z' hz' cz hcz with ⟨hze, hczm⟩ | ⟨hne, hpre⟩
        · have hdep'' : (getObj G e.target).dependencies = some l' :=
            hze ▸ hdep'
          rw [hdep0] at hdep''
          have hll : l' = l := (Option.some.inj hdep'').symm
          intro d2 hd2
          rw [hll] at hd2
          have hd2c : d2 ∈ d :: ds := hlcons ▸ hd2
          have hd2N : d2 ∈ getNodes G := (hldep d2 hd2).1
          have hd2ne : d2 ≠ e.target :=
            hzne_simple d2 hd2N (hldep d2 hd2).2
          refine ⟨g d2, ?_, ?_⟩
          · rw [hDeS d2 hd2N hd2ne]
            exact hg d2 hd2c
          · rw [hczm]
            exact hdepsle d2 hd2c
        · intro d2 hd2
          obtain ⟨cd2, hcd2, hcd2le⟩ := hM.cmono z' hz' l' hdep' cz hpre
            d2 hd2
          have hd2N : d2 ∈ getNodes G :=
            ((hcmp z' hz' l' hdep').2.2.2.1 d2 hd2).1
          have hd2ne : d2 ≠ e.target := hzne_simple d2 hd2N
            ((hcmp z' hz' l' hdep').2.2.2.1 d2 hd2).2
          refine ⟨cd2, ?_, hcd2le⟩
          rw [hDeS d2 hd2N hd2ne]
          exact hcd2
      · -- czle
        intro z' hz' d' ds' hdep' hpcz hallp g' hg'
        by_cases hze : z' = e.target
        · have hdep'' : (getObj G e.target).dependencies
              = some (d' :: ds') := hze ▸ hdep'
          rw [hdep0] at hdep''
          have hcons : d' :: ds' = d :: ds := by
            rw [← Option.some.inj hdep'', hlcons]
          injection hcons with h1 h2
          refine ⟨m, ?_, ?_⟩
          · rw [hze]
            exact hDz
          · have hg'pre : ∀ x ∈ d :: ds,
                dget pf.DIST (lbl G x)
                  = some ((g' x : ℚ) : WithTop ℚ) := by
              intro x hx
              have hxl : x ∈ l := hlcons ▸ hx
              have hxN : x ∈ getNodes G := (hldep x hxl).1
              have hxne : x ≠ e.target :=
                hzne_simple x hxN (hldep x hxl).2
              have hx' : x ∈ d' :: ds' := by
                rw [h1, h2]
                exact hx
              have h5 := hg' x hx'
              rw [hDeS x hxN hxne] at h5
              exact h5
            have hg'd : g' d = cd := by
              have h6 := hg'pre d (List.mem_cons_self d ds)
              rw [show dget pf.DIST (lbl G d)
                = some (((cd : ℚ)) : WithTop ℚ) from hcd] at h6
              exact_mod_cast (Option.some.inj h6).symm
            have hmq' : m = qMaxList cd (ds.map g') :=
              hmg g' (fun x hx => hg'pre x (List.mem_cons_of_mem d hx))
            rw [h1, h2, hg'd, ← hmq']
        · have hallp2 : ∀ x ∈ d' :: ds', poppedB G pf x = true :=
            fun x hx => hallp x hx
          have hg'pre : ∀ x ∈ d' :: ds',
              dget pf.DIST (lbl G x) = some ((g' x : ℚ) : WithTop ℚ) := by
            intro x hx
            have hxN : x ∈ getNodes G :=
              ((hcmp z' hz' (d' :: ds') hdep').2.2.2.1 x hx).1
            have hxne : x ≠ e.target := hzne_simple x hxN
              ((hcmp z' hz' (d' :: ds') hdep').2.2.2.1 x hx).2
            have h5 := hg' x hx
            rw [hDeS x hxN hxne] at h5
            exact h5
          obtain ⟨cz, hcz, hczle⟩ := hM.czle z' hz' d' ds' hdep'
            (by rw [← hcnt_ne z' hz' hze] at hpcz; exact hpcz)
            hallp2 g' hg'pre
          refine ⟨cz, ?_, hczle⟩
          rw [hDeS z' hz' hze]
          exact hcz
      · -- mono
        intro i hi e' hlast he'ne0
        obtain ⟨cs', ci', hcs', hci', heq⟩ := hM.mono i hi e' hlast he'ne0
        have hisimp : isSimple G i = true := by
          obtain ⟨j, hj, hjS, hjl⟩ := hInv.lastDom (lbl G i) (.edge e') hlast
          rw [label_inj hpw hi hj hjl.symm]
          exact hjS
        have hine : i ≠ e.target := hzne_simple i hi hisimp
        have hsrclbl : lbl G e'.source ≠ (getObj G e.target).label := by
          intro h
          have hcs'' : dget pf.DIST (lbl G e.target)
              = some ((cs' : ℚ) : WithTop ℚ) := by
            rw [show lbl G e.target = (getObj G e.target).label from rfl,
              ← h]
            exact hcs'
          have h2 := hM.creach e.target hzN l hdep0 cs' hcs''
          rw [show dget pf.REACH (lbl G e.target) = some 1 from hz1] at h2
          exact absurd (Option.some.inj h2) (by decide)
        refine ⟨cs', ci', ?_, ?_, heq⟩
        · rw [hDlblS (lbl G e'.source) hsrclbl]
          exact hcs'
        · rw [hDlblS (lbl G i) (hzlbl i hi hine)]
          exact hci'
      · -- lastE
        exact hM.lastE
    -- run the scans of the completed node's full edges
    have hpostD : ∀ i ∈ getNodes G, ∀ ci : ℚ,
        dget (distSet (reachSet pf (getObj G e.target).label 0)
          (getObj G e.target).label (((m : ℚ)) : WithTop ℚ)).DIST
          (lbl G i) = some ((ci : ℚ) : WithTop ℚ) →
        (i = e.target ∧ ci = m) ∨
        (i ≠ e.target ∧ dget pf.DIST (lbl G i)
          = some ((ci : ℚ) : WithTop ℚ)) := by
      intro i hi ci hci
      by_cases hie : i = e.target
      · rw [hie] at hci
        have hci2 : dget (dset pf.DIST ((getObj G e.target).label)
            (((m : ℚ)) : WithTop ℚ)) ((getObj G e.target).label)
            = some ((ci : ℚ) : WithTop ℚ) := hci
        rw [dget_dset_self] at hci2
        exact .inl ⟨hie, by exact_mod_cast (Option.some.inj hci2).symm⟩
      · have hci2 : dget (dset pf.DIST ((getObj G e.target).label)
            (((m : ℚ)) : WithTop ℚ)) (lbl G i)
            = some ((ci : ℚ) : WithTop ℚ) := hci
        rw [hDe i hi hie] at hci2
        exact .inr ⟨hie, hci2⟩
    have hubB : ∀ i ∈ getNodes G, ∀ ci : ℚ,
        dget (distSet (reachSet pf (getObj G e.target).label 0)
          (getObj G e.target).label (((m : ℚ)) : WithTop ℚ)).DIST
          (lbl G i) = some ((ci : ℚ) : WithTop ℚ) → ci ≤ m := by
      intro i hi ci hci
      rcases hpostD i hi ci hci with ⟨-, hcim⟩ | ⟨-, hpre⟩
      · rw [hcim]
      · rw [hmqv]
        exact hub i hi ci hpre
    have hdgd : distGet (reachSet pf ((getObj G e.target).label) 0)
        ((getObj G d).label) = .ok (((cd : ℚ)) : WithTop ℚ) := by
      show distGet pf ((getObj G d).label) = _
      unfold distGet
      rw [show dget pf.DIST ((getObj G d).label)
        = some (((cd : ℚ)) : WithTop ℚ) from hcd]
    have hshape : dottedStep G pf e
        = (getObj G e.target).full_edges.foldlM (fun p e2 => scan G p e2)
          (distSet (reachSet pf (getObj G e.target).label 0)
            (getObj G e.target).label (((m : ℚ)) : WithTop ℚ)) := by
      simp only [dottedStep, hr1]
      rw [hR0]
      simp only [reachGet_reachSet]
      rw [if_pos trivial]
      simp only [show (getObj G e.target).dependencies = some (d :: ds) from
        hlcons ▸ hdep0]
      simp only [hdgd, hm]
    rw [hshape] at hstep
    obtain ⟨hInvF, hMF, hdF, hlF⟩ := scanFold_m hwf' hww hInv2 hM2 hstep
      hzN hRz (fun e2 h2 => h2) (full_eids_nodup heidG (hnv e.target hzN))
      (dget_dset_self _ _ _) hubB
    refine ⟨hInvF, hMF, ?_, ?_⟩
    · rw [hdF]
      have h2 : dget (distSet (reachSet pf (getObj G e.target).label 0)
          (getObj G e.target).label (((m : ℚ)) : WithTop ℚ)).DIST
          ((getObj G t).label) = dget pf.DIST ((getObj G t).label) :=
        dget_dset_ne _ _ (hzlbl t htN htzne)
      rw [h2]
      exact hqt
    · intro i hi ci hci
      rw [hdF] at hci
      rcases hpostD i hi ci hci with ⟨-, hcim⟩ | ⟨-, hpre⟩
      · rw [hcim]
        exact hmle
      · exact hub i hi ci hpre
  · -- some dependency is still missing: only the counter changes.
    push_neg at hall
    obtain ⟨dm, hdm, hdmp⟩ := hall
    have hdmp' : poppedB G pf dm = false := Bool.eq_false_iff.mpr hdmp
    have hltlen : ((l.filter (fun d => poppedB G pf d)).length : Int)
        < (l.length : Int) := by
      have h2 : (l.filter (fun d => poppedB G pf d)).length < l.length :=
        List.length_filter_lt_length_iff_exists.mpr
          ⟨dm, hdm, by rw [hdmp']; simp⟩
      exact_mod_cast h2
    have hCne : ¬(((l.length : Int) -
        ((l.filter (fun d => poppedB G pf d)).length : Int) + (1 : Nat))
        + (-1) = 0) := by
      push_cast
      omega
    have hshape : dottedStep G pf e = .ok (reachSet pf
        (getObj G e.target).label
        (((l.length : Int) -
          ((l.filter (fun d => poppedB G pf d)).length : Int) + (1 : Nat))
          + (-1))) := by
      simp only [dottedStep, hr1]
      simp only [reachGet_reachSet]
      rw [if_neg hCne]
    obtain ⟨pf0, hstep0, hInv0, hl0⟩ := dottedStep_ok hwf' hInv htN hsub
    have hpeq : pf0 = pf' := by
      rw [hstep0] at hstep
      exact Except.ok.inj hstep
    subst hpeq
    rw [hshape] at hstep0
    have hXp := Except.ok.inj hstep0
    subst hXp
    have hRe2 : ∀ i ∈ getNodes G, i ≠ e.target →
        dget (reachSet pf (getObj G e.target).label
          (((l.length : Int) -
            ((l.filter (fun d => poppedB G pf d)).length : Int) + (1 : Nat))
            + (-1))).REACH (lbl G i) = dget pf.REACH (lbl G i) := by
      intro i hi hne
      exact dget_dset_ne _ _ (hzlbl i hi hne)
    refine ⟨hInv0, ⟨hM.m1, hM.dach, hM.ddom, hM.dfin, hM.dnn, hM.e4,
      hM.qcost, hM.e2min, hM.e2cov, ?_, ?_, hM.ephd0, hM.seedq, hM.cmono,
      ?_, hM.mono, hM.lastE⟩, hqt, hub⟩
    · -- r0pop
      intro i hi hisimp hr0
      have hie : i ≠ e.target := by
        intro h
        rw [h] at hisimp
        rw [hisimp] at hzS
        exact absurd hzS (by simp)
      rw [hRe2 i hi hie] at hr0
      exact hM.r0pop i hi hisimp hr0
    · -- creach
      intro z' hz' l' hdep' cz hcz
      by_cases hze : z' = e.target
      · exfalso
        have hcnot := hInv.cnotdone e.target hzN l hdep0 ⟨dm, hdm, hdmp'⟩
        have hcz2 : dget pf.DIST (lbl G z')
            = some ((cz : ℚ) : WithTop ℚ) := hcz
        rw [hze] at hcz2
        rw [hcnot] at hcz2
        exact absurd (Option.some.inj hcz2) (by simp)
      · have h2 := hM.creach z' hz' l' hdep' cz hcz
        rw [← hRe2 z' hz' hze] at h2
        exact h2
    · -- czle
      intro z' hz' d' ds' hdep' hpcz hallp g' hg'
      by_cases hze : z' = e.target
      · exfalso
        subst hze
        rw [hdep0] at hdep'
        have hlds : l = d' :: ds' := Option.some.inj hdep'
        have hdml : dm ∈ d' :: ds' := hlds ▸ hdm
        have h2 := hallp dm hdml
        have h3 : poppedB G pf dm = true := h2
        rw [h3] at hdmp'
        exact absurd hdmp' (by simp)
      · obtain ⟨cz, hcz, hle⟩ := hM.czle z' hz' d' ds' hdep'
          (by rw [← hcnt_ne z' hz' hze] at hpcz; exact hpcz)
          (fun x hx => hallp x hx) g' (fun x hx => hg' x hx)
        exact ⟨cz, hcz, hle⟩

theorem dottedFold_ok {G : Hypergraph} {src : List NodeId} {eph : NodeId}
    {e0 : Edge} {t : NodeId} {L : List Edge} {pf : PF}
    (hwf : WFRun G src eph e0)
    (hInv : InvP G src eph e0 L pf)
    (htN : t ∈ getNodes G)
    (hsub : List.Sublist L (getObj G t).dotted_edges) :
    ∃ pf', L.foldlM (fun p e => dottedStep G p e) pf = .ok pf' ∧
      InvP G src eph e0 [] pf' ∧ pf'.LAST = pf.LAST := by
  induction L generalizing pf with
  | nil => exact ⟨pf, rfl, hInv, rfl⟩
  | cons e L ih =>
    obtain ⟨pf1, hstep, hInv1, hl1⟩ := dottedStep_ok hwf hInv htN hsub
    obtain ⟨pf2, hfold, hInv2, hl2⟩ := ih hInv1
      ((List.sublist_cons_self e L).trans hsub)
    refine ⟨pf2, ?_, hInv2, hl2.trans hl1⟩
    rw [List.foldlM_cons, hstep]
    exact hfold

/-- Combined preservation of both invariant layers by the dotted-edge
fold of the iteration settling `t` at distance `qv`. -/
theorem dottedFold_m {G : Hypergraph} {src : List NodeId} {eph : NodeId}
    {e0 : Edge} {t : NodeId} {L : List Edge} {pf pf' : PF} {qv : ℚ}
    (hwf : WFRun G src eph e0) (hww : WFW G)
    (hInv : InvP G src eph e0 L pf)
    (hM : MInv G src eph e0 L [] pf)
    (hfold : L.foldlM (fun p e => dottedStep G p e) pf = .ok pf')
    (htN : t ∈ getNodes G)
    (hsub : List.Sublist L (getObj G t).dotted_edges)
    (hqt : dget pf.DIST ((getObj G t).label)
      = some ((qv : ℚ) : WithTop ℚ))
    (hub : ∀ i ∈ getNodes G, ∀ ci : ℚ,
      dget pf.DIST (lbl G i) = some ((ci : ℚ) : WithTop ℚ) → ci ≤ qv) :
    InvP G src eph e0 [] pf' ∧ MInv G src eph e0 [] [] pf' := by
  induction L generalizing pf with
  | nil =>
    rw [List.foldlM_nil] at hfold
    obtain rfl : pf = pf' := Except.ok.inj hfold
    exact ⟨hInv, hM⟩
  | cons e L ih =>
    rw [List.foldlM_cons] at hfold
    cases hs : dottedStep G pf e with
    | error err =>
      rw [hs] at hfold
      exact Except.noConfusion hfold
    | ok pf1 =>
      rw [hs] at hfold
      obtain ⟨hInv1, hM1, hqt1, hub1⟩ :=
        dottedStep_m hwf hww hInv hM hs htN hsub hqt hub
      exact ih hInv1 hM1 hfold
        ((List.sublist_cons_self e L).trans hsub) hqt1 hub1

/-! Characterisation of `Pathfinder.initializeData`. -/

theorem initSimpleFold (G : Hypergraph) (L : List NodeId) (pf : PF) :
    (∀ ℓ, dget (L.foldl (fun pf i =>
        lastSetNoneStr (distSet (reachSet pf (getObj G i).label 1)
          (getObj G i).label ⊤) (getObj G i).label) pf).REACH ℓ
      = if L.any (fun i => (getObj G i).label == ℓ) then some 1
        else dget pf.REACH ℓ) ∧
    (∀ ℓ, dget (L.foldl (fun pf i =>
        lastSetNoneStr (distSet (reachSet pf (getObj G i).label 1)
          (getObj G i).label ⊤) (getObj G i).label) pf).DIST ℓ
      = if L.any (fun i => (getObj G i).label == ℓ) then some ⊤
        else dget pf.DIST ℓ) ∧
    (∀ ℓ, dget (L.foldl (fun pf i =>
        lastSetNoneStr (distSet (reachSet pf (getObj G i).label 1)
          (getObj G i).label ⊤) (getObj G i).label) pf).LAST ℓ
      = if L.any (fun i => (getObj G i).label == ℓ) then some .strNone
        else dget pf.LAST ℓ) ∧
    (L.foldl (fun pf i =>
        lastSetNoneStr (distSet (reachSet pf (getObj G i).label 1)
          (getObj G i).label ⊤) (getObj G i).label) pf).p_queue
      = pf.p_queue ∧
    (L.foldl (fun pf i =>
        lastSetNoneStr (distSet (reachSet pf (getObj G i).label 1)
          (getObj G i).label ⊤) (getObj G i).label) pf).source
      = pf.source ∧
    (L.foldl (fun pf i =>
        lastSetNoneStr (distSet (reachSet pf (getObj G i).label 1)
          (getObj G i).label ⊤) (getObj G i).label) pf).source_set
      = pf.source_set := by
  induction L generalizing pf with
  | nil => exact ⟨fun ℓ => rfl, fun ℓ => rfl, fun ℓ => rfl, rfl, rfl, rfl⟩
  | cons i L ih =>
    obtain ⟨r1, r2, r3, r4, r5, r6⟩ := ih
      (lastSetNoneStr (distSet (reachSet pf (getObj G i).label 1)
          (getObj G i).label ⊤) (getObj G i).label)
    simp only [List.foldl_cons, List.any_cons]
    refine ⟨?_, ?_, ?_, r4, r5, r6⟩
    · intro ℓ
      rw [r1 ℓ]
      by_cases hL : L.any (fun i => (getObj G i).label == ℓ) = true
      · rw [if_pos hL, if_pos (by rw [hL]; exact Bool.or_true _)]
      · rw [if_neg hL]
        simp only [Bool.eq_false_iff.mpr hL, Bool.or_false]
        by_cases hil : (getObj G i).label = ℓ
        · rw [if_pos (by simp [hil])]
          show dget (dset pf.REACH ((getObj G i).label) 1) ℓ = some 1
          rw [hil]
          exact dget_dset_self _ _ _
        · rw [if_neg (by simp [hil])]
          show dget (dset pf.REACH ((getObj G i).label) 1) ℓ
            = dget pf.REACH ℓ
          exact dget_dset_ne _ _ (fun h => hil h.symm)
    · intro ℓ
      rw [r2 ℓ]
      by_cases hL : L.any (fun i => (getObj G i).label == ℓ) = true
      · rw [if_pos hL, if_pos (by rw [hL]; exact Bool.or_true _)]
      · rw [if_neg hL]
        simp only [Bool.eq_false_iff.mpr hL, Bool.or_false]
        by_cases hil : (getObj G i).label = ℓ
        · rw [if_pos (by simp [hil])]
          show dget (dset pf.DIST ((getObj G i).label) ⊤) ℓ = some ⊤
          rw [hil]
          exact dget_dset_self _ _ _
        · rw [if_neg (by simp [hil])]
          show dget (dset pf.DIST ((getObj G i).label) ⊤) ℓ
            = dget pf.DIST ℓ
          exact dget_dset_ne _ _ (fun h => hil h.symm)
    · intro ℓ
      rw [r3 ℓ]
      by_cases hL : L.any (fun i => (getObj G i).label == ℓ) = true
      · rw [if_pos hL, if_pos (by rw [hL]; exact Bool.or_true _)]
      · rw [if_neg hL]
        simp only [Bool.eq_false_iff.mpr hL, Bool.or_false]
        by_cases hil : (getObj G i).label = ℓ
        · rw [if_pos (by simp [hil])]
          show dget (dset pf.LAST ((getObj G i).label) .strNone) ℓ
            = some .strNone
          rw [hil]
          exact dget_dset_self _ _ _
        · rw [if_neg (by simp [hil])]
          show dget (dset pf.LAST ((getObj G i).label) .strNone) ℓ
            = dget pf.LAST ℓ
          exact dget_dset_ne _ _ (fun h => hil h.symm)

theorem initCompFold (G : Hypergraph) (L : List NodeId) :
    ∀ (pf pfr : PF),
    L.foldlM (fun pf i =>
      match (getObj G i).dependencies with
      | none => Except.error PyErr.typeError
      | some deps => Except.ok (distSet (reachSet pf (getObj G i).label
          (deps.length : Int)) (getObj G i).label ⊤)) pf = .ok pfr →
    L.Pairwise (fun a b => (getObj G a).label ≠ (getObj G b).label) →
    ((∀ z ∈ L, ∀ dl, (getObj G z).dependencies = some dl →
      dget pfr.REACH ((getObj G z).label) = some (dl.length : Int) ∧
      dget pfr.DIST ((getObj G z).label) = some ⊤) ∧
    (∀ ℓ, (∀ z ∈ L, (getObj G z).label ≠ ℓ) →
      dget pfr.REACH ℓ = dget pf.REACH ℓ ∧
      dget pfr.DIST ℓ = dget pf.DIST ℓ) ∧
    pfr.LAST = pf.LAST ∧ pfr.p_queue = pf.p_queue ∧
    pfr.source = pf.source ∧ pfr.source_set = pf.source_set) := by
  induction L with
  | nil =>
    intro pf pfr hok _
    rw [List.foldlM_nil] at hok
    injection hok with hok
    subst hok
    exact ⟨by simp, fun ℓ _ => ⟨rfl, rfl⟩, rfl, rfl, rfl, rfl⟩
  | cons z L ih =>
    intro pf pfr hok hdist
    rw [List.foldlM_cons] at hok
    rw [List.pairwise_cons] at hdist
    rcases hdz : (getObj G z).dependencies with - | dl
    · rw [hdz] at hok
      exact Except.noConfusion hok
    rw [hdz] at hok
    have hok' : L.foldlM (fun pf i =>
        match (getObj G i).dependencies with
        | none => Except.error PyErr.typeError
        | some deps => Except.ok (distSet (reachSet pf (getObj G i).label
            (deps.length : Int)) (getObj G i).label ⊤))
        (distSet (reachSet pf (getObj G z).label (dl.length : Int))
          (getObj G z).label ⊤) = .ok pfr := hok
    obtain ⟨c1, c2, c3, c4, c5, c6⟩ := ih _ pfr hok' hdist.2
    refine ⟨?_, ?_, c3, c4, c5, c6⟩
    · intro z' hz' dl' hdl'
      rcases List.mem_cons.mp hz' with h | h
      · subst h
        rw [hdz] at hdl'
        obtain rfl : dl = dl' := Option.some.inj hdl'
        have hnol : ∀ w ∈ L, (getObj G w).label ≠ (getObj G z').label :=
          fun w hw => Ne.symm (hdist.1 w hw)
        obtain ⟨e1, e2⟩ := c2 ((getObj G z').label) hnol
        constructor
        · rw [e1]
          show dget (dset pf.REACH ((getObj G z').label) (dl.length : Int))
            ((getObj G z').label) = some (dl.length : Int)
          exact dget_dset_self _ _ _
        · rw [e2]
          exact dget_dset_self _ _ _
      · exact c1 z' h dl' hdl'
    · intro ℓ hne
      obtain ⟨e1, e2⟩ := c2 ℓ (fun w hw => hne w (List.mem_cons_of_mem z hw))
      have hzne : (getObj G z).label ≠ ℓ := hne z (List.mem_cons_self z L)
      constructor
      · rw [e1]
        show dget (dset pf.REACH ((getObj G z).label) (dl.length : Int)) ℓ
          = dget pf.REACH ℓ
        exact dget_dset_ne _ _ (Ne.symm hzne)
      · rw [e2]
        exact dget_dset_ne _ _ (Ne.symm hzne)

/-- The compound-initialisation fold only succeeds when every listed node
carries a dependency list (the Python code reads `n.dependencies`). -/
theorem initCompFold_deps (G : Hypergraph) (L : List NodeId) :
    ∀ (pf pfr : PF),
    L.foldlM (fun pf i =>
      match (getObj G i).dependencies with
      | none => Except.error PyErr.typeError
      | some deps => Except.ok (distSet (reachSet pf (getObj G i).label
          (deps.length : Int)) (getObj G i).label ⊤)) pf = .ok pfr →
    ∀ z ∈ L, ∃ dl, (getObj G z).dependencies = some dl := by
  induction L with
  | nil =>
    intro pf pfr _ z hz
    exact absurd hz (List.not_mem_nil z)
  | cons y L ih =>
    intro pf pfr hok z hz
    rw [List.foldlM_cons] at hok
    rcases hdz : (getObj G y).dependencies with - | dl
    · rw [hdz] at hok
      exact Except.noConfusion hok
    · rw [hdz] at hok
      rcases List.mem_cons.mp hz with h | h
      · exact ⟨dl, by rw [h]; exact hdz⟩
      · exact ih _ pfr hok z h

theorem pfStep_inv {G : Hypergraph} {src : List NodeId} {eph : NodeId}
    {e0 : Edge} {pf pf' : PF}
    (hwf : WFRun G src eph e0)
    (hInv : Inv G src eph e0 pf)
    (hstep : pfStep G pf = .ok pf') :
    Inv G src eph e0 pf' := by
  obtain ⟨hpw, hnd, hnv, hsi, hci, hephm, hephe, hephd, hsrcm, hloc, hcmp,
    heid, he0t⟩ := hwf
  have hwf' : WFRun G src eph e0 := ⟨hpw, hnd, hnv, hsi, hci, hephm, hephe,
    hephd, hsrcm, hloc, hcmp, heid, he0t⟩
  unfold pfStep at hstep
  split at hstep
  · exact Except.noConfusion hstep
  · next el pf1 heq =>
    unfold getMinQueueEl at heq
    split at heq
    · exact Except.noConfusion heq
    · next d ee hqm =>
      injection heq with heq
      injection heq with hel hpf1
      subst hel
      subst hpf1
      have hmemQ : (d, ee) ∈ pf.p_queue := queueMinFold_mem hqm
      obtain ⟨htN0, htS0, htR0, hre00, hnpop0, q, hdq0, hder0⟩ :=
        hInv.qfacts (d, ee) hmemQ
      have htN : ee.target ∈ getNodes G := htN0
      have htS : isSimple G ee.target = true := htS0
      have htR : ee.target = eph ∨ ReachableFrom G src ee.target := htR0
      have hre0 : dget pf.REACH (lbl G ee.target) = some 0 := hre00
      have hnpop : poppedB G pf ee.target = false := hnpop0
      have hdq : d = some q := hdq0
      have hder : Deriv G eph ee.target q := hder0
      have hinj : ∀ p ∈ pf.p_queue, p.1 = d → p.2.eid = ee.eid →
          p.2.target = ee.target := by
        intro p hp _ hpe
        have hpm : p.2 ∈ edgesOf G ++ [e0] := by
          rcases hInv.qedges p hp with h | h
          · exact List.mem_append_left _ h
          · rw [h]; exact List.mem_append_right _ (List.mem_cons_self _ _)
        have hem : ee ∈ edgesOf G ++ [e0] := by
          rcases hInv.qedges (d, ee) hmemQ with h | h
          · exact List.mem_append_left _ h
          · have h' : ee = e0 := h
            rw [h']
            exact List.mem_append_right _ (List.mem_cons_self _ _)
        rw [eid_inj heid hpm hem hpe]
      have hrm := removeFirstQ_mem_strong G pf.p_queue d ee hinj
        hInv.qdistinct ⟨(d, ee), hmemQ, rfl, rfl⟩
      -- the settled state
      have hpopchg : ∀ i : NodeId,
          poppedB G (lastSetEdge (distSet
              { pf with p_queue := removeFirstQ pf.p_queue d ee }
              ((getObj G ee.target).label) d)
              ((getObj G ee.target).label) ee) i
            = if lbl G i = (getObj G ee.target).label then true
              else poppedB G pf i := by
        intro i
        exact poppedB_lastSet G _ ((getObj G ee.target).label) ee i
      have hlblne : ∀ i ∈ getNodes G, i ≠ ee.target →
          lbl G i ≠ (getObj G ee.target).label := by
        intro i hi hne h
        exact hne (label_inj hpw hi htN h)
      have hpop_ne : ∀ i ∈ getNodes G, i ≠ ee.target →
          poppedB G (lastSetEdge (distSet
              { pf with p_queue := removeFirstQ pf.p_queue d ee }
              ((getObj G ee.target).label) d)
              ((getObj G ee.target).label) ee) i = poppedB G pf i := by
        intro i hi hne
        rw [hpopchg i]
        exact if_neg (hlblne i hi hne)
      have hpop_self : poppedB G (lastSetEdge (distSet
          { pf with p_queue := removeFirstQ pf.p_queue d ee }
          ((getObj G ee.target).label) d)
          ((getObj G ee.target).label) ee) ee.target = true := by
        rw [hpopchg ee.target]
        exact if_pos rfl
      have hpend : ∀ z ∈ getNodes G, ∀ l2,
          (getObj G z).dependencies = some l2 →
          ((((getObj G ee.target).dotted_edges.filter
            (fun e2 => e2.target = z)).length : Int)
            = if ee.target ∈ l2 then (1 : Int) else 0) := by
        intro z hz l2 hdep2
        obtain ⟨-, -, -, -, hf1, hf0⟩ := hcmp z hz l2 hdep2
        by_cases hmem : ee.target ∈ l2
        · rw [if_pos hmem]
          exact_mod_cast hf1 ee.target hmem
        · rw [if_neg hmem]
          exact_mod_cast hf0 ee.target htN hmem
      have hInv2 : InvP G src eph e0 ((getObj G ee.target).dotted_edges)
          (lastSetEdge (distSet
            { pf with p_queue := removeFirstQ pf.p_queue d ee }
            ((getObj G ee.target).label) d)
            ((getObj G ee.target).label) ee) := by
        have hDne : ∀ i ∈ getNodes G, i ≠ ee.target →
            dget (dset pf.DIST ((getObj G ee.target).label) d) (lbl G i)
              = dget pf.DIST (lbl G i) := by
          intro i hi hne
          exact dget_dset_ne _ _ (hlblne i hi hne)
        have hLne : ∀ i ∈ getNodes G, i ≠ ee.target →
            dget (dset pf.LAST ((getObj G ee.target).label) (.edge ee))
              (lbl G i) = dget pf.LAST (lbl G i) := by
          intro i hi hne
          exact dget_dset_ne _ _ (hlblne i hi hne)
        refine ⟨hInv.source_eq, hInv.source_set_eq, ?_, ?_, ?_, hInv.sreach,
          ?_, ?_, ?_, ?_, ?_, ?_, ?_⟩
        · intro p hp
          obtain ⟨hpq, hpl⟩ := hrm p hp
          obtain ⟨q1, q2, q3, q4, q5, q6⟩ := hInv.qfacts p hpq
          refine ⟨q1, q2, q3, q4, ?_, q6⟩
          rw [hpop_ne p.2.target q1 (fun h => hpl (by rw [h]))]
          exact q5
        · exact hInv.qdistinct.sublist (removeFirstQ_sublist _ _ _)
        · intro p hp
          exact hInv.qedges p ((removeFirstQ_sublist _ _ _).mem hp)
        · intro i hi his hun
          have hine : i ≠ ee.target := by
            intro h
            rw [h] at hun
            exact hun htR
          obtain ⟨u1, u2, u3⟩ := hInv.untS i hi his hun
          exact ⟨u1, (hDne i hi hine).symm ▸ u2, (hLne i hi hine).symm ▸ u3⟩
        · intro i hi hpop
          by_cases hie : i = ee.target
          · subst hie
            refine ⟨htR, htS, q, ?_, hder⟩
            show dget (dset pf.DIST ((getObj G ee.target).label) d)
              ((getObj G ee.target).label) = some ((q : ℚ) : WithTop ℚ)
            rw [dget_dset_self, hdq]
            rfl
          · rw [hpop_ne i hi hie] at hpop
            obtain ⟨p1, p2, cp, hcp, hcpD⟩ := hInv.pReach i hi hpop
            exact ⟨p1, p2, cp, (hDne i hi hie).symm ▸ hcp, hcpD⟩
        · intro i hi hpop
          by_cases hie : i = ee.target
          · subst hie
            exact hre0
          · rw [hpop_ne i hi hie] at hpop
            exact hInv.pr0 i hi hpop
        · intro ℓ v hv
          show ∃ i ∈ getNodes G, isSimple G i = true ∧ lbl G i = ℓ
          by_cases hℓ : ℓ = (getObj G ee.target).label
          · exact ⟨ee.target, htN, htS, hℓ.symm⟩
          · have hv2 : dget (dset pf.LAST ((getObj G ee.target).label)
                (.edge ee)) ℓ = some v := hv
            rw [dget_dset_ne _ _ hℓ] at hv2
            exact hInv.lastDom ℓ v hv2
        · intro z hz l2 hdep2
          obtain ⟨-, hl2nd, -, hl2dep, -, -⟩ := hcmp z hz l2 hdep2
          have hzne : z ≠ ee.target := by
            intro h
            rw [h] at hdep2
            unfold isSimple at htS
            rw [hdep2] at htS
            exact absurd htS (by simp)
          have hfu := filter_length_update (fun d2 => poppedB G pf d2)
            (fun d2 => poppedB G (lastSetEdge (distSet
              { pf with p_queue := removeFirstQ pf.p_queue d ee }
              ((getObj G ee.target).label) d)
              ((getObj G ee.target).label) ee) d2) ee.target hl2nd
            (fun d2 hd2 hdne => hpop_ne d2 (hl2dep d2 hd2).1 hdne)
            hpop_self hnpop
          have hcc := hInv.ccount z hz l2 hdep2
          simp only [List.filter_nil, List.length_nil, Nat.cast_zero,
            add_zero] at hcc
          show dget pf.REACH (lbl G z) = some ((l2.length : Int) - _ + _)
          rw [hcc]
          congr 1
          rw [hfu, hpend z hz l2 hdep2]
          have hite : (if ee.target ∈ l2 then (1 : Int) else 0)
              = (if ee.target ∈ l2 then (1 : Int) else 0) := rfl
          omega
        · intro z hz l2 hdep2 hl2ne hall hpc
          have hznotin : ee.target ∉ l2 := by
            intro hmem
            have := hpend z hz l2 hdep2
            rw [if_pos hmem, hpc] at this
            norm_num at this
          have hall2 : ∀ d2 ∈ l2, poppedB G pf d2 = true := by
            intro d2 hd2
            have hdne : d2 ≠ ee.target := fun h => hznotin (h ▸ hd2)
            have := hall d2 hd2
            rw [hpop_ne d2 ((hcmp z hz l2 hdep2).2.2.2.1 d2 hd2).1 hdne]
              at this
            exact this
          obtain ⟨w1, cw, hcw, hcwD⟩ := hInv.cdone z hz l2 hdep2 hl2ne hall2
            rfl
          have hzne : z ≠ ee.target := by
            intro h
            rw [h] at hdep2
            unfold isSimple at htS
            rw [hdep2] at htS
            exact absurd htS (by simp)
          exact ⟨w1, cw, (hDne z hz hzne).symm ▸ hcw, hcwD⟩
        · intro z hz l2 hdep2 hex
          obtain ⟨dx, hdx, hdxp⟩ := hex
          have hdxne : dx ≠ ee.target := by
            intro h
            rw [h] at hdxp
            rw [hpop_self] at hdxp
            exact absurd hdxp (by simp)
          rw [hpop_ne dx ((hcmp z hz l2 hdep2).2.2.2.1 dx hdx).1 hdxne]
            at hdxp
          have := hInv.cnotdone z hz l2 hdep2 ⟨dx, hdx, hdxp⟩
          have hzne : z ≠ ee.target := by
            intro h
            rw [h] at hdep2
            unfold isSimple at htS
            rw [hdep2] at htS
            exact absurd htS (by simp)
          exact (hDne z hz hzne).symm ▸ this
      obtain ⟨pf3m, hfold, hInv3, hd3, hl3⟩ := scanFold_ok hwf' hInv2 htN htR
        (fun e2 h2 => h2)
        ⟨q, by
          show dget (dset pf.DIST ((getObj G ee.target).label) d)
            ((getObj G ee.target).label) = some ((q : ℚ) : WithTop ℚ)
          rw [dget_dset_self, hdq]
          rfl, hder⟩
      split at hstep
      · exact Except.noConfusion hstep
      · next pf3 heq2 =>
        have heq2' : (getObj G ee.target).full_edges.foldlM
            (fun p e => scan G p e)
            (lastSetEdge (distSet
              { pf with p_queue := removeFirstQ pf.p_queue d ee }
              ((getObj G ee.target).label) d)
              ((getObj G ee.target).label) ee) = .ok pf3 := heq2
        rw [hfold] at heq2'
        obtain rfl : pf3m = pf3 := Except.ok.inj heq2'
        obtain ⟨pf4m, hfold2, hInv4, -⟩ := dottedFold_ok hwf' hInv3 htN
          (List.Sublist.refl _)
        have hstep' : (getObj G ee.target).dotted_edges.foldlM
            (fun p e => dottedStep G p e) pf3m = .ok pf' := hstep
        rw [hfold2] at hstep'
        obtain rfl : pf4m = pf' := Except.ok.inj hstep'
        exact hInv4

/-- Combined preservation of both invariant layers by one iteration of
the closure loop.  The popped key is the queue minimum, so the frontier
lemma turns every derivation of the settled target into the minimality
bound; the settled distance then dominates every previously settled
distance, which feeds the scan and dotted folds. -/
theorem pfStep_m {G : Hypergraph} {src : List NodeId} {eph : NodeId}
    {e0 : Edge} {pf pf' : PF}
    (hwf : WFRun G src eph e0) (hww : WFW G)
    (hInv : Inv G src eph e0 pf)
    (hM : MInv G src eph e0 [] [] pf)
    (hstep : pfStep G pf = .ok pf') :
    Inv G src eph e0 pf' ∧ MInv G src eph e0 [] [] pf' := by
  obtain ⟨hpw, hnd, hnv, hsi, hci, hephm, hephe, hephd, hsrcm, hloc, hcmp,
    heid, he0t⟩ := hwf
  have hwf' : WFRun G src eph e0 := ⟨hpw, hnd, hnv, hsi, hci, hephm, hephe,
    hephd, hsrcm, hloc, hcmp, heid, he0t⟩
  have heidG : (edgesOf G).Pairwise (fun a b => a.eid ≠ b.eid) :=
    (List.pairwise_append.mp heid).1
  have hephN : eph ∈ getNodes G := List.mem_append_left _ hephm
  unfold pfStep at hstep
  split at hstep
  · exact Except.noConfusion hstep
  · next el pf1 heq =>
    unfold getMinQueueEl at heq
    split at heq
    · exact Except.noConfusion heq
    · next d ee hqm =>
      injection heq with heq
      injection heq with hel hpf1
      subst hel
      subst hpf1
      have hmemQ : (d, ee) ∈ pf.p_queue := queueMinFold_mem hqm
      obtain ⟨htN0, htS0, htR0, hre00, hnpop0, q, hdq0, hder0⟩ :=
        hInv.qfacts (d, ee) hmemQ
      have htN : ee.target ∈ getNodes G := htN0
      have htS : isSimple G ee.target = true := htS0
      have htR : ee.target = eph ∨ ReachableFrom G src ee.target := htR0
      have hre0 : dget pf.REACH (lbl G ee.target) = some 0 := hre00
      have hnpop : poppedB G pf ee.target = false := hnpop0
      have hdq : d = some q := hdq0
      have hder : Deriv G eph ee.target q := hder0
      have hmin : ∀ p ∈ pf.p_queue, d ≤ p.1 := queueMinFold_min hqm
      have hinj : ∀ p ∈ pf.p_queue, p.1 = d → p.2.eid = ee.eid →
          p.2.target = ee.target := by
        intro p hp _ hpe
        have hpm : p.2 ∈ edgesOf G ++ [e0] := by
          rcases hInv.qedges p hp with h | h
          · exact List.mem_append_left _ h
          · rw [h]; exact List.mem_append_right _ (List.mem_cons_self _ _)
        have hem : ee ∈ edgesOf G ++ [e0] := by
          rcases hInv.qedges (d, ee) hmemQ with h | h
          · exact List.mem_append_left _ h
          · have h' : ee = e0 := h
            rw [h']
            exact List.mem_append_right _ (List.mem_cons_self _ _)
        rw [eid_inj heid hpm hem hpe]
      have hrm := removeFirstQ_mem_strong G pf.p_queue d ee hinj
        hInv.qdistinct ⟨(d, ee), hmemQ, rfl, rfl⟩
      have htop : dget pf.DIST (lbl G ee.target) = some ⊤ := by
        obtain ⟨v, hv⟩ := hM.ddom ee.target htN
        cases v with
        | top => exact hv
        | coe c =>
          have h7 := hM.dfin ee.target htN htS c hv
          rw [h7] at hnpop
          exact absurd hnpop (by simp)
      have hephq : ee.target = eph → q = 0 := by
        intro hteph
        have hnpop' : poppedB G pf eph = false := hteph ▸ hnpop
        have hseed := hM.seedq hnpop'
        have heqel : ((((0 : ℚ)) : WithTop ℚ), e0) = (d, ee) := by
          by_contra hne
          refine List.Pairwise.forall (fun _ _ h' => Ne.symm h')
            hInv.qdistinct hseed hmemQ hne ?_
          show lbl G e0.target = lbl G ee.target
          rw [he0t, hteph]
        have hd0 : d = (((0 : ℚ)) : WithTop ℚ) :=
          (congrArg Prod.fst heqel).symm
        have h4 : some q = some ((0 : ℚ)) := by
          rw [← hdq]
          exact hd0
        exact Option.some.inj h4
      have hqinfo : (ee.eid ≠ e0.eid ∧ (0 : ℚ) ≤ ee.weight ∧ ∃ cs : ℚ,
          dget pf.DIST (lbl G ee.source) = some ((cs : ℚ) : WithTop ℚ) ∧
          q = ee.weight + cs ∧ ee.source ∈ getNodes G) ∨
          (ee = e0 ∧ q = 0) := by
        by_cases hee0 : ee.eid = e0.eid
        · have hee : ee = e0 := by
            rcases hInv.qedges (d, ee) hmemQ with h | h
            · exact absurd hee0 ((List.pairwise_append.mp heid).2.2 ee h
                e0 (List.mem_singleton_self e0))
            · exact h
          exact .inr ⟨hee, hephq (by rw [hee]; exact he0t)⟩
        · have heemem : ee ∈ edgesOf G := by
            rcases hInv.qedges (d, ee) hmemQ with h | h
            · exact h
            · exact absurd (congrArg Edge.eid h) hee0
          obtain ⟨hsrcN, cs, hcs, hkey⟩ := hM.qcost (d, ee) hmemQ hee0
          have hkey' : d = (((ee.weight + cs : ℚ)) : WithTop ℚ) := hkey
          have h5 : some q = some ((ee.weight + cs : ℚ)) := by
            rw [← hdq]
            exact hkey'
          exact .inl ⟨hee0, hww.1 ee heemem, cs, hcs, Option.some.inj h5,
            hsrcN⟩
      have hq0 : (0 : ℚ) ≤ q := by
        rcases hqinfo with ⟨-, hwn, cs, hcs, hqeq, hsrcN⟩ | ⟨-, hqe⟩
        · have h6 := hM.dnn ee.source hsrcN cs hcs
          rw [hqeq]
          linarith
        · exact le_of_eq hqe.symm
      have hpopchg : ∀ i : NodeId,
          poppedB G (lastSetEdge (distSet
              { pf with p_queue := removeFirstQ pf.p_queue d ee }
              ((getObj G ee.target).label) d)
              ((getObj G ee.target).label) ee) i
            = if lbl G i = (getObj G ee.target).label then true
              else poppedB G pf i := by
        intro i
        exact poppedB_lastSet G _ ((getObj G ee.target).label) ee i
      have hlblne : ∀ i ∈ getNodes G, i ≠ ee.target →
          lbl G i ≠ (getObj G ee.target).label := by
        intro i hi hne h
        exact hne (label_inj hpw hi htN h)
      have hpop_ne : ∀ i ∈ getNodes G, i ≠ ee.target →
          poppedB G (lastSetEdge (distSet
              { pf with p_queue := removeFirstQ pf.p_queue d ee }
              ((getObj G ee.target).label) d)
              ((getObj G ee.target).label) ee) i = poppedB G pf i := by
        intro i hi hne
        rw [hpopchg i]
        exact if_neg (hlblne i hi hne)
      have hpop_self : poppedB G (lastSetEdge (distSet
          { pf with p_queue := removeFirstQ pf.p_queue d ee }
          ((getObj G ee.target).label) d)
          ((getObj G ee.target).label) ee) ee.target = true := by
        rw [hpopchg ee.target]
        exact if_pos rfl
      have hpend : ∀ z ∈ getNodes G, ∀ l2,
          (getObj G z).dependencies = some l2 →
          ((((getObj G ee.target).dotted_edges.filter
            (fun e2 => e2.target = z)).length : Int)
            = if ee.target ∈ l2 then (1 : Int) else 0) := by
        intro z hz l2 hdep2
        obtain ⟨-, -, -, -, hf1, hf0⟩ := hcmp z hz l2 hdep2
        by_cases hmem : ee.target ∈ l2
        · rw [if_pos hmem]
          exact_mod_cast hf1 ee.target hmem
        · rw [if_neg hmem]
          exact_mod_cast hf0 ee.target htN hmem
      -- the soundness invariant at the settled state
      have hInv2 : InvP G src eph e0 ((getObj G ee.target).dotted_edges)
          (lastSetEdge (distSet
            { pf with p_queue := removeFirstQ pf.p_queue d ee }
            ((getObj G ee.target).label) d)
            ((getObj G ee.target).label) ee) := by
        have hDne : ∀ i ∈ getNodes G, i ≠ ee.target →
            dget (dset pf.DIST ((getObj G ee.target).label) d) (lbl G i)
              = dget pf.DIST (lbl G i) := by
          intro i hi hne
          exact dget_dset_ne _ _ (hlblne i hi hne)
        have hLne : ∀ i ∈ getNodes G, i ≠ ee.target →
            dget (dset pf.LAST ((getObj G ee.target).label) (.edge ee))
              (lbl G i) = dget pf.LAST (lbl G i) := by
          intro i hi hne
          exact dget_dset_ne _ _ (hlblne i hi hne)
        refine ⟨hInv.source_eq, hInv.source_set_eq, ?_, ?_, ?_, hInv.sreach,
          ?_, ?_, ?_, ?_, ?_, ?_, ?_⟩
        · intro p hp
          obtain ⟨hpq, hpl⟩ := hrm p hp
          obtain ⟨q1, q2, q3, q4, q5, q6⟩ := hInv.qfacts p hpq
          refine ⟨q1, q2, q3, q4, ?_, q6⟩
          rw [hpop_ne p.2.target q1 (fun h => hpl (by rw [h]))]
          exact q5
        · exact hInv.qdistinct.sublist (removeFirstQ_sublist _ _ _)
        · intro p hp
          exact hInv.qedges p ((removeFirstQ_sublist _ _ _).mem hp)
        · intro i hi his hun
          have hine : i ≠ ee.target := by
            intro h
            rw [h] at hun
            exact hun htR
          obtain ⟨u1, u2, u3⟩ := hInv.untS i hi his hun
          exact ⟨u1, (hDne i hi hine).symm ▸ u2, (hLne i hi hine).symm ▸ u3⟩
        · intro i hi hpop
          by_cases hie : i = ee.target
          · subst hie
            refine ⟨htR, htS, q, ?_, hder⟩
            show dget (dset pf.DIST ((getObj G ee.target).label) d)
              ((getObj G ee.target).label) = some ((q : ℚ) : WithTop ℚ)
            rw [dget_dset_self, hdq]
            rfl
          · rw [hpop_ne i hi hie] at hpop
            obtain ⟨p1, p2, cp, hcp, hcpD⟩ := hInv.pReach i hi hpop
            exact ⟨p1, p2, cp, (hDne i hi hie).symm ▸ hcp, hcpD⟩
        · intro i hi hpop
          by_cases hie : i = ee.target
          · subst hie
            exact hre0
          · rw [hpop_ne i hi hie] at hpop
            exact hInv.pr0 i hi hpop
        · intro ℓ v hv
          show ∃ i ∈ getNodes G, isSimple G i = true ∧ lbl G i = ℓ
          by_cases hℓ : ℓ = (getObj G ee.target).label
          · exact ⟨ee.target, htN, htS, hℓ.symm⟩
          · have hv2 : dget (dset pf.LAST ((getObj G ee.target).label)
                (.edge ee)) ℓ = some v := hv
            rw [dget_dset_ne _ _ hℓ] at hv2
            exact hInv.lastDom ℓ v hv2
        · intro z hz l2 hdep2
          obtain ⟨-, hl2nd, -, hl2dep, -, -⟩ := hcmp z hz l2 hdep2
          have hzne : z ≠ ee.target := by
            intro h
            rw [h] at hdep2
            unfold isSimple at htS
            rw [hdep2] at htS
            exact absurd htS (by simp)
          have hfu := filter_length_update (fun d2 => poppedB G pf d2)
            (fun d2 => poppedB G (lastSetEdge (distSet
              { pf with p_queue := removeFirstQ pf.p_queue d ee }
              ((getObj G ee.target).label) d)
              ((getObj G ee.target).label) ee) d2) ee.target hl2nd
            (fun d2 hd2 hdne => hpop_ne d2 (hl2dep d2 hd2).1 hdne)
            hpop_self hnpop
          have hcc := hInv.ccount z hz l2 hdep2
          simp only [List.filter_nil, List.length_nil, Nat.cast_zero,
            add_zero] at hcc
          show dget pf.REACH (lbl G z) = some ((l2.length : Int) - _ + _)
          rw [hcc]
          congr 1
          rw [hfu, hpend z hz l2 hdep2]
          omega
        · intro z hz l2 hdep2 hl2ne hall hpc
          have hznotin : ee.target ∉ l2 := by
            intro hmem
            have h8 := hpend z hz l2 hdep2
            rw [if_pos hmem, hpc] at h8
            norm_num at h8
          have hall2 : ∀ d2 ∈ l2, poppedB G pf d2 = true := by
            intro d2 hd2
            have hdne : d2 ≠ ee.target := fun h => hznotin (h ▸ hd2)
            have h9 := hall d2 hd2
            rw [hpop_ne d2 ((hcmp z hz l2 hdep2).2.2.2.1 d2 hd2).1 hdne]
              at h9
            exact h9
          obtain ⟨w1, cw, hcw, hcwD⟩ := hInv.cdone z hz l2 hdep2 hl2ne hall2
            rfl
          have hzne : z ≠ ee.target := by
            intro h
            rw [h] at hdep2
            unfold isSimple at htS
            rw [hdep2] at htS
            exact absurd htS (by simp)
          exact ⟨w1, cw, (hDne z hz hzne).symm ▸ hcw, hcwD⟩
        · intro z hz l2 hdep2 hex
          obtain ⟨dx, hdx, hdxp⟩ := hex
          have hdxne : dx ≠ ee.target := by
            intro h
            rw [h] at hdxp
            rw [hpop_self] at hdxp
            exact absurd hdxp (by simp)
          rw [hpop_ne dx ((hcmp z hz l2 hdep2).2.2.2.1 dx hdx).1 hdxne]
            at hdxp
          have h10 := hInv.cnotdone z hz l2 hdep2 ⟨dx, hdx, hdxp⟩
          have hzne : z ≠ ee.target := by
            intro h
            rw [h] at hdep2
            unfold isSimple at htS
            rw [hdep2] at htS
            exact absurd htS (by simp)
          exact (hDne z hz hzne).symm ▸ h10
      -- shared helpers for the minimality layer at the settled state
      have hDlblS : ∀ ℓ : String, ℓ ≠ (getObj G ee.target).label →
          dget (lastSetEdge (distSet
            { pf with p_queue := removeFirstQ pf.p_queue d ee }
            ((getObj G ee.target).label) d)
            ((getObj G ee.target).label) ee).DIST ℓ
            = dget pf.DIST ℓ :=
        fun ℓ h => dget_dset_ne _ _ h
      have hDself : dget (lastSetEdge (distSet
          { pf with p_queue := removeFirstQ pf.p_queue d ee }
          ((getObj G ee.target).label) d)
          ((getObj G ee.target).label) ee).DIST
          ((getObj G ee.target).label) = some ((q : ℚ) : WithTop ℚ) := by
        show dget (dset pf.DIST ((getObj G ee.target).label) d)
          ((getObj G ee.target).label) = some ((q : ℚ) : WithTop ℚ)
        rw [dget_dset_self, hdq]
        rfl
      have hDpost : ∀ i ∈ getNodes G, ∀ ci : ℚ,
          dget (lastSetEdge (distSet
            { pf with p_queue := removeFirstQ pf.p_queue d ee }
            ((getObj G ee.target).label) d)
            ((getObj G ee.target).label) ee).DIST (lbl G i)
            = some ((ci : ℚ) : WithTop ℚ) →
          (i = ee.target ∧ ci = q) ∨
          (i ≠ ee.target ∧ dget pf.DIST (lbl G i)
            = some ((ci : ℚ) : WithTop ℚ)) := by
        intro i hi ci hci
        by_cases hie : i = ee.target
        · rw [hie] at hci
          rw [show lbl G ee.target = (getObj G ee.target).label from rfl,
            hDself] at hci
          exact .inl ⟨hie, by exact_mod_cast (Option.some.inj hci).symm⟩
        · rw [hDlblS (lbl G i) (hlblne i hi hie)] at hci
          exact .inr ⟨hie, hci⟩
      have htopl : ∀ ℓ, dget pf.DIST ℓ = some ⊤ →
          ∀ c2 : ℚ, dget pf.DIST ℓ ≠ some ((c2 : ℚ) : WithTop ℚ) := by
        intro ℓ h c2 hc
        rw [h] at hc
        exact absurd (Option.some.inj hc) (by simp)
      -- the minimality invariant at the settled state
      have hM2 : MInv G src eph e0 ((getObj G ee.target).dotted_edges)
          ((getObj G ee.target).full_edges)
          (lastSetEdge (distSet
            { pf with p_queue := removeFirstQ pf.p_queue d ee }
            ((getObj G ee.target).label) d)
            ((getObj G ee.target).label) ee) := by
        refine ⟨?_, ?_, ?_, ?_, ?_, ?_, ?_, ?_, ?_, ?_, ?_, ?_, ?_, ?_,
          ?_, ?_, ?_⟩
        · -- m1
          intro i hi ci hci c hder2
          rcases hDpost i hi ci hci with ⟨hie, hcim⟩ | ⟨-, hpre⟩
          · rw [hcim]
            have hder3 : Deriv G eph ee.target c := hie ▸ hder2
            rcases frontier hwf' hww hM ee.target c hder3 htN
              with ⟨cu, hcu, -⟩ | ⟨p, hp, q2, hq2, hq2le⟩
            · have h7 := hM.dfin ee.target htN htS cu hcu
              rw [h7] at hnpop
              exact absurd hnpop (by simp)
            · have h8 := hmin p hp
              rw [hdq, hq2] at h8
              have h9 : ((q : ℚ) : WithTop ℚ) ≤ ((q2 : ℚ) : WithTop ℚ) := h8
              have h10 : q ≤ q2 := by exact_mod_cast h9
              linarith
          · exact hM.m1 i hi ci hpre c hder2
        · -- dach
          intro i hi ci hci
          rcases hDpost i hi ci hci with ⟨hie, hcim⟩ | ⟨-, hpre⟩
          · rw [hie, hcim]
            exact hder
          · exact hM.dach i hi ci hpre
        · -- ddom
          intro i hi
          by_cases hie : i = ee.target
          · refine ⟨((q : ℚ) : WithTop ℚ), ?_⟩
            rw [hie]
            exact hDself
          · obtain ⟨v, hv⟩ := hM.ddom i hi
            refine ⟨v, ?_⟩
            rw [hDlblS (lbl G i) (hlblne i hi hie)]
            exact hv
        · -- dfin
          intro i hi hisimp ci hci
          rcases hDpost i hi ci hci with ⟨hie, -⟩ | ⟨hine, hpre⟩
          · rw [hpopchg i]
            exact if_pos (congrArg (lbl G) hie)
          · rw [hpop_ne i hi hine]
            exact hM.dfin i hi hisimp ci hpre
        · -- dnn
          intro i hi ci hci
          rcases hDpost i hi ci hci with ⟨-, hcim⟩ | ⟨-, hpre⟩
          · rw [hcim]
            exact hq0
          · exact hM.dnn i hi ci hpre
        · -- e4
          intro p hp q2 hq2 i hi ci hci
          have hpold : p ∈ pf.p_queue := (removeFirstQ_sublist _ _ _).mem hp
          rcases hDpost i hi ci hci with ⟨-, hcim⟩ | ⟨-, hpre⟩
          · rw [hcim]
            have h8 := hmin p hpold
            rw [hdq, hq2] at h8
            have h9 : ((q : ℚ) : WithTop ℚ) ≤ ((q2 : ℚ) : WithTop ℚ) := h8
            exact_mod_cast h9
          · exact hM.e4 p hpold q2 hq2 i hi ci hpre
        · -- qcost
          intro p hp hpe0
          have hpold : p ∈ pf.p_queue := (removeFirstQ_sublist _ _ _).mem hp
          obtain ⟨hsmem, cs2, hcs2, hkey2⟩ := hM.qcost p hpold hpe0
          refine ⟨hsmem, cs2, ?_, hkey2⟩
          have hsl : lbl G p.2.source ≠ (getObj G ee.target).label := by
            intro h
            exact htopl (lbl G p.2.source) (by rw [h]; exact htop) cs2 hcs2
          rw [hDlblS (lbl G p.2.source) hsl]
          exact hcs2
        · -- e2min
          intro p hp s hs cs2 hcs2 e2 he2 hsp2 htgt2
          obtain ⟨hpold, -⟩ := hrm p hp
          rcases hDpost s hs cs2 hcs2 with ⟨hse, -⟩ | ⟨-, hspre⟩
          · exfalso
            apply hsp2
            rw [hse] at he2
            exact List.mem_map_of_mem Edge.eid he2
          · exact hM.e2min p hpold s hs cs2 hspre e2 he2 (by simp) htgt2
        · -- e2cov
          intro s hs cs2 hcs2 e2 he2 hsp2
          rcases hDpost s hs cs2 hcs2 with ⟨hse, -⟩ | ⟨-, hspre⟩
          · exfalso
            apply hsp2
            rw [hse] at he2
            exact List.mem_map_of_mem Edge.eid he2
          · rcases hM.e2cov s hs cs2 hspre e2 he2 (by simp)
              with ⟨ct, hct, hle⟩ | ⟨p2, hp2, htg2⟩
            · have hctl : lbl G e2.target
                  ≠ (getObj G ee.target).label := by
                intro h
                exact htopl (lbl G e2.target) (by rw [h]; exact htop) ct hct
              refine .inl ⟨ct, ?_, hle⟩
              rw [hDlblS (lbl G e2.target) hctl]
              exact hct
            · by_cases hm2 : p2.1 = d ∧ p2.2.eid = ee.eid
              · have htp2 : p2.2.target = ee.target :=
                  hinj p2 hp2 hm2.1 hm2.2
                have h11 : e2.target = ee.target := by
                  rw [← htg2, htp2]
                obtain ⟨q', hq'c, hq'le⟩ := hM.e2min p2 hp2 s hs cs2 hspre
                  e2 he2 (by simp) htg2.symm
                have h12 : some q = ((q' : ℚ) : WithTop ℚ) := by
                  rw [← hdq, ← hm2.1]
                  exact hq'c
                have h13 : q = q' := by
                  have h14 : some q = some ((q' : ℚ)) := h12
                  exact Option.some.inj h14
                refine .inl ⟨q, ?_, ?_⟩
                · rw [h11]
                  rw [show lbl G ee.target
                    = (getObj G ee.target).label from rfl]
                  exact hDself
                · rw [h13]
                  exact hq'le
              · exact .inr ⟨p2, removeFirstQ_mem_keep _ _ _ hp2 hm2, htg2⟩
        · -- r0pop
          intro i hi hisimp hr0
          have hr0' : dget pf.REACH (lbl G i) = some 0 := hr0
          rcases hM.r0pop i hi hisimp hr0' with hpop | ⟨p, hp, htg⟩
          · refine .inl ?_
            rw [hpopchg i]
            by_cases h : lbl G i = (getObj G ee.target).label
            · exact if_pos h
            · rw [if_neg h]
              exact hpop
          · by_cases hm2 : p.1 = d ∧ p.2.eid = ee.eid
            · have htp : p.2.target = ee.target := hinj p hp hm2.1 hm2.2
              have h15 : i = ee.target := by
                rw [← htg, htp]
              refine .inl ?_
              rw [hpopchg i]
              exact if_pos (congrArg (lbl G) h15)
            · exact .inr ⟨p, removeFirstQ_mem_keep _ _ _ hp hm2, htg⟩
        · -- creach
          intro z hz l2 hdep2 cz hcz
          rcases hDpost z hz cz hcz with ⟨hze, -⟩ | ⟨-, hpre⟩
          · exfalso
            rw [hze] at hdep2
            unfold isSimple at htS
            rw [hdep2] at htS
            exact absurd htS (by simp)
          · exact hM.creach z hz l2 hdep2 cz hpre
        · -- ephd0
          intro hpop
          by_cases hie : eph = ee.target
          · rw [show lbl G eph = (getObj G ee.target).label from
              congrArg (lbl G) hie]
            rw [hDself]
            rw [hephq hie.symm]
          · rw [hpop_ne eph hephN hie] at hpop
            rw [hDlblS (lbl G eph) (hlblne eph hephN hie)]
            exact hM.ephd0 hpop
        · -- seedq
          intro hnpop2
          have hie : eph ≠ ee.target := by
            intro h
            rw [hpopchg eph, if_pos (show lbl G eph
              = (getObj G ee.target).label from congrArg (lbl G) h)]
              at hnpop2
            exact absurd hnpop2 (by simp)
          rw [hpop_ne eph hephN hie] at hnpop2
          have hseed := hM.seedq hnpop2
          refine removeFirstQ_mem_keep _ _ _ hseed ?_
          intro hm2
          have hee : ee = e0 := by
            rcases hInv.qedges (d, ee) hmemQ with h | h
            · exact absurd hm2.2.symm
                ((List.pairwise_append.mp heid).2.2 ee h e0
                  (List.mem_singleton_self e0))
            · exact h
          apply hie
          rw [hee]
          exact he0t.symm
        · -- cmono
          intro z hz l2 hdep2 cz hcz
          rcases hDpost z hz cz hcz with ⟨hze, -⟩ | ⟨-, hpre⟩
          · exfalso
            rw [hze] at hdep2
            unfold isSimple at htS
            rw [hdep2] at htS
            exact absurd htS (by simp)
          · intro d2 hd2
            obtain ⟨cd2, hcd2, hcd2le⟩ := hM.cmono z hz l2 hdep2 cz hpre
              d2 hd2
            have hd2l : lbl G d2 ≠ (getObj G ee.target).label := by
              intro h
              exact htopl (lbl G d2) (by rw [h]; exact htop) cd2 hcd2
            refine ⟨cd2, ?_, hcd2le⟩
            rw [hDlblS (lbl G d2) hd2l]
            exact hcd2
        · -- czle
          intro z hz d2 ds2 hdep2 hpcz hallp g' hg'
          have hznotin : ee.target ∉ d2 :: ds2 := by
            intro hmem
            have h8 := hpend z hz (d2 :: ds2) hdep2
            rw [if_pos hmem, hpcz] at h8
            norm_num at h8
          have hzne : z ≠ ee.target := by
            intro h
            rw [h] at hdep2
            unfold isSimple at htS
            rw [hdep2] at htS
            exact absurd htS (by simp)
          have hallpre : ∀ x ∈ d2 :: ds2, poppedB G pf x = true := by
            intro x hx
            have hxne : x ≠ ee.target := fun h => hznotin (h ▸ hx)
            have h9 := hallp x hx
            rw [hpop_ne x ((hcmp z hz (d2 :: ds2) hdep2).2.2.2.1 x hx).1
              hxne] at h9
            exact h9
          have hg'pre : ∀ x ∈ d2 :: ds2,
              dget pf.DIST (lbl G x) = some ((g' x : ℚ) : WithTop ℚ) := by
            intro x hx
            have hxne : x ≠ ee.target := fun h => hznotin (h ▸ hx)
            have hxN : x ∈ getNodes G :=
              ((hcmp z hz (d2 :: ds2) hdep2).2.2.2.1 x hx).1
            have h5 := hg' x hx
            rw [hDlblS (lbl G x) (hlblne x hxN hxne)] at h5
            exact h5
          obtain ⟨cz, hcz, hle⟩ := hM.czle z hz d2 ds2 hdep2 (by simp)
            hallpre g' hg'pre
          refine ⟨cz, ?_, hle⟩
          rw [hDlblS (lbl G z) (hlblne z hz hzne)]
          exact hcz
        · -- mono
          intro i hi e' hlast he'ne0
          by_cases hie : i = ee.target
          · have hlast2 : dget (dset pf.LAST ((getObj G ee.target).label)
                (.edge ee)) ((getObj G ee.target).label)
                = some (.edge e') := by
              have hlast3 := hlast
              rw [hie] at hlast3
              exact hlast3
            rw [dget_dset_self] at hlast2
            have he'ee : ee = e' := by
              have h16 := Option.some.inj hlast2
              injection h16 with h17
            rcases hqinfo with ⟨hne0, hwn, cs, hcs, hqeq, hsrcN⟩
              | ⟨hee, -⟩
            · have hsl : lbl G ee.source
                  ≠ (getObj G ee.target).label := by
                intro h
                exact htopl (lbl G ee.source) (by rw [h]; exact htop)
                  cs hcs
              refine ⟨cs, q, ?_, ?_, ?_⟩
              · rw [← he'ee]
                rw [hDlblS (lbl G ee.source) hsl]
                exact hcs
              · rw [hie]
                rw [show lbl G ee.target
                  = (getObj G ee.target).label from rfl]
                exact hDself
              · rw [← he'ee]
                exact hqeq
            · exfalso
              apply he'ne0
              rw [← he'ee, hee]
          · have hlast2 : dget pf.LAST (lbl G i) = some (.edge e') := by
              have h18 : dget (dset pf.LAST ((getObj G ee.target).label)
                  (.edge ee)) (lbl G i) = some (.edge e') := hlast
              rw [dget_dset_ne _ _ (hlblne i hi hie)] at h18
              exact h18
            obtain ⟨cs', ci', hcs', hci', heq'⟩ := hM.mono i hi e'
              hlast2 he'ne0
            have hsl : lbl G e'.source ≠ (getObj G ee.target).label := by
              intro h
              exact htopl (lbl G e'.source) (by rw [h]; exact htop)
                cs' hcs'
            refine ⟨cs', ci', ?_, ?_, heq'⟩
            · rw [hDlblS (lbl G e'.source) hsl]
              exact hcs'
            · rw [hDlblS (lbl G i) (hlblne i hi hie)]
              exact hci'
        · -- lastE
          intro i hi e' hlast
          by_cases hie : i = ee.target
          · have hlast2 : dget (dset pf.LAST ((getObj G ee.target).label)
                (.edge ee)) ((getObj G ee.target).label)
                = some (.edge e') := by
              have hlast3 := hlast
              rw [hie] at hlast3
              exact hlast3
            rw [dget_dset_self] at hlast2
            have he'ee : ee = e' := by
              have h16 := Option.some.inj hlast2
              injection h16 with h17
            rw [← he'ee]
            exact hInv.qedges (d, ee) hmemQ
          · have hlast2 : dget pf.LAST (lbl G i) = some (.edge e') := by
              have h18 : dget (dset pf.LAST ((getObj G ee.target).label)
                  (.edge ee)) (lbl G i) = some (.edge e') := hlast
              rw [dget_dset_ne _ _ (hlblne i hi hie)] at h18
              exact h18
            exact hM.lastE i hi e' hlast2
      -- scans of the settled node's full edges
      have hubPF2 : ∀ i ∈ getNodes G, ∀ ci : ℚ,
          dget (lastSetEdge (distSet
            { pf with p_queue := removeFirstQ pf.p_queue d ee }
            ((getObj G ee.target).label) d)
            ((getObj G ee.target).label) ee).DIST (lbl G i)
            = some ((ci : ℚ) : WithTop ℚ) → ci ≤ q := by
        intro i hi ci hci
        rcases hDpost i hi ci hci with ⟨-, hcim⟩ | ⟨-, hpre⟩
        · exact le_of_eq hcim
        · have hdql : (d, ee).1 = ((q : ℚ) : WithTop ℚ) := hdq
          exact hM.e4 (d, ee) hmemQ q hdql i hi ci hpre
      have hfulln : (((getObj G ee.target).full_edges).map Edge.eid).Nodup :=
        full_eids_nodup heidG (hnv ee.target htN)
      split at hstep
      · exact Except.noConfusion hstep
      · next pf3 heq2 =>
        have heq2' : (getObj G ee.target).full_edges.foldlM
            (fun p e => scan G p e)
            (lastSetEdge (distSet
              { pf with p_queue := removeFirstQ pf.p_queue d ee }
              ((getObj G ee.target).label) d)
              ((getObj G ee.target).label) ee) = .ok pf3 := heq2
        obtain ⟨hInv3, hM3, hd3, hl3⟩ := scanFold_m hwf' hww hInv2 hM2 heq2'
          htN htR (fun e2 h2 => h2) hfulln hDself hubPF2
        have hqt3 : dget pf3.DIST ((getObj G ee.target).label)
            = some ((q : ℚ) : WithTop ℚ) := by
          rw [hd3]
          exact hDself
        have hub3 : ∀ i ∈ getNodes G, ∀ ci : ℚ,
            dget pf3.DIST (lbl G i) = some ((ci : ℚ) : WithTop ℚ) →
              ci ≤ q := by
          intro i hi ci hci
          rw [hd3] at hci
          exact hubPF2 i hi ci hci
        have hstep' : (getObj G ee.target).dotted_edges.foldlM
            (fun p e => dottedStep G p e) pf3 = .ok pf' := hstep
        obtain ⟨hInvF, hMF⟩ := dottedFold_m hwf' hww hInv3 hM3 hstep'
          htN (List.Sublist.refl _) hqt3 hub3
        exact ⟨hInvF, hMF⟩

theorem pfLoop_inv {G : Hypergraph} {src : List NodeId} {eph : NodeId}
    {e0 : Edge} {fuel : Nat} {pf pf' : PF}
    (hwf : WFRun G src eph e0)
    (hInv : Inv G src eph e0 pf)
    (hrun : pfLoop G fuel pf = .ok pf') :
    Inv G src eph e0 pf' := by
  induction fuel generalizing pf with
  | zero => exact Except.noConfusion hrun
  | succ n ih =>
    unfold pfLoop at hrun
    split at hrun
    · injection hrun with h
      subst h
      exact hInv
    · split at hrun
      · exact Except.noConfusion hrun
      · next pf1 heq =>
        exact ih (pfStep_inv hwf hInv heq) hrun

/-- Both invariant layers are preserved by the whole closure loop. -/
theorem pfLoop_m {G : Hypergraph} {src : List NodeId} {eph : NodeId}
    {e0 : Edge} {fuel : Nat} {pf pf' : PF}
    (hwf : WFRun G src eph e0) (hww : WFW G)
    (hInv : Inv G src eph e0 pf)
    (hM : MInv G src eph e0 [] [] pf)
    (hrun : pfLoop G fuel pf = .ok pf') :
    Inv G src eph e0 pf' ∧ MInv G src eph e0 [] [] pf' := by
  induction fuel generalizing pf with
  | zero => exact Except.noConfusion hrun
  | succ n ih =>
    unfold pfLoop at hrun
    split at hrun
    · injection hrun with h
      subst h
      exact ⟨hInv, hM⟩
    · split at hrun
      · exact Except.noConfusion hrun
      · next pf1 heq =>
        obtain ⟨hInv1, hM1⟩ := pfStep_m hwf hww hInv hM heq
        exact ih hInv1 hM1 hrun

theorem mem_simple_of_getNodes {G : Hypergraph}
    (hci : ∀ i ∈ G.compnd_nodes, isSimple G i = false) {i : NodeId}
    (hi : i ∈ getNodes G) (hs : isSimple G i = true) :
    i ∈ G.simple_nodes := by
  unfold getNodes at hi
  rcases List.mem_append.mp hi with h | h
  · exact h
  · rw [hci i h] at hs
    exact absurd hs (by simp)

theorem mem_compnd_of_getNodes {G : Hypergraph}
    (hsi : ∀ i ∈ G.simple_nodes, isSimple G i = true) {z : NodeId}
    {l : List NodeId} (hz : z ∈ getNodes G)
    (hdep : (getObj G z).dependencies = some l) :
    z ∈ G.compnd_nodes := by
  unfold getNodes at hz
  rcases List.mem_append.mp hz with h | h
  · have h2 := hsi z h
    unfold isSimple at h2
    rw [hdep] at h2
    exact absurd h2 (by simp)
  · exact h

/-- Running `findPaths` from a fresh pathfinder yields a state satisfying
the loop invariant, provided the graph it built (the input graph plus the
ephemeral "source" node) is well-formed. -/
theorem findPaths_inv {hg hg2 : Hypergraph} {source : List NodeArg}
    {fuel : Nat} {pf : PF}
    (hrun : findPaths hg blankPF source fuel = .ok (hg2, pf))
    (hwf : WFRun hg2 pf.source_set pf.source (seedEdge hg2 pf.source)) :
    Inv hg2 pf.source_set pf.source (seedEdge hg2 pf.source) pf := by
  unfold findPaths at hrun
  split at hrun
  · exact Except.noConfusion hrun
  · next hg1 pf1 hcs =>
    split at hrun
    · exact Except.noConfusion hrun
    · next pf2 hid =>
      split at hrun
      · exact Except.noConfusion hrun
      · next pf4 hlp =>
        injection hrun with hrun
        injection hrun with hhg hpf
        subst hpf
        subst hhg
        set G2 : Hypergraph := { hg1 with nextEid := hg1.nextEid + 1 }
          with hG2
        obtain ⟨hs1, hs2⟩ := pfLoop_src hlp
        have hsrc : pf4.source = pf2.source := hs1
        have hss : pf4.source_set = pf2.source_set := hs2
        have he0 : Edge.mk hg1.nextEid pf2.source pf2.source 0
            (mkRelationship "equivalent#rel" none)
            = seedEdge G2 pf4.source := by
          unfold seedEdge
          rw [← hsrc]
          rfl
        rw [he0] at hlp
        rw [← hsrc] at hlp
        set PF3 : PF := reachSet
          (PF.mk pf2.source_set pf4.source pf2.REACH pf2.DIST pf2.LAST
            [(((0 : ℚ) : WithTop ℚ), seedEdge G2 pf4.source)]
            pf2.sim_edges)
          ((getObj G2 pf4.source).label) 0 with hPF3
        -- characterise the initialised dictionaries
        obtain ⟨hpw, hnd, hnv, hsi, hci, hephm, hephe, hephd, hsrcm, hloc,
          hcmp, heid, he0t⟩ := hwf
        have hwf' : WFRun G2 pf4.source_set pf4.source
            (seedEdge G2 pf4.source) := ⟨hpw, hnd, hnv, hsi, hci, hephm,
          hephe, hephd, hsrcm, hloc, hcmp, heid, he0t⟩
        unfold initData at hid
        have hcpair : hg1.compnd_nodes.Pairwise
            (fun a b => (getObj hg1 a).label ≠ (getObj hg1 b).label) := by
          have h2 : (getNodes G2).Pairwise
              (fun i j => lbl G2 i ≠ lbl G2 j) := hpw
          unfold getNodes at h2
          have h3 := (List.pairwise_append.mp h2).2.1
          exact h3
        obtain ⟨c1, c2, cL, cQ, cS, cSS⟩ :=
          initCompFold hg1 hg1.compnd_nodes _ pf2 hid hcpair
        obtain ⟨s1, s2, s3, -, -, -⟩ := initSimpleFold hg1 hg1.simple_nodes
          { pf1 with REACH := [], DIST := [], LAST := [] }
        -- simple-node dictionary values survive the compound fold
        have hcross : ∀ i ∈ hg1.simple_nodes, ∀ z ∈ hg1.compnd_nodes,
            (getObj hg1 z).label ≠ (getObj hg1 i).label := by
          intro i hi z hz
          have h2 : (getNodes G2).Pairwise
              (fun i j => lbl G2 i ≠ lbl G2 j) := hpw
          unfold getNodes at h2
          exact Ne.symm ((List.pairwise_append.mp h2).2.2 i hi z hz)
        have hSimp : ∀ i ∈ hg1.simple_nodes,
            dget pf2.REACH ((getObj hg1 i).label) = some 1 ∧
            dget pf2.DIST ((getObj hg1 i).label) = some ⊤ ∧
            dget pf2.LAST ((getObj hg1 i).label) = some .strNone := by
          intro i hi
          have hany : hg1.simple_nodes.any
              (fun j => (getObj hg1 j).label == (getObj hg1 i).label)
              = true :=
            List.any_eq_true.mpr ⟨i, hi, by simp⟩
          obtain ⟨e1, e2⟩ := c2 ((getObj hg1 i).label)
            (fun z hz => hcross i hi z hz)
          refine ⟨?_, ?_, ?_⟩
          · rw [e1, s1, if_pos hany]
          · rw [e2, s2, if_pos hany]
          · rw [cL, s3, if_pos hany]
        have hLchar : ∀ ℓ v, dget pf2.LAST ℓ = some v →
            v = LastVal.strNone ∧ ∃ i ∈ hg1.simple_nodes,
              (getObj hg1 i).label = ℓ := by
          intro ℓ v hv
          rw [cL, s3] at hv
          by_cases hany : hg1.simple_nodes.any
              (fun j => (getObj hg1 j).label == ℓ) = true
          · rw [if_pos hany] at hv
            obtain ⟨i, hi, hlbl⟩ := List.any_eq_true.mp hany
            exact ⟨(Option.some.inj hv).symm, i, hi, by simpa using hlbl⟩
          · rw [if_neg hany] at hv
            exact absurd hv (by simp [dget])
        have hPB : ∀ i : NodeId, poppedB G2 PF3 i = false := by
          intro i
          unfold poppedB
          rcases hv : dget pf2.LAST (lbl G2 i) with - | v
          · rw [show dget PF3.LAST (lbl G2 i)
              = dget pf2.LAST (lbl G2 i) from rfl, hv]
          · obtain ⟨hstr, -⟩ := hLchar (lbl G2 i) v hv
            subst hstr
            rw [show dget PF3.LAST (lbl G2 i)
              = dget pf2.LAST (lbl G2 i) from rfl, hv]
        have hephN : pf4.source ∈ getNodes G2 :=
          List.mem_append_left _ hephm
        have hephS : isSimple G2 pf4.source = true := hsi pf4.source hephm
        have hInv3 : Inv G2 pf4.source_set pf4.source
            (seedEdge G2 pf4.source) PF3 := by
          have hRne : ∀ i ∈ getNodes G2, i ≠ pf4.source →
              dget (dset pf2.REACH ((getObj G2 pf4.source).label) 0)
                (lbl G2 i) = dget pf2.REACH (lbl G2 i) := by
            intro i hi hine
            exact dget_dset_ne _ _
              (fun h => hine (label_inj hpw hi hephN h))
          refine ⟨rfl, hss.symm, ?_, ?_, ?_, ?_, ?_, ?_, ?_, ?_, ?_,
            ?_, ?_⟩
          · intro p hp
            rw [List.mem_singleton.mp hp]
            refine ⟨hephN, hephS, .inl rfl, ?_, hPB pf4.source, 0, rfl,
              Deriv.base⟩
            show dget (dset pf2.REACH ((getObj G2 pf4.source).label) 0)
              ((getObj G2 pf4.source).label) = some 0
            exact dget_dset_self _ _ _
          · exact List.pairwise_singleton _ _
          · intro p hp
            rw [List.mem_singleton.mp hp]
            exact .inr rfl
          · intro i hi his
            by_cases hie : lbl G2 i = (getObj G2 pf4.source).label
            · refine ⟨0, ?_, .inl rfl⟩
              show dget (dset pf2.REACH ((getObj G2 pf4.source).label) 0)
                (lbl G2 i) = some 0
              rw [hie]
              exact dget_dset_self _ _ _
            · refine ⟨1, ?_, .inr rfl⟩
              show dget (dset pf2.REACH ((getObj G2 pf4.source).label) 0)
                (lbl G2 i) = some 1
              rw [dget_dset_ne _ _ hie]
              exact (hSimp i (mem_simple_of_getNodes hci hi his)).1
          · intro i hi his hun
            have hine : i ≠ pf4.source := fun h => hun (.inl h)
            obtain ⟨e1, e2, e3⟩ := hSimp i (mem_simple_of_getNodes hci hi his)
            exact ⟨(hRne i hi hine).symm ▸ e1, e2, e3⟩
          · intro i hi hpop
            rw [hPB i] at hpop
            exact absurd hpop (by simp)
          · intro i hi hpop
            rw [hPB i] at hpop
            exact absurd hpop (by simp)
          · intro ℓ v hv
            have hv2 : dget pf2.LAST ℓ = some v := hv
            obtain ⟨-, i, hi, hlbl⟩ := hLchar ℓ v hv2
            exact ⟨i, List.mem_append_left _ hi, hsi i hi, hlbl⟩
          · intro z hz l hdep
            have hzc : z ∈ G2.compnd_nodes :=
              mem_compnd_of_getNodes hsi hz hdep
            have hzne : z ≠ pf4.source := by
              intro h
              have := hci z hzc
              rw [h, hephS] at this
              exact absurd this (by simp)
            obtain ⟨e1, -⟩ := c1 z hzc l hdep
            have hfe : (l.filter (fun d => poppedB G2 PF3 d)) = [] :=
              List.filter_eq_nil_iff.mpr (fun d _ => by rw [hPB d]; simp)
            rw [hfe]
            show dget (dset pf2.REACH ((getObj G2 pf4.source).label) 0)
              (lbl G2 z)
              = some ((l.length : Int)
                - ((List.length ([] : List NodeId)) : Int)
                + (((([] : List Edge).filter
                    (fun e2 => e2.target = z)).length) : Int))
            rw [hRne z hz hzne]
            rw [show dget pf2.REACH (lbl G2 z)
              = some (l.length : Int) from e1]
            norm_num
          · intro z hz l hdep hlne hall
            rcases l with - | ⟨dd, ds⟩
            · exact absurd rfl hlne
            · have := hall dd (List.mem_cons_self dd ds)
              rw [hPB dd] at this
              exact absurd this (by simp)
          · intro z hz l hdep hex
            have hzc : z ∈ G2.compnd_nodes :=
              mem_compnd_of_getNodes hsi hz hdep
            exact (c1 z hzc l hdep).2
        exact pfLoop_inv hwf' hInv3 hlp

/-- Both invariant layers hold at the end of a successful `findPaths` run:
in the initial state every distance is infinite and the queue holds exactly
the zero-keyed seed edge, so the minimality invariant is vacuous or
immediate, and the loop preserves it. -/
theorem findPaths_m {hg hg2 : Hypergraph} {source : List NodeArg}
    {fuel : Nat} {pf : PF}
    (hrun : findPaths hg blankPF source fuel = .ok (hg2, pf))
    (hwf : WFRun hg2 pf.source_set pf.source (seedEdge hg2 pf.source))
    (hww : WFW hg2) :
    Inv hg2 pf.source_set pf.source (seedEdge hg2 pf.source) pf ∧
    MInv hg2 pf.source_set pf.source (seedEdge hg2 pf.source) [] [] pf := by
  have hInvFin := findPaths_inv hrun hwf
  unfold findPaths at hrun
  split at hrun
  · exact Except.noConfusion hrun
  · next hg1 pf1 hcs =>
    split at hrun
    · exact Except.noConfusion hrun
    · next pf2 hid =>
      split at hrun
      · exact Except.noConfusion hrun
      · next pf4 hlp =>
        injection hrun with hrun
        injection hrun with hhg hpf
        subst hpf
        subst hhg
        set G2 : Hypergraph := { hg1 with nextEid := hg1.nextEid + 1 }
          with hG2
        obtain ⟨hs1, hs2⟩ := pfLoop_src hlp
        have hsrc : pf4.source = pf2.source := hs1
        have hss : pf4.source_set = pf2.source_set := hs2
        have he0 : Edge.mk hg1.nextEid pf2.source pf2.source 0
            (mkRelationship "equivalent#rel" none)
            = seedEdge G2 pf4.source := by
          unfold seedEdge
          rw [← hsrc]
          rfl
        rw [he0] at hlp
        rw [← hsrc] at hlp
        set PF3 : PF := reachSet
          (PF.mk pf2.source_set pf4.source pf2.REACH pf2.DIST pf2.LAST
            [(((0 : ℚ) : WithTop ℚ), seedEdge G2 pf4.source)]
            pf2.sim_edges)
          ((getObj G2 pf4.source).label) 0 with hPF3
        obtain ⟨hpw, hnd, hnv, hsi, hci, hephm, hephe, hephd, hsrcm, hloc,
          hcmp, heid, he0t⟩ := hwf
        have hwf' : WFRun G2 pf4.source_set pf4.source
            (seedEdge G2 pf4.source) := ⟨hpw, hnd, hnv, hsi, hci, hephm,
          hephe, hephd, hsrcm, hloc, hcmp, heid, he0t⟩
        unfold initData at hid
        have hcpair : hg1.compnd_nodes.Pairwise
            (fun a b => (getObj hg1 a).label ≠ (getObj hg1 b).label) := by
          have h2 : (getNodes G2).Pairwise
              (fun i j => lbl G2 i ≠ lbl G2 j) := hpw
          unfold getNodes at h2
          have h3 := (List.pairwise_append.mp h2).2.1
          exact h3
        obtain ⟨c1, c2, cL, cQ, cS, cSS⟩ :=
          initCompFold hg1 hg1.compnd_nodes _ pf2 hid hcpair
        have hdepsAll : ∀ z ∈ hg1.compnd_nodes, ∃ dl,
            (getObj hg1 z).dependencies = some dl :=
          initCompFold_deps hg1 hg1.compnd_nodes _ pf2 hid
        obtain ⟨s1, s2, s3, -, -, -⟩ := initSimpleFold hg1 hg1.simple_nodes
          { pf1 with REACH := [], DIST := [], LAST := [] }
        have hcross : ∀ i ∈ hg1.simple_nodes, ∀ z ∈ hg1.compnd_nodes,
            (getObj hg1 z).label ≠ (getObj hg1 i).label := by
          intro i hi z hz
          have h2 : (getNodes G2).Pairwise
              (fun i j => lbl G2 i ≠ lbl G2 j) := hpw
          unfold getNodes at h2
          exact Ne.symm ((List.pairwise_append.mp h2).2.2 i hi z hz)
        have hSimp : ∀ i ∈ hg1.simple_nodes,
            dget pf2.REACH ((getObj hg1 i).label) = some 1 ∧
            dget pf2.DIST ((getObj hg1 i).label) = some ⊤ ∧
            dget pf2.LAST ((getObj hg1 i).label) = some .strNone := by
          intro i hi
          have hany : hg1.simple_nodes.any
              (fun j => (getObj hg1 j).label == (getObj hg1 i).label)
              = true :=
            List.any_eq_true.mpr ⟨i, hi, by simp⟩
          obtain ⟨e1, e2⟩ := c2 ((getObj hg1 i).label)
            (fun z hz => hcross i hi z hz)
          refine ⟨?_, ?_, ?_⟩
          · rw [e1, s1, if_pos hany]
          · rw [e2, s2, if_pos hany]
          · rw [cL, s3, if_pos hany]
        have hLchar : ∀ ℓ v, dget pf2.LAST ℓ = some v →
            v = LastVal.strNone ∧ ∃ i ∈ hg1.simple_nodes,
              (getObj hg1 i).label = ℓ := by
          intro ℓ v hv
          rw [cL, s3] at hv
          by_cases hany : hg1.simple_nodes.any
              (fun j => (getObj hg1 j).label == ℓ) = true
          · rw [if_pos hany] at hv
            obtain ⟨i, hi, hlbl⟩ := List.any_eq_true.mp hany
            exact ⟨(Option.some.inj hv).symm, i, hi, by simpa using hlbl⟩
          · rw [if_neg hany] at hv
            exact absurd hv (by simp [dget])
        have hPB : ∀ i : NodeId, poppedB G2 PF3 i = false := by
          intro i
          unfold poppedB
          rcases hv : dget pf2.LAST (lbl G2 i) with - | v
          · rw [show dget PF3.LAST (lbl G2 i)
              = dget pf2.LAST (lbl G2 i) from rfl, hv]
          · obtain ⟨hstr, -⟩ := hLchar (lbl G2 i) v hv
            subst hstr
            rw [show dget PF3.LAST (lbl G2 i)
              = dget pf2.LAST (lbl G2 i) from rfl, hv]
        have hephN : pf4.source ∈ getNodes G2 :=
          List.mem_append_left _ hephm
        have hephS : isSimple G2 pf4.source = true := hsi pf4.source hephm
        have hInv3 : Inv G2 pf4.source_set pf4.source
            (seedEdge G2 pf4.source) PF3 := by
          have hRne : ∀ i ∈ getNodes G2, i ≠ pf4.source →
              dget (dset pf2.REACH ((getObj G2 pf4.source).label) 0)
                (lbl G2 i) = dget pf2.REACH (lbl G2 i) := by
            intro i hi hine
            exact dget_dset_ne _ _
              (fun h => hine (label_inj hpw hi hephN h))
          refine ⟨rfl, hss.symm, ?_, ?_, ?_, ?_, ?_, ?_, ?_, ?_, ?_,
            ?_, ?_⟩
          · intro p hp
            rw [List.mem_singleton.mp hp]
            refine ⟨hephN, hephS, .inl rfl, ?_, hPB pf4.source, 0, rfl,
              Deriv.base⟩
            show dget (dset pf2.REACH ((getObj G2 pf4.source).label) 0)
              ((getObj G2 pf4.source).label) = some 0
            exact dget_dset_self _ _ _
          · exact List.pairwise_singleton _ _
          · intro p hp
            rw [List.mem_singleton.mp hp]
            exact .inr rfl
          · intro i hi his
            by_cases hie : lbl G2 i = (getObj G2 pf4.source).label
            · refine ⟨0, ?_, .inl rfl⟩
              show dget (dset pf2.REACH ((getObj G2 pf4.source).label) 0)
                (lbl G2 i) = some 0
              rw [hie]
              exact dget_dset_self _ _ _
            · refine ⟨1, ?_, .inr rfl⟩
              show dget (dset pf2.REACH ((getObj G2 pf4.source).label) 0)
                (lbl G2 i) = some 1
              rw [dget_dset_ne _ _ hie]
              exact (hSimp i (mem_simple_of_getNodes hci hi his)).1
          · intro i hi his hun
            have hine : i ≠ pf4.source := fun h => hun (.inl h)
            obtain ⟨e1, e2, e3⟩ := hSimp i (mem_simple_of_getNodes hci hi his)
            exact ⟨(hRne i hi hine).symm ▸ e1, e2, e3⟩
          · intro i hi hpop
            rw [hPB i] at hpop
            exact absurd hpop (by simp)
          · intro i hi hpop
            rw [hPB i] at hpop
            exact absurd hpop (by simp)
          · intro ℓ v hv
            have hv2 : dget pf2.LAST ℓ = some v := hv
            obtain ⟨-, i, hi, hlbl⟩ := hLchar ℓ v hv2
            exact ⟨i, List.mem_append_left _ hi, hsi i hi, hlbl⟩
          · intro z hz l hdep
            have hzc : z ∈ G2.compnd_nodes :=
              mem_compnd_of_getNodes hsi hz hdep
            have hzne : z ≠ pf4.source := by
              intro h
              have h4 := hci z hzc
              rw [h, hephS] at h4
              exact absurd h4 (by simp)
            obtain ⟨e1, -⟩ := c1 z hzc l hdep
            have hfe : (l.filter (fun d => poppedB G2 PF3 d)) = [] :=
              List.filter_eq_nil_iff.mpr (fun d _ => by rw [hPB d]; simp)
            rw [hfe]
            show dget (dset pf2.REACH ((getObj G2 pf4.source).label) 0)
              (lbl G2 z)
              = some ((l.length : Int)
                - ((List.length ([] : List NodeId)) : Int)
                + (((([] : List Edge).filter
                    (fun e2 => e2.target = z)).length) : Int))
            rw [hRne z hz hzne]
            rw [show dget pf2.REACH (lbl G2 z)
              = some (l.length : Int) from e1]
            norm_num
          · intro z hz l hdep hlne hall
            rcases l with - | ⟨dd, ds⟩
            · exact absurd rfl hlne
            · have h4 := hall dd (List.mem_cons_self dd ds)
              rw [hPB dd] at h4
              exact absurd h4 (by simp)
          · intro z hz l hdep hex
            have hzc : z ∈ G2.compnd_nodes :=
              mem_compnd_of_getNodes hsi hz hdep
            exact (c1 z hzc l hdep).2
        -- every distance starts at infinity, so the minimality layer is
        -- vacuous except for the seed entry
        have hDtop : ∀ i ∈ getNodes G2, dget PF3.DIST (lbl G2 i)
            = some (⊤ : WithTop ℚ) := by
          intro i hi
          have hi2 : i ∈ hg1.simple_nodes ++ hg1.compnd_nodes := hi
          rcases List.mem_append.mp hi2 with h | h
          · exact (hSimp i h).2.1
          · obtain ⟨dl, hdl⟩ := hdepsAll i h
            exact (c1 i h dl hdl).2
        have hnofin : ∀ i ∈ getNodes G2, ∀ ci : ℚ,
            dget PF3.DIST (lbl G2 i) = some ((ci : ℚ) : WithTop ℚ) →
            False := by
          intro i hi ci hci
          rw [hDtop i hi] at hci
          exact absurd (Option.some.inj hci).symm (by simp)
        have hM3 : MInv G2 pf4.source_set pf4.source
            (seedEdge G2 pf4.source) [] [] PF3 := by
          refine ⟨?_, ?_, ?_, ?_, ?_, ?_, ?_, ?_, ?_, ?_, ?_, ?_, ?_, ?_,
            ?_, ?_, ?_⟩
          · intro i hi ci hci c hder
            exact (hnofin i hi ci hci).elim
          · intro i hi ci hci
            exact (hnofin i hi ci hci).elim
          · intro i hi
            exact ⟨⊤, hDtop i hi⟩
          · intro i hi his ci hci
            exact (hnofin i hi ci hci).elim
          · intro i hi ci hci
            exact (hnofin i hi ci hci).elim
          · intro p hp q2 hq2 i hi ci hci
            exact (hnofin i hi ci hci).elim
          · intro p hp hpe0
            have hp' := List.mem_singleton.mp hp
            exact absurd (show p.2.eid = (seedEdge G2 pf4.source).eid by
              rw [hp']) hpe0
          · intro p hp s hs cs2 hcs2 e2 he2 hsp2 htgt2
            exact (hnofin s hs cs2 hcs2).elim
          · intro s hs cs2 hcs2 e2 he2 hsp2
            exact (hnofin s hs cs2 hcs2).elim
          · intro i hi his hr0
            by_cases hie : lbl G2 i = (getObj G2 pf4.source).label
            · refine .inr ⟨(((0 : ℚ) : WithTop ℚ), seedEdge G2 pf4.source),
                List.mem_singleton_self _, ?_⟩
              rw [he0t]
              exact (label_inj hpw hi hephN hie).symm
            · have hr0' : dget (dset pf2.REACH
                  ((getObj G2 pf4.source).label) 0) (lbl G2 i)
                  = some 0 := hr0
              rw [dget_dset_ne _ _ hie] at hr0'
              have h2 : dget pf2.REACH (lbl G2 i) = some 1 :=
                (hSimp i (mem_simple_of_getNodes hci hi his)).1
              rw [h2] at hr0'
              exact absurd hr0' (by simp)
          · intro z hz l hdep cz hcz
            exact (hnofin z hz cz hcz).elim
          · intro hpop
            rw [hPB pf4.source] at hpop
            exact absurd hpop (by simp)
          · intro hnp
            exact List.mem_singleton_self _
          · intro z hz l hdep cz hcz
            exact (hnofin z hz cz hcz).elim
          · intro z hz d2 ds2 hdep hpc hallp g hg
            exfalso
            have h4 := hallp d2 (List.mem_cons_self d2 ds2)
            rw [hPB d2] at h4
            exact absurd h4 (by simp)
          · intro i hi e hlast hne0
            have hl2 : dget pf2.LAST (lbl G2 i) = some (.edge e) := hlast
            exact LastVal.noConfusion (hLchar _ _ hl2).1
          · intro i hi e hlast
            have hl2 : dget pf2.LAST (lbl G2 i) = some (.edge e) := hlast
            exact LastVal.noConfusion (hLchar _ _ hl2).1
        obtain ⟨-, hMF⟩ := pfLoop_m hwf' hww hInv3 hM3 hlp
        exact ⟨hInvFin, hMF⟩

theorem except_bind_ok {α β : Type} (a : α) (f : α → Except PyErr β) :
    ((Except.ok a : Except PyErr α) >>= f) = f a := rfl

/-- A node with no incoming full edges, no dependency list and outside the
source set is unreachable. -/
theorem not_reachable_no_incoming (hg : Hypergraph) (S : List NodeId)
    (n : NodeId) (h1 : n ∉ S)
    (h2 : ∀ o ∈ hg.arena, ∀ e ∈ o.full_edges, e.target ≠ n)
    (h3 : (getObj hg n).dependencies = none) :
    ¬ ReachableFrom hg S n := by
  intro h
  revert h1 h2 h3
  cases h with
  | src hmem =>
    intro h1 _ _
    exact h1 hmem
  | @full s e hr he =>
    intro _ h2 _
    by_cases hs : s < hg.arena.length
    · exact h2 _ (getObj_mem hs) e he rfl
    · rw [getObj_default hs] at he
      exact absurd he (List.not_mem_nil e)
  | cmpnd hd hall =>
    intro _ _ h3
    rw [h3] at hd
    exact Option.noConfusion hd

set_option maxRecDepth 4000 in
/-- C6, amended.  The claim's first two parts hold on well-formed graphs:
after `findPaths` from a source set, a node `n` that is not reachable
(respecting AND-join completeness) keeps `DIST[n] = float('inf')` and a
nonzero `REACH` counter, so `getPath(n)` returns the explicit `None`
result.  The claim's third part is corrected: `simulate` targeting such a
node does NOT report an explicit "unreachable" result — `simulationHelper`
finds the string `"None"` in `LAST` and the `edge.rel` attribute access
raises AttributeError (for a Simple target; a Compound target dies earlier
with a KeyError, its label never having been written to `LAST`). -/
theorem c6_amended (hg hg2 : Hypergraph) (source : List NodeArg)
    (fuel : Nat) (pf : PF) (n : NodeId)
    (hrun : findPaths hg blankPF source fuel = .ok (hg2, pf))
    (hwf : WFRun hg2 pf.source_set pf.source (seedEdge hg2 pf.source))
    (hn : n ∈ getNodes hg2) (hne : n ≠ pf.source)
    (hunreach : ¬ ReachableFrom hg2 pf.source_set n) :
    dget pf.DIST ((getObj hg2 n).label) = some ⊤ ∧
    (∃ r : Int, dget pf.REACH ((getObj hg2 n).label) = some r ∧ r ≠ 0) ∧
    (∀ gfuel, getPath hg2 pf n gfuel = .ok none) ∧
    (∀ inputs sfuel, isSimple hg2 n = true →
      nodeInInputs hg2 n inputs = false →
      simulationHelper hg2 pf n inputs (sfuel + 1)
        = .error .attributeError) ∧
    (∀ inputs sfuel, isSimple hg2 n = false →
      nodeInInputs hg2 n inputs = false →
      simulationHelper hg2 pf n inputs (sfuel + 1)
        = .error .keyError) := by
  have hInv := findPaths_inv hrun hwf
  obtain ⟨hpw, hnd, hnv, hsi, hci, hephm, hephe, hephd, hsrcm, hloc, hcmp,
    heid, he0t⟩ := hwf
  have hgetPath : ∀ r : Int,
      dget pf.REACH ((getObj hg2 n).label) = some r → r ≠ 0 →
      ∀ gfuel, getPath hg2 pf n gfuel = .ok none := by
    intro r hre hr0 gfuel
    unfold getPath
    rw [show reachGet pf ((getObj hg2 n).label) = .ok r from by
      unfold reachGet; rw [hre]]
    rw [except_bind_ok]
    rw [if_pos hr0]
  cases hsimp : isSimple hg2 n with
  | true =>
    have huns : ¬(n = pf.source ∨ ReachableFrom hg2 pf.source_set n) := by
      rintro (h | h)
      · exact hne h
      · exact hunreach h
    obtain ⟨hr1, hd1, hl1⟩ := hInv.untS n hn hsimp huns
    refine ⟨hd1, ⟨1, hr1, by decide⟩, hgetPath 1 hr1 (by decide), ?_, ?_⟩
    · intro inputs sfuel _ hni
      show simulationHelper hg2 pf n inputs (sfuel + 1)
        = .error .attributeError
      rw [simulationHelper]
      rw [hni]
      rw [if_neg (by simp)]
      rw [show lastGetRaw pf ((getObj hg2 n).label) = .ok .strNone from by
        unfold lastGetRaw
        rw [show dget pf.LAST ((getObj hg2 n).label) = some .strNone
          from hl1]]
    · intro inputs sfuel hfalse _
      exact absurd hfalse (by simp)
  | false =>
    rcases hdep : (getObj hg2 n).dependencies with - | l
    · exfalso
      unfold isSimple at hsimp
      rw [hdep] at hsimp
      exact absurd hsimp (by simp)
    obtain ⟨hlne, hlnd, hleph, hldep, -, -⟩ := hcmp n hn l hdep
    have hex : ∃ dx ∈ l, poppedB hg2 pf dx = false := by
      by_contra hc
      push_neg at hc
      apply hunreach
      refine ReachableFrom.cmpnd hdep ?_
      intro dxx hdxx
      have hp : poppedB hg2 pf dxx = true := by
        cases hb : poppedB hg2 pf dxx with
        | false => exact absurd hb (hc dxx hdxx)
        | true => rfl
      obtain ⟨hR, -, -⟩ := hInv.pReach dxx (hldep dxx hdxx).1 hp
      rcases hR with h | h
      · exact absurd (h ▸ hdxx) hleph
      · exact h
    obtain ⟨dx, hdx, hdxp⟩ := hex
    have hdist : dget pf.DIST ((getObj hg2 n).label) = some ⊤ :=
      hInv.cnotdone n hn l hdep ⟨dx, hdx, hdxp⟩
    have hcr := hInv.ccount n hn l hdep
    simp only [List.filter_nil, List.length_nil, Nat.cast_zero,
      add_zero] at hcr
    have hlt : ((l.filter (fun d => poppedB hg2 pf d)).length : Int)
        < (l.length : Int) := by
      have h2 : (l.filter (fun d => poppedB hg2 pf d)).length < l.length :=
        List.length_filter_lt_length_iff_exists.mpr
          ⟨dx, hdx, by rw [hdxp]; simp⟩
      exact_mod_cast h2
    have hr0 : ((l.length : Int) -
        ((l.filter (fun d => poppedB hg2 pf d)).length : Int)) ≠ 0 := by
      omega
    have hlnone : dget pf.LAST ((getObj hg2 n).label) = none := by
      rcases hv : dget pf.LAST ((getObj hg2 n).label) with - | v
      · rfl
      · exfalso
        obtain ⟨i, hiN, hiS, hlbl⟩ := hInv.lastDom _ v hv
        have : i = n := label_inj hpw hiN hn hlbl
        rw [this] at hiS
        rw [hiS] at hsimp
        exact absurd hsimp (by simp)
    refine ⟨hdist, ⟨_, hcr, hr0⟩, hgetPath _ hcr hr0, ?_, ?_⟩
    · intro inputs sfuel htrue _
      exact absurd htrue (by simp)
    · intro inputs sfuel _ hni
      show simulationHelper hg2 pf n inputs (sfuel + 1) = .error .keyError
      rw [simulationHelper]
      rw [hni]
      rw [if_neg (by simp)]
      rw [show lastGetRaw pf ((getObj hg2 n).label) = .error .keyError
        from by
        unfold lastGetRaw
        rw [hlnone]]

set_option maxRecDepth 40000 in
/-- C6, counterexample to the `simulate` clause.  On the concrete graph
A→B with an isolated node C, `simulate('C', dict(A=1))` raises
AttributeError (Python evaluates `edge.rel` on the `"None"` placeholder
string) instead of reporting an explicit "unreachable" result; the
DIST-infinity and `getPath`-returns-`None` clauses do hold on this run. -/
theorem c6_counterexample :
    c6Sim = .error .attributeError ∧
    dget c6PF.DIST ((getObj c6HgS 2).label) = some ⊤ ∧
    getPath c6HgS c6PF 2 5 = .ok none := by
  refine ⟨by with_unfolding_all rfl, by with_unfolding_all rfl,
    by with_unfolding_all rfl⟩

set_option maxRecDepth 40000 in
set_option synthInstance.maxHeartbeats 1000000 in
set_option maxHeartbeats 2000000 in
/-- Witness run for the amended C6: the hypotheses of `c6_amended` hold
on the concrete A→B-plus-isolated-C graph with source set `['A']` and the
unreachable target C (arena index 2). -/
theorem c6_amended_witness :
    (¬ ReachableFrom c6HgS c6PF.source_set 2) ∧
    dget c6PF.DIST ((getObj c6HgS 2).label) = some ⊤ ∧
    (∃ r : Int, dget c6PF.REACH ((getObj c6HgS 2).label) = some r ∧
      r ≠ 0) ∧
    getPath c6HgS c6PF 2 7 = .ok none ∧
    simulationHelper c6HgS c6PF 2 [0] 6 = .error .attributeError := by
  have hunreach : ¬ ReachableFrom c6HgS c6PF.source_set 2 :=
    not_reachable_no_incoming c6HgS c6PF.source_set 2
      (of_decide_eq_true (by with_unfolding_all rfl))
      (of_decide_eq_true (by with_unfolding_all rfl))
      (by with_unfolding_all rfl)
  have hwf : WFRun c6HgS c6PF.source_set c6PF.source
      (seedEdge c6HgS c6PF.source) := by
    unfold WFRun nodesValid
    refine ⟨?_, ?_, ?_, ?_, ?_, ?_, ?_, ?_, ?_, ?_, ?_, ?_, ?_⟩ <;>
      exact of_decide_eq_true (by with_unfolding_all rfl)
  have h := c6_amended c6HgA c6HgS [NodeArg.str "A"] 20 c6PF 2
    (by with_unfolding_all rfl) hwf
    (of_decide_eq_true (by with_unfolding_all rfl))
    (of_decide_eq_true (by with_unfolding_all rfl)) hunreach
  exact ⟨hunreach, h.1, h.2.1, h.2.2.1 7,
    h.2.2.2.1 [0] 5 (by with_unfolding_all rfl)
      (by with_unfolding_all rfl)⟩

/-- C1, amended.  On a well-formed run — pairwise-distinct node labels,
every node registered, non-negative edge weights — the distance recorded
by `findPaths` for any node with a finite `DIST` entry is exactly the
least hyperpath cost from the source set: it is achieved by a derivation
and it bounds every derivation from below; a Compound node's distance is
the MAXIMUM (not the sum) of its dependencies' settled distances; and
along the recorded `LAST` predecessor edge `DIST[n] = w(e) +
DIST[source(e)]`, so `DIST` is non-decreasing along predecessor chains.
The unamended claim fails on label collisions (see the counterexample): a
user node labelled "source" aliases the ephemeral source node in the
label-keyed dictionaries and is settled at distance 0 although no
hyperpath reaches it. -/
theorem c1_amended (hg hg2 : Hypergraph) (source : List NodeArg)
    (fuel : Nat) (pf : PF) (n : NodeId)
    (hrun : findPaths hg blankPF source fuel = .ok (hg2, pf))
    (hwf : WFRun hg2 pf.source_set pf.source (seedEdge hg2 pf.source))
    (hww : WFW hg2)
    (hn : n ∈ getNodes hg2) (c : ℚ)
    (hc : dget pf.DIST ((getObj hg2 n).label)
      = some ((c : ℚ) : WithTop ℚ)) :
    Deriv hg2 pf.source n c ∧
    (∀ c', Deriv hg2 pf.source n c' → c ≤ c') ∧
    (∀ d ds, (getObj hg2 n).dependencies = some (d :: ds) →
      ∃ g : NodeId → ℚ,
        (∀ x ∈ d :: ds, dget pf.DIST ((getObj hg2 x).label)
          = some ((g x : ℚ) : WithTop ℚ)) ∧
        c = qMaxList (g d) (ds.map g)) ∧
    (∀ e, dget pf.LAST ((getObj hg2 n).label) = some (.edge e) →
      e.eid ≠ (seedEdge hg2 pf.source).eid →
      ∃ cs : ℚ, dget pf.DIST ((getObj hg2 e.source).label)
        = some ((cs : ℚ) : WithTop ℚ) ∧ c = e.weight + cs ∧ cs ≤ c) := by
  obtain ⟨-, hM⟩ := findPaths_m hrun hwf hww
  obtain ⟨hpw, hnd, hnv, hsi, hciw, hephm, hephe, hephd, hsrcm, hloc, hcmp,
    heid, he0t⟩ := hwf
  have hfun : ∀ (a b : ℚ) (ℓ : String),
      dget pf.DIST ℓ = some ((a : ℚ) : WithTop ℚ) →
      dget pf.DIST ℓ = some ((b : ℚ) : WithTop ℚ) → a = b := by
    intro a b ℓ h1 h2
    rw [h1] at h2
    have h3 : ((a : ℚ) : WithTop ℚ) = ((b : ℚ) : WithTop ℚ) :=
      Option.some.inj h2
    exact_mod_cast h3
  have hcl : dget pf.DIST (lbl hg2 n) = some ((c : ℚ) : WithTop ℚ) := hc
  refine ⟨hM.dach n hn c hcl, hM.m1 n hn c hcl, ?_, ?_⟩
  · intro d ds hdep
    have hdeps := hM.cmono n hn (d :: ds) hdep c hcl
    obtain ⟨g, hg⟩ := dists_fun (d :: ds) (fun x hx =>
      (hdeps x hx).imp (fun cx h2 => h2.1))
    have hxN := (hcmp n hn (d :: ds) hdep).2.2.2.1
    have hpopped : ∀ x ∈ d :: ds, poppedB hg2 pf x = true := by
      intro x hx
      exact hM.dfin x (hxN x hx).1 (hxN x hx).2 (g x) (hg x hx)
    obtain ⟨cz, hczd, hczle⟩ := hM.czle n hn d ds hdep (by simp) hpopped
      g hg
    have hczc : cz = c := hfun cz c (lbl hg2 n) hczd hcl
    refine ⟨g, hg, ?_⟩
    have hge : qMaxList (g d) (ds.map g) ≤ c := by
      refine qMaxList_le_of (ds.map g) (g d) c ?_ ?_
      · obtain ⟨cd, hcd, hcdle⟩ := hdeps d (List.mem_cons_self d ds)
        have h4 : g d = cd := hfun (g d) cd (lbl hg2 d)
          (hg d (List.mem_cons_self d ds)) hcd
        rw [h4]
        exact hcdle
      · intro x hx
        obtain ⟨y, hy, hyx⟩ := List.mem_map.mp hx
        obtain ⟨cy, hcy, hcyle⟩ := hdeps y (List.mem_cons_of_mem d hy)
        have h4 : g y = cy := hfun (g y) cy (lbl hg2 y)
          (hg y (List.mem_cons_of_mem d hy)) hcy
        rw [← hyx, h4]
        exact hcyle
    have hle : c ≤ qMaxList (g d) (ds.map g) := by
      rw [← hczc]
      exact hczle
    exact le_antisymm hle hge
  · intro e hlast hne0
    obtain ⟨cs, ci, hcs, hcid, heqq⟩ := hM.mono n hn e hlast hne0
    have hcic : ci = c := hfun ci c (lbl hg2 n) hcid hcl
    have hwe : (0 : ℚ) ≤ e.weight := by
      rcases hM.lastE n hn e hlast with h | h
      · exact hww.1 e h
      · exact absurd (congrArg Edge.eid h) hne0
    refine ⟨cs, hcs, ?_, ?_⟩
    · rw [← hcic]
      exact heqq
    · rw [← hcic, heqq]
      linarith

set_option maxRecDepth 40000 in
set_option synthInstance.maxHeartbeats 1000000 in
set_option maxHeartbeats 2000000 in
/-- C1's counterexample run: all edge weights are non-negative, yet the
user node 0 — labelled "source", aliasing the ephemeral source node in the
label-keyed dictionaries — ends the closure from `['A']` settled at
distance 0 with `REACH` 0 and a reconstructible path, although the graph
has no hyperpath from the source set to it (no derivation of any cost,
and not reachable). -/
theorem c1_counterexample :
    (∀ e ∈ edgesOf c1HgS, 0 ≤ e.weight) ∧
    (getObj c1HgS 0).label = "source" ∧
    (0 : NodeId) ≠ c1PF.source ∧
    dget c1PF.DIST ((getObj c1HgS 0).label)
      = some ((0 : ℚ) : WithTop ℚ) ∧
    dget c1PF.REACH ((getObj c1HgS 0).label) = some 0 ∧
    getPath c1HgS c1PF 0 5 = .ok (some [0]) ∧
    (∀ c, ¬ Deriv c1HgS c1PF.source 0 c) ∧
    ¬ ReachableFrom c1HgS c1PF.source_set 0 := by
  refine ⟨of_decide_eq_true (by with_unfolding_all rfl),
    by with_unfolding_all rfl,
    of_decide_eq_true (by with_unfolding_all rfl),
    by with_unfolding_all rfl,
    by with_unfolding_all rfl,
    by with_unfolding_all rfl,
    not_deriv_no_incoming c1HgS c1PF.source 0
      (of_decide_eq_true (by with_unfolding_all rfl))
      (of_decide_eq_true (by with_unfolding_all rfl))
      (by with_unfolding_all rfl),
    not_reachable_no_incoming c1HgS c1PF.source_set 0
      (of_decide_eq_true (by with_unfolding_all rfl))
      (of_decide_eq_true (by with_unfolding_all rfl))
      (by with_unfolding_all rfl)⟩

set_option maxRecDepth 80000 in
set_option synthInstance.maxHeartbeats 1000000 in
set_option maxHeartbeats 4000000 in
/-- Witness run for the amended C1: on the concrete graph S→A (3), S→B
(7), S→C (5) with the AND-join Compound node (arena index 5) over A, B, C,
the dependencies settle at 3, 7, 5 and the Compound node settles at their
maximum 7 — not the sum 15 — with the distance achieved, minimal, and the
predecessor equation holding. -/
theorem c1_amended_witness :
    dget c1wPF.DIST ((getObj c1wHgS 5).label)
      = some ((7 : ℚ) : WithTop ℚ) ∧
    dget c1wPF.DIST ((getObj c1wHgS 1).label)
      = some ((3 : ℚ) : WithTop ℚ) ∧
    dget c1wPF.DIST ((getObj c1wHgS 2).label)
      = some ((7 : ℚ) : WithTop ℚ) ∧
    dget c1wPF.DIST ((getObj c1wHgS 3).label)
      = some ((5 : ℚ) : WithTop ℚ) ∧
    (Deriv c1wHgS c1wPF.source 5 7 ∧
     (∀ c', Deriv c1wHgS c1wPF.source 5 c' → 7 ≤ c') ∧
     (∀ d ds, (getObj c1wHgS 5).dependencies = some (d :: ds) →
       ∃ g : NodeId → ℚ,
         (∀ x ∈ d :: ds, dget c1wPF.DIST ((getObj c1wHgS x).label)
           = some ((g x : ℚ) : WithTop ℚ)) ∧
         (7 : ℚ) = qMaxList (g d) (ds.map g)) ∧
     (∀ e, dget c1wPF.LAST ((getObj c1wHgS 5).label) = some (.edge e) →
       e.eid ≠ (seedEdge c1wHgS c1wPF.source).eid →
       ∃ cs : ℚ, dget c1wPF.DIST ((getObj c1wHgS e.source).label)
         = some ((cs : ℚ) : WithTop ℚ) ∧ (7 : ℚ) = e.weight + cs ∧
         cs ≤ 7)) := by
  have hwf : WFRun c1wHgS c1wPF.source_set c1wPF.source
      (seedEdge c1wHgS c1wPF.source) := by
    unfold WFRun nodesValid
    refine ⟨?_, ?_, ?_, ?_, ?_, ?_, ?_, ?_, ?_, ?_, ?_, ?_, ?_⟩ <;>
      exact of_decide_eq_true (by with_unfolding_all rfl)
  have hc : dget c1wPF.DIST ((getObj c1wHgS 5).label)
      = some ((7 : ℚ) : WithTop ℚ) := by with_unfolding_all rfl
  have h := c1_amended c1wHgA c1wHgS [NodeArg.str "S"] 30 c1wPF 5
    (by with_unfolding_all rfl) hwf
    ⟨of_decide_eq_true (by with_unfolding_all rfl),
      of_decide_eq_true (by with_unfolding_all rfl)⟩
    (of_decide_eq_true (by with_unfolding_all rfl)) 7 hc
  exact ⟨hc, by with_unfolding_all rfl, by with_unfolding_all rfl,
    by with_unfolding_all rfl, h⟩

/-- C8, amended, universal half: `Hypergraph.addEdge` preserves the
compound-edge invariant (weight `0`, pass-through relationship for every
edge whose target is Compound) on any well-formed graph: every edge it
creates onto a Compound target gets weight `0` and the `to` relationship,
and surviving edges keep the invariant.  Together with the counterexample
(`Node.addEdge` enforces nothing) this gives the amended claim: the
invariant is established by `Hypergraph.addEdge` only, not at
edge-creation time in general. -/
theorem c8_amended (hg0 : Hypergraph) (source : List NodeArg)
    (target : NodeArg) (rel : Option Relationship) (w : ℚ)
    (hg' : Hypergraph)
    (hrel : hg0.dotted_rel.label = "to#rel")
    (htgt : edgeTargetsValid hg0)
    (hnodes : nodesValid hg0)
    (htv : ∀ k, target = NodeArg.node k → k < hg0.arena.length)
    (hinv : compoundEdgeInv hg0)
    (hok : addEdge hg0 source target rel w = .ok hg') :
    compoundEdgeInv hg' := by
  cases h1 : resolveArgsMake hg0 source with
  | error err =>
    simp only [addEdge, h1] at hok
    exact Except.noConfusion hok
  | ok p1 =>
    obtain ⟨hg1, src⟩ := p1
    obtain ⟨r1, r2, r3, r4, r5⟩ := resolveArgsMake_facts h1
    rcases hm : resolveMake hg1 target with ⟨hg2, otgt⟩
    cases otgt with
    | none =>
      simp only [addEdge, h1, hm] at hok
      exact Except.noConfusion hok
    | some tgt0 =>
      simp only [addEdge, h1, hm, Except.ok.injEq] at hok
      subst hok
      have g := resolveMake_facts hg1 target
      rw [hm] at g
      obtain ⟨g1, g2, g3, g4, g5, g6⟩ := g
      have e02 : ∀ e ∈ edgesOf hg2, e ∈ edgesOf hg0 :=
        fun e he => r1 e (g1 e he)
      have d02 : ∀ j, j < hg0.arena.length →
          (getObj hg2 j).dependencies = (getObj hg0 j).dependencies := by
        intro j hj
        rw [g2 j (Nat.lt_of_lt_of_le hj r3), r2 j hj]
      have l02 : hg0.arena.length ≤ hg2.arena.length := Nat.le_trans r3 g3
      have rel02 : hg2.dotted_rel.label = "to#rel" := by rw [g4, r4]; exact hrel
      have htgt0 : tgt0 < hg2.arena.length := by
        refine g6 (r5 hnodes) tgt0 rfl ?_
        intro k hk
        exact Nat.lt_of_lt_of_le (htv k hk) r3
      have inv2 : compoundEdgeInv hg2 := by
        intro e he hc
        have he0 := e02 e he
        have hlt := htgt e he0
        refine hinv e he0 ?_
        unfold isSimple at hc ⊢
        rw [← d02 e.target hlt]
        exact hc
      exact addEdge_core_inv hg0 hg2 _ src tgt0 _ _ w rfl e02 l02 rel02
        htgt0 htgt inv2

/-- Witness for `c8_amended` at a concrete input: the promotion call of
claim C2 run from the empty graph, all hypotheses checked by computation. -/
theorem c8_amended_witness : compoundEdgeInv c2GraphA :=
  c8_amended emptyHypergraph [.str "A", .str "B"] (.str "C") (some relPlus) 1
    c2GraphA rfl
    (by intro e he; simp [edgesOf, emptyHypergraph] at he)
    (by intro i hi; simp [getNodes, emptyHypergraph] at hi)
    (by intro k hk; cases hk)
    (by intro e he; simp [edgesOf, emptyHypergraph] at he)
    rfl

/-- C5 (code bug).  The claim — following the constructor's own docstring —
says a `Relationship` built without an explicit mapping returns the first
element of its input.  In the code, `Relationship.__init__` unconditionally
executes `self.mapping = mapping` after the `None`-default branch, so the
stored mapping is `None` and calling the relationship raises TypeError
(`'NoneType' object is not callable`).  The same broken relationship is what
`Edge.__init__` builds when `rel=None`. -/
theorem c5_default_relationship_raises :
    (mkRelationship "r" none).mapping = none ∧
    Relationship.callList (mkRelationship "r" none) [5] = .error .typeError ∧
    ((getObj (nodeAddEdge c9Hg 0 0 1 none) 0).full_edges.map
        (fun e => e.rel.mapping.isNone)) = [true] :=
  ⟨rfl, rfl, rfl⟩

/-- C4 (code bug).  `addNode("N2"); addNode("B"); addNode("B")`: the third
call collides on `"B"` and is silently relabelled to `"N" + str(lastID)` =
`"N2"`, which is *not* re-checked against existing labels, so the graph ends
with two distinct nodes labelled `"N2"` — contradicting the claimed (and
docstring-promised) label uniqueness. -/
theorem c4_relabel_collides :
    nodeLabels c4Graph = ["N2", "B", "N2"] ∧ ¬ (nodeLabels c4Graph).Nodup :=
  ⟨rfl, by decide⟩

/-- C7 (code bug).  The claim says the ephemeral "source" node is
synthesized iff the source set has more than one node.  The guard in
`configureSource` reads `source[0] if len(source)==0 else
self.makeSourceSet(source)` — a slip for `len(source)==1` (indexing an empty
list always raises) — so the node is synthesized for a singleton source too:
from the one-node graph `["A"]`, `configureSource(['A'])` leaves the graph
with a second, "source"-labelled simple node (node `A` itself unmutated). -/
theorem c7_singleton_synthesizes_source :
    (c7Run.map (fun p => nodeLabels p.1) = .ok ["A", "source"]) ∧
    (c7Run.map (fun p => getObj p.1 0) = .ok (getObj c7Start 0)) ∧
    (c7Run.map (fun p => (getObj p.1 1).full_edges.map
        (fun e => (e.source, e.target, e.weight))) = .ok [(1, 0, 0)]) :=
  ⟨rfl, rfl, rfl⟩

/-- C2, counterexample.  On `addEdge(['A','B'],'C',plus)` over a fresh graph
(arena: A=0, B=1, C=2, compound=3) the claim's edge description fails: the
compound node has *no* dotted edge (its edge to C is held in `full_edges`
and carries weight 1, not 0), and A and B have *no* full edges — their edges
to the compound node are dotted ones. -/
theorem c2_counterexample :
    c2Graph.map (fun hg =>
        ((getObj hg 3).dotted_edges.length,
         (getObj hg 3).full_edges.map (fun e => (e.target, e.weight)),
         (getObj hg 0).full_edges.length,
         (getObj hg 1).full_edges.length))
      = .ok (0, [(2, 1)], 0, 0) := rfl

/-- C2, amended: `addEdge(['A','B'],'C',rel)` on a fresh graph creates
exactly one new Compound node with dependencies `[A,B]`; one *full* edge
Compound→C carrying the call's weight (the default `1.0`) and its
relationship; and two *dotted* edges A→Compound and B→Compound, each with
weight `0` and the pass-through `to` relationship. -/
theorem c2_amended :
    c2Graph.map (fun hg =>
        (nodeLabels hg,
         hg.compnd_nodes,
         (getObj hg 3).dependencies,
         (getObj hg 3).full_edges.map (fun e => (e.source, e.target, e.weight, e.rel.label)),
         (getObj hg 3).dotted_edges.length,
         (getObj hg 0).full_edges.length,
         (getObj hg 0).dotted_edges.map (fun e => (e.source, e.target, e.weight, e.rel.label)),
         (getObj hg 1).full_edges.length,
         (getObj hg 1).dotted_edges.map (fun e => (e.source, e.target, e.weight, e.rel.label)),
         (getObj hg 2).full_edges.length + (getObj hg 2).dotted_edges.length))
      = .ok (["A", "B", "C", "AB"], [3], some [0, 1],
         [(3, 2, 1, "plus#rel")], 0,
         0, [(0, 3, 0, "to#rel")],
         0, [(1, 3, 0, "to#rel")], 0) := rfl

set_option maxRecDepth 40000 in
/-- C3.  On the graph of `demos/basic.py` (`A,B→C` via plus, `A→D` and
`B→E` via negate, `D,E→F` via plus, `F→C` via negate),
`simulate('C', dict(A=3,B=7))` returns `10`, and — on the state left by that
call — `simulate('C', dict(A=3,E=-7))` also returns `10` (the latter runs
through the longer hyperpath D,E→F→C because B is not derivable from
the inputs A and E). -/
theorem c3_simulate_returns_ten :
    basicSim1.map (fun p => p.2) = .ok 10 ∧
    basicSim2.map (fun p => p.2) = .ok 10 :=
  ⟨by with_unfolding_all rfl, by with_unfolding_all rfl⟩

/-- C8, counterexample.  `c8Hg` holds simple nodes X, Y and a compound node
Z (arena index 2).  Calling `Node.addEdge` directly —
`X.addEdge(Z, weight=5, rel=plus)` — files a dotted edge onto the compound
target with weight `5` and the `plus` relationship: nothing at
edge-creation time (`Edge.__init__` or `Node.addEdge`) forces weight `0` or
the pass-through relationship; only `Hypergraph.addEdge` does. -/
theorem c8_counterexample :
    isSimple c8Hg 2 = false ∧
    ((getObj c8After 0).dotted_edges.map
        (fun e => (e.target, e.weight, e.rel.label))) = [(2, 5, "plus#rel")] :=
  ⟨rfl, rfl⟩

/-- C9, counterexample.  On a graph holding only node "A",
`setNodeValues({"B": 5})` silently does nothing — the key matching no label
is skipped without any error, contradicting the claimed reportable lookup
error. -/
theorem c9_counterexample :
    setNodeValues c9Hg [("B", 5)] = c9Hg := rfl

/-- C9, amended: a `setNodeValues` dict key matching no node label is
silently skipped (the call behaves as if the entry were absent — no error is
raised and the graph is untouched by that entry), while the unknown-label
lookup error of the claim is raised by `Hypergraph.simulate` when an *input*
label matches no node (`Exception("Input node not found in Hypergraph.")`). -/
theorem c9_amended :
    (∀ (hg : Hypergraph) (k : String) (v : Val)
        (rest : List (String × Val)),
      (∀ i ∈ getNodes hg, (getObj hg i).label ≠ k) →
      setNodeValues hg ((k, v) :: rest) = setNodeValues hg rest) ∧
    (∀ (s : Sys) (target : NodeArg) (input_values : List (String × Val))
        (fuel : Nat),
      (∃ kv ∈ input_values, getNodeNoMake s.hg kv.1 = none) →
      hgSimulate s target input_values fuel = .error .exceptionRaised) := by
  constructor
  · intro hg k v rest h
    have hf : (getNodes hg).find? (fun i => (getObj hg i).label == k)
        = none := by
      rw [List.find?_eq_none]
      intro i hi
      simpa using h i hi
    simp only [setNodeValues, List.foldl_cons, hf]
  · intro s target input_values fuel h
    obtain ⟨kv, hkv, hnone⟩ := h
    have hany : ((input_values.map
        (fun kv => getNodeNoMake s.hg kv.1)).any
        (fun r => r.isNone)) = true := by
      rw [List.any_eq_true]
      exact ⟨getNodeNoMake s.hg kv.1, List.mem_map.mpr ⟨kv, hkv, rfl⟩,
        by simp [hnone]⟩
    simp only [hgSimulate, hany]
    rfl

/-- Witness for `c9_amended` at concrete inputs: the unknown key "B" on the
one-node graph is skipped, and `simulate` with the unknown input label "B"
raises. -/
theorem c9_amended_witness :
    setNodeValues c9Hg [("B", 5)] = setNodeValues c9Hg [] ∧
    hgSimulate ⟨c9Hg, []⟩ (.str "A") [("B", 5)] 5
      = .error .exceptionRaised := by
  constructor
  · exact c9_amended.1 c9Hg "B" 5 [] (by decide)
  · exact c9_amended.2 ⟨c9Hg, []⟩ (.str "A") [("B", 5)] 5
      ⟨("B", 5), by simp, by rfl⟩

/-- C10.  `Node.__eq__` compares by label alone (any object with a `label`
attribute equal to `self.label` compares equal, irrespective of
dependencies, value or edges); hence the object-reference comparison used by
`getPath`'s `curr == self.source` test is a label comparison, the
simulator's `node in inputs` membership test holds exactly when some input
shares the node's label, and the string hashed by `Node.__hash__` is exactly
the label. -/
theorem c10_node_equality_is_label_equality :
    (∀ a b : NodeObj, nodeEqPy a b = true ↔ b.label = a.label) ∧
    (∀ hg i j, nodeRefEq hg i j = true ↔
        (getObj hg j).label = (getObj hg i).label) ∧
    (∀ hg node inputs, nodeInInputs hg node inputs = true ↔
        ∃ i ∈ inputs, (getObj hg node).label = (getObj hg i).label) ∧
    (∀ n : NodeObj, nodeHashKey n = n.label) := by
  refine ⟨fun a b => ?_, fun hg i j => ?_, fun hg node inputs => ?_, fun n => rfl⟩
  · simp [nodeEqPy]
  · simp [nodeRefEq, nodeEqPy]
  · simp [nodeInInputs, nodeRefEq, nodeEqPy, List.any_eq_true]

/-- Witness for C10 at concrete nodes: two node objects agreeing only on
the label compare equal. -/
theorem c10_witness :
    nodeEqPy
      { label := "x", full_edges := [], dotted_edges := [],
        dependencies := none, value := none }
      { label := "x", full_edges := [], dotted_edges := [],
        dependencies := some [7], value := some 3 } = true :=
  (c10_node_equality_is_label_equality.1 _ _).mpr rfl

end AH
